import Mathlib

/-!
Verification of the voxel-octree core of the `crafter` repository.

The embedding translates `src/ocnode.rs`, `src/octree.rs` and `src/cube.rs`
into Lean. Floating point (`f32`) values are modelled by exact rationals;
the random draw in `Cube::init` (an opaque render key never read by any
algorithm here) is modelled as the constant 0. Rust's children array
`[Option<Box<Ocnode>>; 8]` is modelled as the list of its `Some` entries in
order: every loop in the source skips `None` entries (`match None => {}`),
so the `None` slots are unobservable.
-/

namespace Crafter

/-- The `color: [f32; 4]` field of an `Ocnode`, as four exact rationals. -/
structure Color4 where
  c0 : ℚ
  c1 : ℚ
  c2 : ℚ
  c3 : ℚ
deriving DecidableEq, Repr

/-- `pub const LEVELS: u32 = 8;` from `src/ocnode.rs`. -/
def LEVELS : Nat := 8

/-- `pub const LEVELS: u32 = 9;` from `src/octree.rs` (a distinct constant
shadowing the one in `ocnode.rs` inside that module). -/
def octreeLEVELS : Nat := 9

/-- A single octree node, from `struct Ocnode` in `src/ocnode.rs`.
Field order follows the Rust struct. `children` lists the `Some` entries of
the Rust `[Option<Box<Ocnode>>; 8]` array in order. -/
inductive Ocnode where
  | mk
      (xIndex : Int)
      (yIndex : Int)
      (zIndex : Int)
      (subDivisionLevel : Nat)
      (active : Bool)
      (children : List Ocnode)
      (hasChildren : Bool)
      (color : Color4)
      (fluid : Int)
      (noise : Int)
      (frontOccludedCalculated : Bool)
      (backOccludedCalculated : Bool)
      (topOccludedCalculated : Bool)
      (bottomOccludedCalculated : Bool)
      (leftOccludedCalculated : Bool)
      (rightOccludedCalculated : Bool)
deriving Repr

namespace Ocnode

def xIndex : Ocnode → Int
  | .mk x _ _ _ _ _ _ _ _ _ _ _ _ _ _ _ => x

def yIndex : Ocnode → Int
  | .mk _ y _ _ _ _ _ _ _ _ _ _ _ _ _ _ => y

def zIndex : Ocnode → Int
  | .mk _ _ z _ _ _ _ _ _ _ _ _ _ _ _ _ => z

def subDivisionLevel : Ocnode → Nat
  | .mk _ _ _ l _ _ _ _ _ _ _ _ _ _ _ _ => l

def active : Ocnode → Bool
  | .mk _ _ _ _ a _ _ _ _ _ _ _ _ _ _ _ => a

def children : Ocnode → List Ocnode
  | .mk _ _ _ _ _ ch _ _ _ _ _ _ _ _ _ _ => ch

def hasChildren : Ocnode → Bool
  | .mk _ _ _ _ _ _ hc _ _ _ _ _ _ _ _ _ => hc

def color : Ocnode → Color4
  | .mk _ _ _ _ _ _ _ c _ _ _ _ _ _ _ _ => c

def fluid : Ocnode → Int
  | .mk _ _ _ _ _ _ _ _ f _ _ _ _ _ _ _ => f

def noise : Ocnode → Int
  | .mk _ _ _ _ _ _ _ _ _ n _ _ _ _ _ _ => n

def frontOccludedCalculated : Ocnode → Bool
  | .mk _ _ _ _ _ _ _ _ _ _ fo _ _ _ _ _ => fo

def backOccludedCalculated : Ocnode → Bool
  | .mk _ _ _ _ _ _ _ _ _ _ _ bo _ _ _ _ => bo

def topOccludedCalculated : Ocnode → Bool
  | .mk _ _ _ _ _ _ _ _ _ _ _ _ t _ _ _ => t

def bottomOccludedCalculated : Ocnode → Bool
  | .mk _ _ _ _ _ _ _ _ _ _ _ _ _ b _ _ => b

def leftOccludedCalculated : Ocnode → Bool
  | .mk _ _ _ _ _ _ _ _ _ _ _ _ _ _ l _ => l

def rightOccludedCalculated : Ocnode → Bool
  | .mk _ _ _ _ _ _ _ _ _ _ _ _ _ _ _ r => r

theorem sizeOf_children_lt (t : Ocnode) : sizeOf t.children < sizeOf t := by
  cases t with
  | mk x y z l a ch hc c f n p q r s u v => simp [children]; omega

mutual

def nodeDecEq : (a b : Ocnode) → Decidable (a = b)
  | .mk x1 y1 z1 l1 a1 ch1 hc1 c1 f1 n1 p1 q1 r1 s1 t1 u1,
    .mk x2 y2 z2 l2 a2 ch2 hc2 c2 f2 n2 p2 q2 r2 s2 t2 u2 => by
    haveI := listDecEq ch1 ch2
    exact decidable_of_iff
      (x1 = x2 ∧ y1 = y2 ∧ z1 = z2 ∧ l1 = l2 ∧ a1 = a2 ∧ ch1 = ch2 ∧ hc1 = hc2
        ∧ c1 = c2 ∧ f1 = f2 ∧ n1 = n2 ∧ p1 = p2 ∧ q1 = q2 ∧ r1 = r2 ∧ s1 = s2
        ∧ t1 = t2 ∧ u1 = u2)
      (by rw [Ocnode.mk.injEq])

def listDecEq : (as bs : List Ocnode) → Decidable (as = bs)
  | [], [] => isTrue rfl
  | [], _ :: _ => isFalse (by simp)
  | _ :: _, [] => isFalse (by simp)
  | a :: as, b :: bs => by
    haveI := nodeDecEq a b
    haveI := listDecEq as bs
    exact decidable_of_iff (a = b ∧ as = bs) (by rw [List.cons.injEq])

end

instance : DecidableEq Ocnode := nodeDecEq

/-- `Ocnode::range`: `2i32.pow(LEVELS - 1) / 2`. -/
def range : Int := 2 ^ (LEVELS - 1) / 2

/-- `Ocnode::resolution`: width of a cube at `subDivisionLevel`,
`2u32.pow(LEVELS - sub_division_level)` (the Rust `checked_sub` aborts
when `sub_division_level > LEVELS`; all call sites pass levels `≤ LEVELS`). -/
def resolution (subDivisionLevel : Nat) : Nat := 2 ^ (LEVELS - subDivisionLevel)

/-- `Ocnode::new()`. -/
def new : Ocnode :=
  .mk (-range) (-range) (-range) 1 false [] false
    ⟨4/5, 4/5, 4/5, 4/5⟩ 0 0 false false false false false false

/-- `Ocnode::uniform`: identical color, fluid and noise (occlusion flags do
not participate). -/
def uniform (self compare : Ocnode) : Bool :=
  !(decide (compare.color.c0 ≠ self.color.c0)
    || decide (compare.color.c1 ≠ self.color.c1)
    || decide (compare.color.c2 ≠ self.color.c2)
    || decide (compare.color.c3 ≠ self.color.c3)
    || decide (compare.fluid ≠ self.fluid)
    || decide (compare.noise ≠ self.noise))

mutual

/-- `Ocnode::find_by_index` (the immutable lookup; `find_mut_by_index`
traverses identically). -/
def findByIndex (t : Ocnode) (x y z : Int) (level : Nat) : Option Ocnode :=
  if level = t.subDivisionLevel then
    if t.xIndex = x ∧ t.yIndex = y ∧ t.zIndex = z then some t else none
  else
    if (x ≥ t.xIndex ∧ x ≤ t.xIndex + (resolution t.subDivisionLevel : Int)
        ∧ y ≥ t.yIndex ∧ y ≤ t.yIndex + (resolution t.subDivisionLevel : Int)
        ∧ z ≥ t.zIndex ∧ z ≤ t.zIndex + (resolution t.subDivisionLevel : Int))
        ∧ t.hasChildren = true then
      findList t.children x y z level
    else
      none
termination_by sizeOf t
decreasing_by
  exact sizeOf_children_lt t

/-- The child loop of `find_by_index`: first `Some` result wins. -/
def findList (cs : List Ocnode) (x y z : Int) (level : Nat) : Option Ocnode :=
  match cs with
  | [] => none
  | c :: rest =>
    match findByIndex c x y z level with
    | some node => some node
    | none => findList rest x y z level
termination_by sizeOf cs
decreasing_by all_goals (simp <;> omega)

end

mutual

/-- All nodes of a subtree in preorder (the traversal order shared by
`active_nodes`, `clear`, `recalculate_occlusion` and `drawables`). -/
def nodes (t : Ocnode) : List Ocnode :=
  t :: nodesList t.children
termination_by sizeOf t
decreasing_by
  exact sizeOf_children_lt t

def nodesList (cs : List Ocnode) : List Ocnode :=
  match cs with
  | [] => []
  | c :: rest => nodes c ++ nodesList rest
termination_by sizeOf cs
decreasing_by all_goals (simp <;> omega)

end

mutual

/-- `Ocnode::active_nodes`: the active nodes of the subtree in preorder.
The Rust pushes a deep clone; values are immutable here. The child loop
runs only under `has_children`. -/
def activeNodes (t : Ocnode) : List Ocnode :=
  (if t.active then [t] else []) ++
    (if t.hasChildren then activeNodesList t.children else [])
termination_by sizeOf t
decreasing_by
  exact sizeOf_children_lt t

def activeNodesList (cs : List Ocnode) : List Ocnode :=
  match cs with
  | [] => []
  | c :: rest => activeNodes c ++ activeNodesList rest
termination_by sizeOf cs
decreasing_by all_goals (simp <;> omega)

end

/-- Overwrite the six cached occlusion flags of a node (the assignments in
`recalculate_occlusion` and `recalculate_occlusion_for_selections`). -/
def setOcclusionFlags (n : Ocnode) (front back top bottom left right : Bool) : Ocnode :=
  match n with
  | .mk x y z l a ch hc c f no _ _ _ _ _ _ =>
    .mk x y z l a ch hc c f no front back top bottom left right

/-- `Ocnode::bottom_occluded`: neighbour one resolution step down. -/
def bottomOccluded (self root : Ocnode) : Bool :=
  match findByIndex root self.xIndex
      (self.yIndex - (resolution self.subDivisionLevel : Int)) self.zIndex
      self.subDivisionLevel with
  | some bottom => if bottom.active then uniform self bottom else false
  | none => false

/-- `Ocnode::left_occluded`. -/
def leftOccluded (self root : Ocnode) : Bool :=
  match findByIndex root (self.xIndex - (resolution self.subDivisionLevel : Int))
      self.yIndex self.zIndex self.subDivisionLevel with
  | some left => if left.active then uniform self left else false
  | none => false

/-- `Ocnode::right_occluded`. -/
def rightOccluded (self root : Ocnode) : Bool :=
  match findByIndex root (self.xIndex + (resolution self.subDivisionLevel : Int))
      self.yIndex self.zIndex self.subDivisionLevel with
  | some right => if right.active then uniform self right else false
  | none => false

/-- `Ocnode::front_occluded`. -/
def frontOccluded (self root : Ocnode) : Bool :=
  match findByIndex root self.xIndex self.yIndex
      (self.zIndex - (resolution self.subDivisionLevel : Int)) self.subDivisionLevel with
  | some front => if front.active then uniform self front else false
  | none => false

/-- `Ocnode::back_occluded`. -/
def backOccluded (self root : Ocnode) : Bool :=
  match findByIndex root self.xIndex self.yIndex
      (self.zIndex + (resolution self.subDivisionLevel : Int)) self.subDivisionLevel with
  | some back => if back.active then uniform self back else false
  | none => false

/-- `Ocnode::top_occluded`. -/
def topOccluded (self root : Ocnode) : Bool :=
  match findByIndex root self.xIndex
      (self.yIndex + (resolution self.subDivisionLevel : Int)) self.zIndex
      self.subDivisionLevel with
  | some top => if top.active then uniform self top else false
  | none => false

mutual

/-- `Ocnode::recalculate_occlusion(root)`: an active node recomputes its six
flags against `root`; children are then visited under `has_children`. The
six checks read only index, level, activity, colour, fluid and noise, none
of which this pass modifies, so computing them from the original node is
exact. -/
def recalculateOcclusion (root t : Ocnode) : Ocnode :=
  match t with
  | .mk x y z l a ch hc c f n fo bo tp bt lo ro =>
    let self := Ocnode.mk x y z l a ch hc c f n fo bo tp bt lo ro
    let fo2 := if a then frontOccluded self root else fo
    let bo2 := if a then backOccluded self root else bo
    let tp2 := if a then topOccluded self root else tp
    let bt2 := if a then bottomOccluded self root else bt
    let lo2 := if a then leftOccluded self root else lo
    let ro2 := if a then rightOccluded self root else ro
    let ch2 := if hc then recalculateOcclusionList root ch else ch
    .mk x y z l a ch2 hc c f n fo2 bo2 tp2 bt2 lo2 ro2
termination_by sizeOf t
decreasing_by
  simp; omega

def recalculateOcclusionList (root : Ocnode) (cs : List Ocnode) : List Ocnode :=
  match cs with
  | [] => []
  | c :: rest => recalculateOcclusion root c :: recalculateOcclusionList root rest
termination_by sizeOf cs
decreasing_by all_goals (simp <;> omega)

end

mutual

/-- `Ocnode::clear`: deactivate this node and, unconditionally, every
child. -/
def clear (t : Ocnode) : Ocnode :=
  match t with
  | .mk x y z l _ ch hc c f n fo bo tp bt lo ro =>
    .mk x y z l false (clearList ch) hc c f n fo bo tp bt lo ro
termination_by sizeOf t
decreasing_by
  simp; omega

def clearList (cs : List Ocnode) : List Ocnode :=
  match cs with
  | [] => []
  | c :: rest => clear c :: clearList rest
termination_by sizeOf cs
decreasing_by all_goals (simp <;> omega)

end

/-- The field copy performed by `Ocnode::apply` on the matched node:
active, colour, fluid, noise and the six occlusion flags. -/
def copyNodeAttributes (src tgt : Ocnode) : Ocnode :=
  match tgt with
  | .mk x y z l _ ch hc _ _ _ _ _ _ _ _ _ =>
    .mk x y z l src.active ch hc src.color src.fluid src.noise
      src.frontOccludedCalculated src.backOccludedCalculated
      src.topOccludedCalculated src.bottomOccludedCalculated
      src.leftOccludedCalculated src.rightOccludedCalculated

mutual

/-- `Ocnode::find_mut_by_index` followed by a field assignment `g` on the
found node. The traversal is identical to `find_by_index`; the first child
whose subtree reports a match receives the mutation. -/
def updateByIndex (t : Ocnode) (x y z : Int) (level : Nat) (g : Ocnode → Ocnode) : Ocnode :=
  match t with
  | .mk xi yi zi l a ch hc c f n fo bo tp bt lo ro =>
    let self := Ocnode.mk xi yi zi l a ch hc c f n fo bo tp bt lo ro
    if level = l then
      if xi = x ∧ yi = y ∧ zi = z then g self else self
    else
      if (x ≥ xi ∧ x ≤ xi + (resolution l : Int)
          ∧ y ≥ yi ∧ y ≤ yi + (resolution l : Int)
          ∧ z ≥ zi ∧ z ≤ zi + (resolution l : Int))
          ∧ hc = true then
        Ocnode.mk xi yi zi l a (updateList ch x y z level g) hc c f n fo bo tp bt lo ro
      else
        self
termination_by sizeOf t
decreasing_by
  simp; omega

def updateList (cs : List Ocnode) (x y z : Int) (level : Nat) (g : Ocnode → Ocnode) : List Ocnode :=
  match cs with
  | [] => []
  | c :: rest =>
    if (findByIndex c x y z level).isSome then
      updateByIndex c x y z level g :: rest
    else
      c :: updateList rest x y z level g
termination_by sizeOf cs
decreasing_by all_goals (simp <;> omega)

end

/-- `Ocnode::apply`: copy a stored record onto the node with its index and
level; a lookup miss is a no-op. -/
def apply (t node : Ocnode) : Ocnode :=
  updateByIndex t node.xIndex node.yIndex node.zIndex node.subDivisionLevel
    (copyNodeAttributes node)

/-- The assignment done by `toggle_voxels` on a matched leaf. -/
def setVoxel (value : Bool) (color : Color4) (fluid noise : Int) : Ocnode → Ocnode
  | .mk x y z l _ ch hc _ _ _ fo bo tp bt lo ro =>
    .mk x y z l value ch hc color fluid noise fo bo tp bt lo ro

/-- `Ocnode::toggle_voxels`: for each position, set active/colour/fluid/noise
on the leaf found at the finest level (`ocnode::LEVELS`); misses are
skipped. -/
def toggleVoxels (t : Ocnode) (positions : List (Int × Int × Int)) (value : Bool)
    (color : Color4) (fluid noise : Int) : Ocnode :=
  positions.foldl
    (fun acc p => updateByIndex acc p.1 p.2.1 p.2.2 LEVELS (setVoxel value color fluid noise)) t

/-- `Ocnode::all_voxels_active`: false on the first found-but-inactive leaf;
a coordinate whose lookup fails is only logged and does not influence the
result. -/
def allVoxelsActive (t : Ocnode) : List (Int × Int × Int) → Bool
  | [] => true
  | p :: rest =>
    match findByIndex t p.1 p.2.1 p.2.2 LEVELS with
    | some found => if found.active then allVoxelsActive t rest else false
    | none => allVoxelsActive t rest

/-- `Ocnode::optimize`: the entire body of this method is commented out in
the source, so it returns its receiver unchanged. -/
def optimize (_cameraEye : ℚ × ℚ × ℚ) (t : Ocnode) : Ocnode := t

/-- The assignment done by `paint_connected_nodes_with_completion` on the
matched node: colour, noise and fluid (activity and flags untouched). -/
def setPaint (materialColor : Color4) (noise fluid : Int) : Ocnode → Ocnode
  | .mk x y z l a ch hc _ _ _ fo bo tp bt lo ro =>
    .mk x y z l a ch hc materialColor fluid noise fo bo tp bt lo ro

/-- `Ocnode::paint_connected_nodes_with_completion`. The Rust recursion
terminates because every call that finds its candidate appends a coordinate
of an existing node, not yet in `completed`, before recursing; `fuel`
bounds the recursion depth and is instantiated by the wrapper with a bound
that dominates it. Neighbour order follows the source: left, right, top,
bottom, front, back. -/
def paintConnectedNodesWithCompletion (fuel : Nat) (t : Ocnode)
    (collision : Int × Int × Int × Nat) (materialColor : Color4) (noise fluid : Int)
    (completed : List (Int × Int × Int × Nat)) :
    Ocnode × List (Int × Int × Int × Nat) :=
  match fuel with
  | 0 => (t, completed)
  | fuel + 1 =>
    let (x, y, z, level) := collision
    match findByIndex t x y z level with
    | none => (t, completed)
    | some candidate =>
      let s0 : Ocnode × List (Int × Int × Int × Nat) :=
        (updateByIndex t x y z level (setPaint materialColor noise fluid),
         completed ++ [(x, y, z, level)])
      let s1 :=
        if candidate.leftOccludedCalculated = true ∧ (x - 1, y, z, level) ∉ s0.2 then
          paintConnectedNodesWithCompletion fuel s0.1 (x - 1, y, z, level)
            materialColor noise fluid s0.2
        else s0
      let s2 :=
        if candidate.rightOccludedCalculated = true ∧ (x + 1, y, z, level) ∉ s1.2 then
          paintConnectedNodesWithCompletion fuel s1.1 (x + 1, y, z, level)
            materialColor noise fluid s1.2
        else s1
      let s3 :=
        if candidate.topOccludedCalculated = true ∧ (x, y + 1, z, level) ∉ s2.2 then
          paintConnectedNodesWithCompletion fuel s2.1 (x, y + 1, z, level)
            materialColor noise fluid s2.2
        else s2
      let s4 :=
        if candidate.bottomOccludedCalculated = true ∧ (x, y - 1, z, level) ∉ s3.2 then
          paintConnectedNodesWithCompletion fuel s3.1 (x, y - 1, z, level)
            materialColor noise fluid s3.2
        else s3
      let s5 :=
        if candidate.frontOccludedCalculated = true ∧ (x, y, z - 1, level) ∉ s4.2 then
          paintConnectedNodesWithCompletion fuel s4.1 (x, y, z - 1, level)
            materialColor noise fluid s4.2
        else s4
      let s6 :=
        if candidate.backOccludedCalculated = true ∧ (x, y, z + 1, level) ∉ s5.2 then
          paintConnectedNodesWithCompletion fuel s5.1 (x, y, z + 1, level)
            materialColor noise fluid s5.2
        else s5
      s6

/-- `Ocnode::paint_connected_nodes`: run the completion-tracking recursion
with an empty visited list and enough fuel for any reachable depth. -/
def paintConnectedNodes (t : Ocnode) (collision : Int × Int × Int × Nat)
    (materialColor : Color4) (noise fluid : Int) : Ocnode :=
  (paintConnectedNodesWithCompletion ((nodes t).length + 2) t collision
    materialColor noise fluid []).1

/-- `nalgebra::Point3<f32>`, as exact rationals. -/
structure P3 where
  x : ℚ
  y : ℚ
  z : ℚ
deriving DecidableEq, Repr

/-- `Ocnode::distance_to`: squared distance from a point to the node's raw
index triple (no resolution scaling). -/
def distanceTo (n : Ocnode) (point : P3) : ℚ :=
  let dx := point.x - (n.xIndex : ℚ)
  let dy := point.y - (n.yIndex : ℚ)
  let dz := point.z - (n.zIndex : ℚ)
  dx * dx + dy * dy + dz * dz

/-- `Ocnode::intersects_line` over exact rationals, plane order as in the
source: front `z = z_index`, left `x = x_index`, right `x = x_index + 1`,
back `y = y_index`, top `y = y_index + 1`, bottom `y = y_index`. Note the
plane constants are raw indices while the box is index × resolution, and no
plane at `z_index + 1` is tested. Division by zero, which in `f32` produces
an infinity or NaN whose box test always fails, is `0` in `ℚ`; the theorems
below therefore assume the segment is parallel to no coordinate plane. -/
def intersectsLine (self : Ocnode) (near far : P3) : Bool :=
  let res : ℚ := (resolution self.subDivisionLevel : ℚ)
  let minV : P3 := ⟨(self.xIndex : ℚ) * res, (self.yIndex : ℚ) * res, (self.zIndex : ℚ) * res⟩
  let maxV : P3 :=
    ⟨((self.xIndex : ℚ) + 1) * res, ((self.yIndex : ℚ) + 1) * res, ((self.zIndex : ℚ) + 1) * res⟩
  let pointAt : ℚ → P3 := fun t =>
    ⟨near.x + t * (far.x - near.x), near.y + t * (far.y - near.y), near.z + t * (far.z - near.z)⟩
  let inBox : P3 → Bool := fun p =>
    decide (p.x ≥ minV.x) && decide (p.x ≤ maxV.x)
      && decide (p.y ≥ minV.y) && decide (p.y ≤ maxV.y)
      && decide (p.z ≥ minV.z) && decide (p.z ≤ maxV.z)
  let tFront := ((self.zIndex : ℚ) - near.z) / (far.z - near.z)
  if inBox (pointAt tFront) then true else
  let tLeft := ((self.xIndex : ℚ) - near.x) / (far.x - near.x)
  if inBox (pointAt tLeft) then true else
  let tRight := (((self.xIndex : ℚ) + 1) - near.x) / (far.x - near.x)
  if inBox (pointAt tRight) then true else
  let tBack := ((self.yIndex : ℚ) - near.y) / (far.y - near.y)
  if inBox (pointAt tBack) then true else
  let tTop := (((self.yIndex : ℚ) + 1) - near.y) / (far.y - near.y)
  if inBox (pointAt tTop) then true else
  let tBottom := ((self.yIndex : ℚ) - near.y) / (far.y - near.y)
  if inBox (pointAt tBottom) then true else
  false

/-- `Ocnode::find_first_collision`: filter the active nodes down to those
the line meets, order by squared distance from `near` to the index origin
(the Rust `sort_unstable_by` over `partial_cmp`, total on rationals), and
return the coordinates of the first. -/
def findFirstCollision (t : Ocnode) (near far : P3) : Option (Int × Int × Int × Nat) :=
  let hits := (activeNodes t).filter (fun node => intersectsLine node near far)
  let sorted := hits.mergeSort (fun a b => decide (distanceTo a near ≤ distanceTo b near))
  match sorted with
  | [] => none
  | h :: _ => some (h.xIndex, h.yIndex, h.zIndex, h.subDivisionLevel)

end Ocnode

namespace Octree

open Ocnode

/-- `Octree::recalculate_occlusion`: the root is cloned and every flag is
recomputed against that frozen copy. -/
def recalculateOcclusion (root : Ocnode) : Ocnode :=
  Ocnode.recalculateOcclusion root root

/-- The `variations` list from `Octree::recalculate_occlusion_for_selections`
(`[0,0,1]` genuinely appears twice in the source; `[0,0,-1]` once). -/
def variations : List (Int × Int × Int) :=
  [(0, 0, 0), (1, 0, 0), (-1, 0, 0), (0, 1, 0), (0, -1, 0), (0, 0, 1), (0, 0, 1), (0, 0, -1)]

/-- One iteration of the inner loop of
`Octree::recalculate_occlusion_for_selections`: look up the varied position
at level `octree::LEVELS` (= 9), and if an active node is found, recompute
its six flags against the current root and store them through
`find_mut_by_index`. -/
def recalcSelectionStep (t : Ocnode) (p : Int × Int × Int) : Ocnode :=
  match findByIndex t p.1 p.2.1 p.2.2 octreeLEVELS with
  | some actual =>
    if actual.active = true then
      let fo := frontOccluded actual t
      let bo := backOccluded actual t
      let tp := topOccluded actual t
      let bt := bottomOccluded actual t
      let lo := leftOccluded actual t
      let ro := rightOccluded actual t
      updateByIndex t p.1 p.2.1 p.2.2 octreeLEVELS
        (fun n => setOcclusionFlags n fo bo tp bt lo ro)
    else t
  | none => t

/-- `Octree::recalculate_occlusion_for_selections`. -/
def recalculateOcclusionForSelections (t : Ocnode) (selections : List (Int × Int × Int)) : Ocnode :=
  selections.foldl
    (fun acc pos =>
      variations.foldl
        (fun acc2 v => recalcSelectionStep acc2 (pos.1 + v.1, pos.2.1 + v.2.1, pos.2.2 + v.2.2))
        acc)
    t

/-- `Octree::optimize` forwards to the (inert) `Ocnode::optimize`. -/
def optimize (cameraEye : ℚ × ℚ × ℚ) (t : Ocnode) : Ocnode :=
  Ocnode.optimize cameraEye t

/-- `Octree::prepare`: the `StoredOctree` is the list of active nodes. -/
def prepare (t : Ocnode) : List Ocnode :=
  activeNodes t

/-- `Octree::load_from_serial`: clear every node, apply each stored record
in order, then `optimize`. -/
def loadFromSerial (t : Ocnode) (source : List Ocnode) (cameraEye : ℚ × ℚ × ℚ) : Ocnode :=
  optimize cameraEye (source.foldl (fun acc node => acc.apply node) t.clear)

/-- `Octree::toggle_voxels`: forward to the node-level toggle, then
`optimize`. -/
def toggleVoxels (t : Ocnode) (positions : List (Int × Int × Int)) (value : Bool)
    (color : Color4) (cameraEye : ℚ × ℚ × ℚ) (fluid noise : Int) : Ocnode :=
  optimize cameraEye (Ocnode.toggleVoxels t positions value color fluid noise)

end Octree

end Crafter

namespace Crafter

/-- A 3-vector of exact rationals (`[f32; 3]`, `glm::Vec3`). -/
structure V3 where
  x : ℚ
  y : ℚ
  z : ℚ
deriving DecidableEq, Repr

namespace V3

/-- Componentwise difference, as in the edge vectors `Vec3::new(a[i] - b[i])`. -/
def sub (a b : V3) : V3 := ⟨a.x - b.x, a.y - b.y, a.z - b.z⟩

/-- `nalgebra_glm` cross product. -/
def cross (a b : V3) : V3 :=
  ⟨a.y * b.z - a.z * b.y, a.z * b.x - a.x * b.z, a.x * b.y - a.y * b.x⟩

end V3

/-- `Vertex` from `src/vertex.rs`: position and normal. -/
structure Vertex where
  position : V3
  normal : V3
deriving DecidableEq, Repr

/-- `Cube` from `src/cube.rs`. -/
structure Cube where
  verticesCount : Nat
  translation : V3
  rotation : V3
  color : Color4
  scale : ℚ
  center : ℚ
  floor : ℚ
  fluid : Int
  noise : Int
  bottomOccluded : Bool
  leftOccluded : Bool
  rightOccluded : Bool
  frontOccluded : Bool
  backOccluded : Bool
  topOccluded : Bool
  smooth : Bool
  key : Nat
deriving DecidableEq, Repr

namespace Cube

/-- `Cube::new()`: scale slightly below 1 against z-fighting. -/
def new : Cube :=
  { verticesCount := 216
    translation := ⟨0, 0, 0⟩
    rotation := ⟨0, 0, 0⟩
    color := ⟨3/10, 3/10, 1/10, 1⟩
    scale := 9999/10000
    center := 1/2
    floor := 1/10000
    fluid := 0
    noise := 0
    bottomOccluded := false
    leftOccluded := false
    rightOccluded := false
    frontOccluded := false
    backOccluded := false
    topOccluded := false
    smooth := false
    key := 0 }

/-- `Cube::init` draws a random render key (`rand::random()`); the key is
an opaque handle never read by the algorithms verified here, so it is
modelled as left unchanged. -/
def init (c : Cube) : Cube := c

/-- `Cube::translate`. -/
def translate (c : Cube) (amount : V3) : Cube :=
  { c with translation :=
      ⟨c.translation.x + amount.x, c.translation.y + amount.y, c.translation.z + amount.z⟩ }

/-- The `bulge` constant of `Cube::vertices`. -/
def bulge : ℚ := 3/5

/-- The `lc` (left face centre) point of `Cube::vertices`. -/
def lc (c : Cube) : V3 :=
  ⟨if c.smooth && !c.frontOccluded && !c.bottomOccluded && !c.leftOccluded
      && !c.backOccluded && !c.topOccluded then
      c.center - c.center * bulge
    else c.floor,
   c.center, c.center⟩

/-- The `rc` (right face centre) point. -/
def rc (c : Cube) : V3 :=
  ⟨if c.smooth && !c.frontOccluded && !c.bottomOccluded && !c.rightOccluded
      && !c.backOccluded && !c.topOccluded then
      c.center + c.center * bulge
    else c.scale,
   c.center, c.center⟩

/-- The `fc` (front face centre) point. -/
def fc (c : Cube) : V3 :=
  ⟨c.center, c.center,
   if c.smooth && !c.frontOccluded && !c.bottomOccluded && !c.rightOccluded
      && !c.leftOccluded && !c.topOccluded then
     c.center - c.center * bulge
   else c.floor⟩

/-- The `bc` (back face centre) point. -/
def bc (c : Cube) : V3 :=
  ⟨c.center, c.center,
   if c.smooth && !c.backOccluded && !c.bottomOccluded && !c.rightOccluded
      && !c.leftOccluded && !c.topOccluded then
     c.center + c.center * bulge
   else c.scale⟩

/-- The `dc` (bottom face centre) point. -/
def dc (c : Cube) : V3 :=
  ⟨c.center,
   if c.smooth && !c.backOccluded && !c.bottomOccluded && !c.rightOccluded
      && !c.leftOccluded && !c.frontOccluded then
     c.center - c.center * bulge
   else c.floor,
   c.center⟩

/-- The `uc` (top face centre) point. -/
def uc (c : Cube) : V3 :=
  ⟨c.center,
   if c.smooth && !c.backOccluded && !c.topOccluded && !c.rightOccluded
      && !c.leftOccluded && !c.frontOccluded then
     c.center + c.center * bulge
   else c.scale,
   c.center⟩

/-- The `ldf` corner. -/
def ldf (c : Cube) : V3 :=
  let b := c.smooth && !c.frontOccluded && !c.bottomOccluded && !c.leftOccluded
  ⟨if b then c.center - c.center * bulge else c.floor,
   if b then c.center - c.center * bulge else c.floor,
   if b then c.center - c.center * bulge else c.floor⟩

/-- The `luf` corner. -/
def luf (c : Cube) : V3 :=
  let b := c.smooth && !c.frontOccluded && !c.topOccluded && !c.leftOccluded
  ⟨if b then c.center - c.center * bulge else c.floor,
   if b then c.center + c.center * bulge else c.scale,
   if b then c.center - c.center * bulge else c.floor⟩

/-- The `ldb` corner. -/
def ldb (c : Cube) : V3 :=
  let b := c.smooth && !c.backOccluded && !c.bottomOccluded && !c.leftOccluded
  ⟨if b then c.center - c.center * bulge else c.floor,
   if b then c.center - c.center * bulge else c.floor,
   if b then c.center + c.center * bulge else c.scale⟩

/-- The `lub` corner. -/
def lub (c : Cube) : V3 :=
  let b := c.smooth && !c.backOccluded && !c.topOccluded && !c.leftOccluded
  ⟨if b then c.center - c.center * bulge else c.floor,
   if b then c.center + c.center * bulge else c.scale,
   if b then c.center + c.center * bulge else c.scale⟩

/-- The `rdf` corner. -/
def rdf (c : Cube) : V3 :=
  let b := c.smooth && !c.frontOccluded && !c.bottomOccluded && !c.rightOccluded
  ⟨if b then c.center + c.center * bulge else c.scale,
   if b then c.center - c.center * bulge else c.floor,
   if b then c.center - c.center * bulge else c.floor⟩

/-- The `ruf` corner. -/
def ruf (c : Cube) : V3 :=
  let b := c.smooth && !c.frontOccluded && !c.topOccluded && !c.rightOccluded
  ⟨if b then c.center + c.center * bulge else c.scale,
   if b then c.center + c.center * bulge else c.scale,
   if b then c.center - c.center * bulge else c.floor⟩

/-- The `rdb` corner. -/
def rdb (c : Cube) : V3 :=
  let b := c.smooth && !c.backOccluded && !c.bottomOccluded && !c.rightOccluded
  ⟨if b then c.center + c.center * bulge else c.scale,
   if b then c.center - c.center * bulge else c.floor,
   if b then c.center + c.center * bulge else c.scale⟩

/-- The `rub` corner. -/
def rub (c : Cube) : V3 :=
  let b := c.smooth && !c.backOccluded && !c.topOccluded && !c.rightOccluded
  ⟨if b then c.center + c.center * bulge else c.scale,
   if b then c.center + c.center * bulge else c.scale,
   if b then c.center + c.center * bulge else c.scale⟩

/-- A triangle: three vertices sharing the cross-product normal of two of
its edge vectors, as built in `Cube::vertices`. -/
def tri (p q r n : V3) : List Vertex :=
  [⟨p, n⟩, ⟨q, n⟩, ⟨r, n⟩]

/-- Slots 0..12 of the `vertices` array: the bottom face (4 triangles). -/
def bottomFace (c : Cube) : List Vertex :=
  tri (ldf c) (rdf c) (dc c) (V3.cross (V3.sub (ldf c) (dc c)) (V3.sub (rdf c) (dc c)))
    ++ tri (rdf c) (rdb c) (dc c) (V3.cross (V3.sub (rdf c) (dc c)) (V3.sub (rdb c) (dc c)))
    ++ tri (rdb c) (ldb c) (dc c) (V3.cross (V3.sub (rdb c) (dc c)) (V3.sub (ldb c) (dc c)))
    ++ tri (ldb c) (ldf c) (dc c) (V3.cross (V3.sub (ldb c) (dc c)) (V3.sub (ldf c) (dc c)))

/-- Slots 12..24: the left face. -/
def leftFace (c : Cube) : List Vertex :=
  tri (ldf c) (ldb c) (lc c) (V3.cross (V3.sub (ldf c) (lc c)) (V3.sub (ldb c) (lc c)))
    ++ tri (luf c) (ldf c) (lc c) (V3.cross (V3.sub (luf c) (lc c)) (V3.sub (ldf c) (lc c)))
    ++ tri (lub c) (luf c) (lc c) (V3.cross (V3.sub (lub c) (lc c)) (V3.sub (luf c) (lc c)))
    ++ tri (ldb c) (lub c) (lc c) (V3.cross (V3.sub (ldb c) (lc c)) (V3.sub (lub c) (lc c)))

/-- Slots 24..36: the right face. -/
def rightFace (c : Cube) : List Vertex :=
  tri (rdf c) (ruf c) (rc c) (V3.cross (V3.sub (rdf c) (rc c)) (V3.sub (ruf c) (rc c)))
    ++ tri (ruf c) (rub c) (rc c) (V3.cross (V3.sub (ruf c) (rc c)) (V3.sub (rub c) (rc c)))
    ++ tri (rub c) (rdb c) (rc c) (V3.cross (V3.sub (rub c) (rc c)) (V3.sub (rdb c) (rc c)))
    ++ tri (rdb c) (rdf c) (rc c) (V3.cross (V3.sub (rdb c) (rc c)) (V3.sub (rdf c) (rc c)))

/-- Slots 36..48: the back face (the first triangle re-uses the normal of
the `rdb`/`rub` edges, exactly as in the source). -/
def backFace (c : Cube) : List Vertex :=
  tri (ldb c) (rdb c) (bc c) (V3.cross (V3.sub (rdb c) (bc c)) (V3.sub (rub c) (bc c)))
    ++ tri (rdb c) (rub c) (bc c) (V3.cross (V3.sub (rdb c) (bc c)) (V3.sub (rub c) (bc c)))
    ++ tri (rub c) (lub c) (bc c) (V3.cross (V3.sub (rub c) (bc c)) (V3.sub (lub c) (bc c)))
    ++ tri (lub c) (ldb c) (bc c) (V3.cross (V3.sub (lub c) (bc c)) (V3.sub (ldb c) (bc c)))

/-- Slots 48..60: the front face. -/
def frontFace (c : Cube) : List Vertex :=
  tri (ldf c) (luf c) (fc c) (V3.cross (V3.sub (ldf c) (fc c)) (V3.sub (luf c) (fc c)))
    ++ tri (luf c) (ruf c) (fc c) (V3.cross (V3.sub (luf c) (fc c)) (V3.sub (ruf c) (fc c)))
    ++ tri (ruf c) (rdf c) (fc c) (V3.cross (V3.sub (ruf c) (fc c)) (V3.sub (rdf c) (fc c)))
    ++ tri (rdf c) (ldf c) (fc c) (V3.cross (V3.sub (rdf c) (fc c)) (V3.sub (ldf c) (fc c)))

/-- Slots 60..72: the top face. -/
def topFace (c : Cube) : List Vertex :=
  tri (luf c) (lub c) (uc c) (V3.cross (V3.sub (luf c) (uc c)) (V3.sub (lub c) (uc c)))
    ++ tri (lub c) (rub c) (uc c) (V3.cross (V3.sub (lub c) (uc c)) (V3.sub (rub c) (uc c)))
    ++ tri (rub c) (ruf c) (uc c) (V3.cross (V3.sub (rub c) (uc c)) (V3.sub (ruf c) (uc c)))
    ++ tri (ruf c) (luf c) (uc c) (V3.cross (V3.sub (ruf c) (uc c)) (V3.sub (luf c) (uc c)))

/-- `Cube::vertices`: the source fills a 72-slot array in the face blocks
above, slices it back into those blocks, and copies into `valid` exactly
the blocks whose occlusion flag is unset, in the order bottom, left, right,
front, back, top. -/
def vertices (c : Cube) : List Vertex :=
  (if c.bottomOccluded = true then [] else bottomFace c)
    ++ (if c.leftOccluded = true then [] else leftFace c)
    ++ (if c.rightOccluded = true then [] else rightFace c)
    ++ (if c.frontOccluded = true then [] else frontFace c)
    ++ (if c.backOccluded = true then [] else backFace c)
    ++ (if c.topOccluded = true then [] else topFace c)

end Cube

/-- One of the six cube faces. -/
inductive Face where
  | bottom
  | left
  | right
  | front
  | back
  | top
deriving DecidableEq, Repr

/-- The occlusion flag of a cube for a given face. -/
def faceOccluded (c : Cube) : Face → Bool
  | .bottom => c.bottomOccluded
  | .left => c.leftOccluded
  | .right => c.rightOccluded
  | .front => c.frontOccluded
  | .back => c.backOccluded
  | .top => c.topOccluded

/-- The 12 vertices (4 triangles) a cube emits for a given face. -/
def faceVertexList (c : Cube) : Face → List Vertex
  | .bottom => Cube.bottomFace c
  | .left => Cube.leftFace c
  | .right => Cube.rightFace c
  | .front => Cube.frontFace c
  | .back => Cube.backFace c
  | .top => Cube.topFace c

/-- The six faces in the emission order of `Cube::vertices`. -/
def allFaces : List Face :=
  [.bottom, .left, .right, .front, .back, .top]

namespace Ocnode

mutual

/-- `Ocnode::drawables`: every emitted cube gets the node colour, material
tags, occlusion flags, `smooth = true`, and is translated by the raw node
index; a childless inactive node emits nothing, and an inactive branch
collects the children's cubes. -/
def drawables (t : Ocnode) : List Cube :=
  match t with
  | .mk x y z l a ch hc c f n fo bo tp bt lo ro =>
    if hc then
      if a then
        let scale : ℚ := (resolution l : ℚ)
        let cube := { Cube.new with
          color := c, fluid := f, noise := n, scale := scale, smooth := true
          bottomOccluded := bt, leftOccluded := lo, rightOccluded := ro
          frontOccluded := fo, backOccluded := bo, topOccluded := tp }
        let cube := cube.init
        let cube := cube.translate ⟨(x : ℚ) * 1, (y : ℚ) * 1, (z : ℚ) * 1⟩
        [cube]
      else
        drawablesList ch
    else if a then
      let scale : ℚ := 1
      let cube := { Cube.new with
        color := c, fluid := f, noise := n, scale := scale, smooth := true
        bottomOccluded := bt, leftOccluded := lo, rightOccluded := ro
        frontOccluded := fo, backOccluded := bo, topOccluded := tp }
      let cube := cube.init
      let cube := cube.translate ⟨(x : ℚ) * scale, (y : ℚ) * scale, (z : ℚ) * scale⟩
      [cube]
    else
      []
termination_by sizeOf t
decreasing_by
  simp; omega

def drawablesList (cs : List Ocnode) : List Cube :=
  match cs with
  | [] => []
  | c :: rest => drawables c ++ drawablesList rest
termination_by sizeOf cs
decreasing_by all_goals (simp <;> omega)

end

end Ocnode

namespace Octree

/-- `Octree::drawables` forwards to the root. -/
def drawables (t : Ocnode) : List Cube :=
  Ocnode.drawables t

end Octree

end Crafter

namespace Crafter

namespace Ocnode

/-- Children of a box are one level deeper and spatially inside it: this is
how `Ocnode::subdivide` places the eight octants. -/
def childOkB (x y z : Int) (l : Nat) (c : Ocnode) : Bool :=
  decide (c.subDivisionLevel = l + 1)
    && decide (x ≤ c.xIndex)
    && decide (c.xIndex + (resolution (l + 1) : Int) ≤ x + (resolution l : Int))
    && decide (y ≤ c.yIndex)
    && decide (c.yIndex + (resolution (l + 1) : Int) ≤ y + (resolution l : Int))
    && decide (z ≤ c.zIndex)
    && decide (c.zIndex + (resolution (l + 1) : Int) ≤ z + (resolution l : Int))

/-- Two sibling subtrees occupy half-open boxes separated on some axis:
`subdivide` gives the eight octants pairwise disjoint boxes. -/
def sepB (c d : Ocnode) : Bool :=
  decide (c.xIndex + (resolution c.subDivisionLevel : Int) ≤ d.xIndex)
    || decide (d.xIndex + (resolution d.subDivisionLevel : Int) ≤ c.xIndex)
    || decide (c.yIndex + (resolution c.subDivisionLevel : Int) ≤ d.yIndex)
    || decide (d.yIndex + (resolution d.subDivisionLevel : Int) ≤ c.yIndex)
    || decide (c.zIndex + (resolution c.subDivisionLevel : Int) ≤ d.zIndex)
    || decide (d.zIndex + (resolution d.subDivisionLevel : Int) ≤ c.zIndex)

/-- Pairwise separation of a sibling list. -/
def pairwiseSepB : List Ocnode → Bool
  | [] => true
  | c :: rest => rest.all (fun d => sepB c d) && pairwiseSepB rest

mutual

/-- The shape invariant of every tree the program builds: levels are capped
by `LEVELS`, a node with `has_children = false` has no children, children
sit one level deeper inside their parent box, and sibling boxes are
disjoint. `Octree::init` establishes this via `decimate`/`subdivide`, and
every edit operation only rewrites attribute fields, so it is preserved
for the life of the session. -/
def wfB (t : Ocnode) : Bool :=
  match t with
  | .mk x y z l _ ch hc _ _ _ _ _ _ _ _ _ =>
    decide (l ≤ LEVELS)
      && decide (hc = true ↔ ch ≠ ([] : List Ocnode))
      && ch.all (childOkB x y z l)
      && pairwiseSepB ch
      && wfListB ch
termination_by sizeOf t
decreasing_by
  simp; omega

def wfListB (cs : List Ocnode) : Bool :=
  match cs with
  | [] => true
  | c :: rest => wfB c && wfListB rest
termination_by sizeOf cs
decreasing_by all_goals (simp <;> omega)

end

end Ocnode

end Crafter

namespace Crafter

namespace Ocnode

@[simp] theorem xIndex_mk (x y z : Int) (l : Nat) (a : Bool) (ch : List Ocnode) (hc : Bool)
    (c : Color4) (f n : Int) (fo bo tp bt lo ro : Bool) :
    (Ocnode.mk x y z l a ch hc c f n fo bo tp bt lo ro).xIndex = x := rfl

@[simp] theorem yIndex_mk (x y z : Int) (l : Nat) (a : Bool) (ch : List Ocnode) (hc : Bool)
    (c : Color4) (f n : Int) (fo bo tp bt lo ro : Bool) :
    (Ocnode.mk x y z l a ch hc c f n fo bo tp bt lo ro).yIndex = y := rfl

@[simp] theorem zIndex_mk (x y z : Int) (l : Nat) (a : Bool) (ch : List Ocnode) (hc : Bool)
    (c : Color4) (f n : Int) (fo bo tp bt lo ro : Bool) :
    (Ocnode.mk x y z l a ch hc c f n fo bo tp bt lo ro).zIndex = z := rfl

@[simp] theorem subDivisionLevel_mk (x y z : Int) (l : Nat) (a : Bool) (ch : List Ocnode)
    (hc : Bool) (c : Color4) (f n : Int) (fo bo tp bt lo ro : Bool) :
    (Ocnode.mk x y z l a ch hc c f n fo bo tp bt lo ro).subDivisionLevel = l := rfl

@[simp] theorem active_mk (x y z : Int) (l : Nat) (a : Bool) (ch : List Ocnode) (hc : Bool)
    (c : Color4) (f n : Int) (fo bo tp bt lo ro : Bool) :
    (Ocnode.mk x y z l a ch hc c f n fo bo tp bt lo ro).active = a := rfl

@[simp] theorem children_mk (x y z : Int) (l : Nat) (a : Bool) (ch : List Ocnode) (hc : Bool)
    (c : Color4) (f n : Int) (fo bo tp bt lo ro : Bool) :
    (Ocnode.mk x y z l a ch hc c f n fo bo tp bt lo ro).children = ch := rfl

@[simp] theorem hasChildren_mk (x y z : Int) (l : Nat) (a : Bool) (ch : List Ocnode) (hc : Bool)
    (c : Color4) (f n : Int) (fo bo tp bt lo ro : Bool) :
    (Ocnode.mk x y z l a ch hc c f n fo bo tp bt lo ro).hasChildren = hc := rfl

@[simp] theorem color_mk (x y z : Int) (l : Nat) (a : Bool) (ch : List Ocnode) (hc : Bool)
    (c : Color4) (f n : Int) (fo bo tp bt lo ro : Bool) :
    (Ocnode.mk x y z l a ch hc c f n fo bo tp bt lo ro).color = c := rfl

@[simp] theorem fluid_mk (x y z : Int) (l : Nat) (a : Bool) (ch : List Ocnode) (hc : Bool)
    (c : Color4) (f n : Int) (fo bo tp bt lo ro : Bool) :
    (Ocnode.mk x y z l a ch hc c f n fo bo tp bt lo ro).fluid = f := rfl

@[simp] theorem noise_mk (x y z : Int) (l : Nat) (a : Bool) (ch : List Ocnode) (hc : Bool)
    (c : Color4) (f n : Int) (fo bo tp bt lo ro : Bool) :
    (Ocnode.mk x y z l a ch hc c f n fo bo tp bt lo ro).noise = n := rfl

@[simp] theorem frontOcc_mk (x y z : Int) (l : Nat) (a : Bool) (ch : List Ocnode) (hc : Bool)
    (c : Color4) (f n : Int) (fo bo tp bt lo ro : Bool) :
    (Ocnode.mk x y z l a ch hc c f n fo bo tp bt lo ro).frontOccludedCalculated = fo := rfl

@[simp] theorem backOcc_mk (x y z : Int) (l : Nat) (a : Bool) (ch : List Ocnode) (hc : Bool)
    (c : Color4) (f n : Int) (fo bo tp bt lo ro : Bool) :
    (Ocnode.mk x y z l a ch hc c f n fo bo tp bt lo ro).backOccludedCalculated = bo := rfl

@[simp] theorem topOcc_mk (x y z : Int) (l : Nat) (a : Bool) (ch : List Ocnode) (hc : Bool)
    (c : Color4) (f n : Int) (fo bo tp bt lo ro : Bool) :
    (Ocnode.mk x y z l a ch hc c f n fo bo tp bt lo ro).topOccludedCalculated = tp := rfl

@[simp] theorem bottomOcc_mk (x y z : Int) (l : Nat) (a : Bool) (ch : List Ocnode) (hc : Bool)
    (c : Color4) (f n : Int) (fo bo tp bt lo ro : Bool) :
    (Ocnode.mk x y z l a ch hc c f n fo bo tp bt lo ro).bottomOccludedCalculated = bt := rfl

@[simp] theorem leftOcc_mk (x y z : Int) (l : Nat) (a : Bool) (ch : List Ocnode) (hc : Bool)
    (c : Color4) (f n : Int) (fo bo tp bt lo ro : Bool) :
    (Ocnode.mk x y z l a ch hc c f n fo bo tp bt lo ro).leftOccludedCalculated = lo := rfl

@[simp] theorem rightOcc_mk (x y z : Int) (l : Nat) (a : Bool) (ch : List Ocnode) (hc : Bool)
    (c : Color4) (f n : Int) (fo bo tp bt lo ro : Bool) :
    (Ocnode.mk x y z l a ch hc c f n fo bo tp bt lo ro).rightOccludedCalculated = ro := rfl

/-- One is a lower bound of every box width. -/
theorem resolution_pos (l : Nat) : 1 ≤ resolution l :=
  Nat.one_le_two_pow

theorem nodes_def (t : Ocnode) : nodes t = t :: nodesList t.children := by
  simp [nodes]

@[simp] theorem nodesList_nil : nodesList [] = [] := by
  simp [nodesList]

@[simp] theorem nodesList_cons (c : Ocnode) (rest : List Ocnode) :
    nodesList (c :: rest) = nodes c ++ nodesList rest := by
  simp [nodesList]

theorem mem_nodes_self (t : Ocnode) : t ∈ nodes t := by
  rw [nodes_def]; exact List.mem_cons_self t _

theorem mem_nodesList_iff {cs : List Ocnode} {m : Ocnode} :
    m ∈ nodesList cs ↔ ∃ c ∈ cs, m ∈ nodes c := by
  induction cs with
  | nil => simp
  | cons c rest ih => simp [ih]

theorem mem_nodes_cases {t m : Ocnode} (hm : m ∈ nodes t) :
    m = t ∨ ∃ c ∈ t.children, m ∈ nodes c := by
  rw [nodes_def] at hm
  rcases List.mem_cons.mp hm with h | h
  · exact Or.inl h
  · exact Or.inr (mem_nodesList_iff.mp h)

theorem sizeOf_lt_of_mem_children {t c : Ocnode} (h : c ∈ t.children) : sizeOf c < sizeOf t :=
  lt_trans (List.sizeOf_lt_of_mem h) (sizeOf_children_lt t)

end Ocnode

end Crafter

namespace Crafter

namespace Ocnode

theorem wfListB_eq_true_iff {cs : List Ocnode} :
    wfListB cs = true ↔ ∀ c ∈ cs, wfB c = true := by
  induction cs with
  | nil => simp [wfListB]
  | cons c rest ih => simp [wfListB, ih]

theorem pairwiseSepB_eq_true_iff {cs : List Ocnode} :
    pairwiseSepB cs = true ↔ List.Pairwise (fun c d => sepB c d = true) cs := by
  induction cs with
  | nil => simp [pairwiseSepB]
  | cons c rest ih => simp [pairwiseSepB, ih, List.pairwise_cons, List.all_eq_true]

/-- Unpacking of the `wfB` conjunction at the root node. -/
theorem wfB_parts {t : Ocnode} (h : wfB t = true) :
    t.subDivisionLevel ≤ LEVELS
    ∧ (t.hasChildren = true ↔ t.children ≠ [])
    ∧ (∀ c ∈ t.children, childOkB t.xIndex t.yIndex t.zIndex t.subDivisionLevel c = true)
    ∧ List.Pairwise (fun c d => sepB c d = true) t.children
    ∧ ∀ c ∈ t.children, wfB c = true := by
  obtain ⟨x, y, z, l, a, ch, hc, c, f, n, fo, bo, tp, bt, lo, ro⟩ := t
  simp only [wfB, Bool.and_eq_true, decide_eq_true_eq, List.all_eq_true] at h
  obtain ⟨⟨⟨⟨hlev, hchn⟩, hok⟩, hpair⟩, hwfl⟩ := h
  refine ⟨by simpa using hlev, by simpa using hchn, by simpa using hok, ?_, ?_⟩
  · simpa using pairwiseSepB_eq_true_iff.mp hpair
  · simpa using wfListB_eq_true_iff.mp hwfl

theorem childOkB_parts {x y z : Int} {l : Nat} {c : Ocnode} (h : childOkB x y z l c = true) :
    c.subDivisionLevel = l + 1
    ∧ x ≤ c.xIndex
    ∧ c.xIndex + (resolution (l + 1) : Int) ≤ x + (resolution l : Int)
    ∧ y ≤ c.yIndex
    ∧ c.yIndex + (resolution (l + 1) : Int) ≤ y + (resolution l : Int)
    ∧ z ≤ c.zIndex
    ∧ c.zIndex + (resolution (l + 1) : Int) ≤ z + (resolution l : Int) := by
  simp only [childOkB, Bool.and_eq_true, decide_eq_true_eq] at h
  tauto

theorem one_le_resolution_int (l : Nat) : (1 : Int) ≤ (resolution l : Int) := by
  exact_mod_cast resolution_pos l

/-- Every node of a well-formed subtree lies inside the root box, at a level
at least the root level, and the root is the only node at the root level. -/
theorem mem_nodes_box {t m : Ocnode} (hwf : wfB t = true) (hm : m ∈ nodes t) :
    t.subDivisionLevel ≤ m.subDivisionLevel
    ∧ t.xIndex ≤ m.xIndex
    ∧ m.xIndex + (resolution m.subDivisionLevel : Int)
        ≤ t.xIndex + (resolution t.subDivisionLevel : Int)
    ∧ t.yIndex ≤ m.yIndex
    ∧ m.yIndex + (resolution m.subDivisionLevel : Int)
        ≤ t.yIndex + (resolution t.subDivisionLevel : Int)
    ∧ t.zIndex ≤ m.zIndex
    ∧ m.zIndex + (resolution m.subDivisionLevel : Int)
        ≤ t.zIndex + (resolution t.subDivisionLevel : Int)
    ∧ (m.subDivisionLevel = t.subDivisionLevel → m = t) := by
  rcases mem_nodes_cases hm with rfl | ⟨c, hc, hmc⟩
  · exact ⟨le_refl _, le_refl _, le_refl _, le_refl _, le_refl _, le_refl _, le_refl _,
      fun _ => rfl⟩
  · have hparts := wfB_parts hwf
    have hok := childOkB_parts (hparts.2.2.1 c hc)
    have hwfc := hparts.2.2.2.2 c hc
    have ih := mem_nodes_box hwfc hmc
    obtain ⟨hlev, hx1, hx2, hy1, hy2, hz1, hz2⟩ := hok
    rw [hlev] at ih
    obtain ⟨ilev, ix1, ix2, iy1, iy2, iz1, iz2, _⟩ := ih
    have hres := one_le_resolution_int m.subDivisionLevel
    refine ⟨by omega, by omega, by omega, by omega, by omega, by omega, by omega, ?_⟩
    intro heq
    omega
termination_by sizeOf t
decreasing_by
  exact sizeOf_lt_of_mem_children hc

/-- Separated sibling boxes cannot both contain a node with the same
index triple. -/
theorem sep_ne {c d m₁ m₂ : Ocnode} (hwfc : wfB c = true) (hwfd : wfB d = true)
    (hsep : sepB c d = true) (h1 : m₁ ∈ nodes c) (h2 : m₂ ∈ nodes d)
    (hx : m₁.xIndex = m₂.xIndex) (hy : m₁.yIndex = m₂.yIndex)
    (hz : m₁.zIndex = m₂.zIndex) : False := by
  have b1 := mem_nodes_box hwfc h1
  have b2 := mem_nodes_box hwfd h2
  have hr1 := one_le_resolution_int m₁.subDivisionLevel
  have hr2 := one_le_resolution_int m₂.subDivisionLevel
  obtain ⟨_, c1, c2, c3, c4, c5, c6, _⟩ := b1
  obtain ⟨_, d1, d2, d3, d4, d5, d6, _⟩ := b2
  simp only [sepB, Bool.or_eq_true, decide_eq_true_eq] at hsep
  rcases hsep with ((((h | h) | h) | h) | h) | h <;> omega

mutual

/-- Within one well-formed tree, the index triple together with the level
identifies at most one node. -/
theorem mem_nodes_unique {t m₁ m₂ : Ocnode} (hwf : wfB t = true)
    (h1 : m₁ ∈ nodes t) (h2 : m₂ ∈ nodes t)
    (hx : m₁.xIndex = m₂.xIndex) (hy : m₁.yIndex = m₂.yIndex)
    (hz : m₁.zIndex = m₂.zIndex) (hl : m₁.subDivisionLevel = m₂.subDivisionLevel) :
    m₁ = m₂ := by
  have hparts := wfB_parts hwf
  rcases mem_nodes_cases h1 with rfl | ⟨c1, hc1, hm1⟩
  · rcases mem_nodes_cases h2 with rfl | ⟨c2, hc2, hm2⟩
    · rfl
    · exfalso
      have hok := childOkB_parts (hparts.2.2.1 c2 hc2)
      have hb := mem_nodes_box (hparts.2.2.2.2 c2 hc2) hm2
      omega
  · rcases mem_nodes_cases h2 with rfl | ⟨c2, hc2, hm2⟩
    · exfalso
      have hok := childOkB_parts (hparts.2.2.1 c1 hc1)
      have hb := mem_nodes_box (hparts.2.2.2.2 c1 hc1) hm1
      omega
    · exact mem_nodesList_unique (wfListB_eq_true_iff.mpr (hparts.2.2.2.2))
        (hparts.2.2.2.1)
        (mem_nodesList_iff.mpr ⟨c1, hc1, hm1⟩) (mem_nodesList_iff.mpr ⟨c2, hc2, hm2⟩)
        hx hy hz hl
termination_by sizeOf t
decreasing_by
  exact lt_of_le_of_lt (le_refl _) (sizeOf_children_lt t)

/-- List version of `mem_nodes_unique`, over a pairwise-separated sibling
list of well-formed subtrees. -/
theorem mem_nodesList_unique {cs : List Ocnode} {m₁ m₂ : Ocnode}
    (hwfl : wfListB cs = true)
    (hpair : List.Pairwise (fun c d => sepB c d = true) cs)
    (h1 : m₁ ∈ nodesList cs) (h2 : m₂ ∈ nodesList cs)
    (hx : m₁.xIndex = m₂.xIndex) (hy : m₁.yIndex = m₂.yIndex)
    (hz : m₁.zIndex = m₂.zIndex) (hl : m₁.subDivisionLevel = m₂.subDivisionLevel) :
    m₁ = m₂ := by
  match cs with
  | [] => simp at h1
  | c :: rest =>
    have hwfc : wfB c = true := (wfListB_eq_true_iff.mp hwfl c (List.mem_cons_self c rest))
    have hwfrest : wfListB rest = true := by
      rw [wfListB_eq_true_iff] at hwfl ⊢
      intro d hd; exact hwfl d (List.mem_cons_of_mem c hd)
    rw [List.pairwise_cons] at hpair
    rw [nodesList_cons, List.mem_append] at h1 h2
    rcases h1 with h1 | h1
    · rcases h2 with h2 | h2
      · exact mem_nodes_unique hwfc h1 h2 hx hy hz hl
      · exfalso
        obtain ⟨d, hd, hmd⟩ := mem_nodesList_iff.mp h2
        have hwfd : wfB d = true := wfListB_eq_true_iff.mp hwfrest d hd
        exact sep_ne hwfc hwfd (hpair.1 d hd) h1 hmd hx hy hz
    · rcases h2 with h2 | h2
      · exfalso
        obtain ⟨d, hd, hmd⟩ := mem_nodesList_iff.mp h1
        have hwfd : wfB d = true := wfListB_eq_true_iff.mp hwfrest d hd
        exact sep_ne hwfc hwfd (hpair.1 d hd) h2 hmd hx.symm hy.symm hz.symm
      · exact mem_nodesList_unique hwfrest hpair.2 h1 h2 hx hy hz hl
termination_by sizeOf cs
decreasing_by all_goals (simp <;> omega)

end

end Ocnode

end Crafter

namespace Crafter

namespace Ocnode

mutual

/-- Whatever `find_by_index` returns is a node of the tree carrying exactly
the queried index triple and level. -/
theorem findByIndex_sound {t : Ocnode} {x y z : Int} {level : Nat} {m : Ocnode}
    (h : findByIndex t x y z level = some m) :
    m ∈ nodes t ∧ m.xIndex = x ∧ m.yIndex = y ∧ m.zIndex = z
      ∧ m.subDivisionLevel = level := by
  rw [findByIndex] at h
  by_cases h1 : level = t.subDivisionLevel
  · rw [if_pos h1] at h
    by_cases h2 : t.xIndex = x ∧ t.yIndex = y ∧ t.zIndex = z
    · rw [if_pos h2] at h
      obtain rfl : t = m := by injection h
      exact ⟨mem_nodes_self t, h2.1, h2.2.1, h2.2.2, h1.symm⟩
    · rw [if_neg h2] at h; cases h
  · rw [if_neg h1] at h
    by_cases h3 : (x ≥ t.xIndex ∧ x ≤ t.xIndex + (resolution t.subDivisionLevel : Int)
        ∧ y ≥ t.yIndex ∧ y ≤ t.yIndex + (resolution t.subDivisionLevel : Int)
        ∧ z ≥ t.zIndex ∧ z ≤ t.zIndex + (resolution t.subDivisionLevel : Int))
        ∧ t.hasChildren = true
    · rw [if_pos h3] at h
      have hrec := findList_sound h
      refine ⟨?_, hrec.2.1, hrec.2.2.1, hrec.2.2.2.1, hrec.2.2.2.2⟩
      rw [nodes_def]
      exact List.mem_cons_of_mem _ hrec.1
    · rw [if_neg h3] at h; cases h
termination_by sizeOf t
decreasing_by
  exact sizeOf_children_lt t

theorem findList_sound {cs : List Ocnode} {x y z : Int} {level : Nat} {m : Ocnode}
    (h : findList cs x y z level = some m) :
    m ∈ nodesList cs ∧ m.xIndex = x ∧ m.yIndex = y ∧ m.zIndex = z
      ∧ m.subDivisionLevel = level := by
  match cs with
  | [] => rw [findList] at h; cases h
  | c :: rest =>
    rw [findList] at h
    rcases hfc : findByIndex c x y z level with _ | node
    · rw [hfc] at h
      have hrec := findList_sound (h : findList rest x y z level = some m)
      refine ⟨?_, hrec.2.1, hrec.2.2.1, hrec.2.2.2.1, hrec.2.2.2.2⟩
      rw [nodesList_cons]
      exact List.mem_append_right _ hrec.1
    · rw [hfc] at h
      obtain rfl : node = m := by injection h
      have hrec := findByIndex_sound hfc
      refine ⟨?_, hrec.2.1, hrec.2.2.1, hrec.2.2.2.1, hrec.2.2.2.2⟩
      rw [nodesList_cons]
      exact List.mem_append_left _ hrec.1
termination_by sizeOf cs
decreasing_by all_goals (simp <;> omega)

end

mutual

/-- In a well-formed tree, `find_by_index` finds every node when queried at
that node's own index triple and level. -/
theorem findByIndex_complete {t m : Ocnode} (hwf : wfB t = true) (hm : m ∈ nodes t) :
    findByIndex t m.xIndex m.yIndex m.zIndex m.subDivisionLevel = some m := by
  rcases mem_nodes_cases hm with rfl | ⟨c, hc, hmc⟩
  · rw [findByIndex]
    simp
  · have hparts := wfB_parts hwf
    have hok := childOkB_parts (hparts.2.2.1 c hc)
    have hwfc := hparts.2.2.2.2 c hc
    have hb := mem_nodes_box hwfc hmc
    have hres := one_le_resolution_int m.subDivisionLevel
    have hlevne : ¬(m.subDivisionLevel = t.subDivisionLevel) := by
      obtain ⟨hclev, _⟩ := hok
      have := hb.1
      omega
    have hhc : t.hasChildren = true :=
      hparts.2.1.mpr (fun hnil => by rw [hnil] at hc; cases hc)
    have hbox : (m.xIndex ≥ t.xIndex
        ∧ m.xIndex ≤ t.xIndex + (resolution t.subDivisionLevel : Int)
        ∧ m.yIndex ≥ t.yIndex
        ∧ m.yIndex ≤ t.yIndex + (resolution t.subDivisionLevel : Int)
        ∧ m.zIndex ≥ t.zIndex
        ∧ m.zIndex ≤ t.zIndex + (resolution t.subDivisionLevel : Int)) := by
      obtain ⟨hclev, cx1, cx2, cy1, cy2, cz1, cz2⟩ := hok
      obtain ⟨_, bx1, bx2, by1, by2, bz1, bz2, _⟩ := hb
      rw [hclev] at bx2 by2 bz2
      refine ⟨by omega, by omega, by omega, by omega, by omega, by omega⟩
    rw [findByIndex, if_neg hlevne, if_pos ⟨hbox, hhc⟩]
    exact findList_complete (wfListB_eq_true_iff.mpr hparts.2.2.2.2)
      hparts.2.2.2.1 (mem_nodesList_iff.mpr ⟨c, hc, hmc⟩)
termination_by sizeOf t
decreasing_by
  exact sizeOf_children_lt t

theorem findList_complete {cs : List Ocnode} {m : Ocnode}
    (hwfl : wfListB cs = true)
    (hpair : List.Pairwise (fun c d => sepB c d = true) cs)
    (hm : m ∈ nodesList cs) :
    findList cs m.xIndex m.yIndex m.zIndex m.subDivisionLevel = some m := by
  match cs with
  | [] => simp at hm
  | c :: rest =>
    have hwfc : wfB c = true := wfListB_eq_true_iff.mp hwfl c (List.mem_cons_self c rest)
    have hwfrest : wfListB rest = true := by
      rw [wfListB_eq_true_iff] at hwfl ⊢
      intro d hd; exact hwfl d (List.mem_cons_of_mem c hd)
    rw [List.pairwise_cons] at hpair
    by_cases hmemc : m ∈ nodes c
    · rw [findList, findByIndex_complete hwfc hmemc]
    · have hmr : m ∈ nodesList rest := by
        rw [nodesList_cons, List.mem_append] at hm
        rcases hm with h | h
        · exact absurd h hmemc
        · exact h
      have hnone : findByIndex c m.xIndex m.yIndex m.zIndex m.subDivisionLevel = none := by
        rcases hfc : findByIndex c m.xIndex m.yIndex m.zIndex m.subDivisionLevel with _ | m2
        · rfl
        · exfalso
          have hs := findByIndex_sound hfc
          obtain ⟨d, hd, hmd⟩ := mem_nodesList_iff.mp hmr
          have hwfd : wfB d = true := wfListB_eq_true_iff.mp hwfrest d hd
          exact sep_ne hwfc hwfd (hpair.1 d hd) hs.1 hmd hs.2.1 hs.2.2.1 hs.2.2.2.1
      rw [findList, hnone]
      exact findList_complete hwfrest hpair.2 hmr
termination_by sizeOf cs
decreasing_by all_goals (simp <;> omega)

end

/-- Characterisation of `find_by_index` on well-formed trees. -/
theorem findByIndex_eq_some_iff {t : Ocnode} (hwf : wfB t = true)
    {x y z : Int} {level : Nat} {m : Ocnode} :
    findByIndex t x y z level = some m
      ↔ m ∈ nodes t ∧ m.xIndex = x ∧ m.yIndex = y ∧ m.zIndex = z
          ∧ m.subDivisionLevel = level := by
  constructor
  · exact findByIndex_sound
  · rintro ⟨hm, rfl, rfl, rfl, rfl⟩
    exact findByIndex_complete hwf hm

/-- `find_by_index` misses exactly when no node carries the queried
coordinates. -/
theorem findByIndex_eq_none_iff {t : Ocnode} (hwf : wfB t = true)
    {x y z : Int} {level : Nat} :
    findByIndex t x y z level = none
      ↔ ∀ m ∈ nodes t, ¬(m.xIndex = x ∧ m.yIndex = y ∧ m.zIndex = z
          ∧ m.subDivisionLevel = level) := by
  constructor
  · intro h m hm hco
    obtain ⟨hx, hy, hz, hl⟩ := hco
    subst hx; subst hy; subst hz; subst hl
    rw [findByIndex_complete hwf hm] at h
    cases h
  · intro h
    rcases hf : findByIndex t x y z level with _ | m
    · rfl
    · exfalso
      have hs := findByIndex_sound hf
      exact h m hs.1 ⟨hs.2.1, hs.2.2.1, hs.2.2.2.1, hs.2.2.2.2⟩

/-- Nodes of a well-formed tree are themselves well-formed. -/
theorem wfB_of_mem_nodes {t m : Ocnode} (hwf : wfB t = true) (hm : m ∈ nodes t) :
    wfB m = true := by
  rcases mem_nodes_cases hm with rfl | ⟨c, hc, hmc⟩
  · exact hwf
  · exact wfB_of_mem_nodes ((wfB_parts hwf).2.2.2.2 c hc) hmc
termination_by sizeOf t
decreasing_by
  exact sizeOf_lt_of_mem_children hc

/-- All levels in a well-formed tree are capped by `ocnode::LEVELS`, so a
query at `octree::LEVELS = 9` can never match. -/
theorem findByIndex_octreeLEVELS {t : Ocnode} (hwf : wfB t = true) (x y z : Int) :
    findByIndex t x y z octreeLEVELS = none := by
  rw [findByIndex_eq_none_iff hwf]
  intro m hm hco
  have hlev := (wfB_parts (wfB_of_mem_nodes hwf hm)).1
  rw [hco.2.2.2] at hlev
  simp [octreeLEVELS, LEVELS] at hlev

end Ocnode

end Crafter

namespace Crafter

/-- Every attribute of a node except its children list: index, level,
activity, branch flag, colour, material tags and the six occlusion flags.
Two nodes with equal `attr` are indistinguishable to every per-node
computation of the program. -/
structure AttrRecord where
  ax : Int
  ay : Int
  az : Int
  alevel : Nat
  aactive : Bool
  ahasChildren : Bool
  acolor : Color4
  afluid : Int
  anoise : Int
  afront : Bool
  aback : Bool
  atop : Bool
  abottom : Bool
  aleft : Bool
  aright : Bool
deriving DecidableEq, Repr

namespace Ocnode

/-- Project a node to its child-free attributes. -/
def attr (n : Ocnode) : AttrRecord :=
  ⟨n.xIndex, n.yIndex, n.zIndex, n.subDivisionLevel, n.active, n.hasChildren,
   n.color, n.fluid, n.noise, n.frontOccludedCalculated, n.backOccludedCalculated,
   n.topOccludedCalculated, n.bottomOccludedCalculated, n.leftOccludedCalculated,
   n.rightOccludedCalculated⟩

/-- An update function that can only rewrite attribute fields: index, level,
children and the branch flag pass through. All the field assignments the
program performs through `find_mut_by_index` are of this kind. -/
def attrOnly (g : Ocnode → Ocnode) : Prop :=
  ∀ n : Ocnode, (g n).xIndex = n.xIndex ∧ (g n).yIndex = n.yIndex
    ∧ (g n).zIndex = n.zIndex ∧ (g n).subDivisionLevel = n.subDivisionLevel
    ∧ (g n).children = n.children ∧ (g n).hasChildren = n.hasChildren

theorem attrOnly_setVoxel (value : Bool) (color : Color4) (fluid noise : Int) :
    attrOnly (setVoxel value color fluid noise) := by
  rintro ⟨x, y, z, l, a, ch, hc, c, f, n, fo, bo, tp, bt, lo, ro⟩
  simp [setVoxel]

theorem attrOnly_setPaint (color : Color4) (noise fluid : Int) :
    attrOnly (setPaint color noise fluid) := by
  rintro ⟨x, y, z, l, a, ch, hc, c, f, n, fo, bo, tp, bt, lo, ro⟩
  simp [setPaint]

theorem attrOnly_copyNodeAttributes (src : Ocnode) :
    attrOnly (copyNodeAttributes src) := by
  rintro ⟨x, y, z, l, a, ch, hc, c, f, n, fo, bo, tp, bt, lo, ro⟩
  simp [copyNodeAttributes]

theorem attrOnly_setOcclusionFlags (fo bo tp bt lo ro : Bool) :
    attrOnly (fun n => setOcclusionFlags n fo bo tp bt lo ro) := by
  rintro ⟨x, y, z, l, a, ch, hc, c, f, n, p, q, r, s, u, v⟩
  simp [setOcclusionFlags]

mutual

/-- `find_mut_by_index` missing means the assignment is a no-op. -/
theorem updateByIndex_miss {t : Ocnode} {x y z : Int} {level : Nat}
    {g : Ocnode → Ocnode} (h : findByIndex t x y z level = none) :
    updateByIndex t x y z level g = t := by
  obtain ⟨xi, yi, zi, l, a, ch, hc, c, f, n, fo, bo, tp, bt, lo, ro⟩ := t
  rw [findByIndex] at h
  rw [updateByIndex]
  simp only [subDivisionLevel_mk, xIndex_mk, yIndex_mk, zIndex_mk, hasChildren_mk,
    children_mk] at h ⊢
  by_cases h1 : level = l
  · rw [if_pos h1] at h ⊢
    by_cases h2 : xi = x ∧ yi = y ∧ zi = z
    · rw [if_pos h2] at h; cases h
    · rw [if_neg h2]
  · rw [if_neg h1] at h ⊢
    by_cases h3 : (x ≥ xi ∧ x ≤ xi + (resolution l : Int)
        ∧ y ≥ yi ∧ y ≤ yi + (resolution l : Int)
        ∧ z ≥ zi ∧ z ≤ zi + (resolution l : Int)) ∧ hc = true
    · rw [if_pos h3] at h ⊢
      rw [updateList_miss h]
    · rw [if_neg h3]
termination_by sizeOf t
decreasing_by
  simp; omega

theorem updateList_miss {cs : List Ocnode} {x y z : Int} {level : Nat}
    {g : Ocnode → Ocnode} (h : findList cs x y z level = none) :
    updateList cs x y z level g = cs := by
  match cs with
  | [] => rw [updateList]
  | c :: rest =>
    rw [findList] at h
    rcases hfc : findByIndex c x y z level with _ | node
    · rw [hfc] at h
      rw [updateList, if_neg (by simp [hfc]), updateList_miss h]
    · rw [hfc] at h; cases h
termination_by sizeOf cs
decreasing_by all_goals (simp <;> omega)

end

theorem sizeOf_le_of_mem_nodes {t m : Ocnode} (hm : m ∈ nodes t) : sizeOf m ≤ sizeOf t := by
  rcases mem_nodes_cases hm with rfl | ⟨c, hc, hmc⟩
  · exact le_refl _
  · have h1 := sizeOf_le_of_mem_nodes hmc
    have h2 := sizeOf_lt_of_mem_children hc
    omega
termination_by sizeOf t
decreasing_by
  exact sizeOf_lt_of_mem_children hc

/-- A node does not occur inside its own children (sizes decrease). -/
theorem ne_of_mem_nodesList_children {t m : Ocnode} (hm : m ∈ nodesList t.children) :
    m ≠ t := by
  obtain ⟨c, hc, hmc⟩ := mem_nodesList_iff.mp hm
  have h1 := sizeOf_le_of_mem_nodes hmc
  have h2 := sizeOf_lt_of_mem_children hc
  intro heq
  rw [heq] at h1
  omega

end Ocnode

end Crafter

namespace Crafter

namespace Ocnode

/-- Updating at the root coordinates applies the assignment to the root. -/
theorem updateByIndex_root_eq {t : Ocnode} {g : Ocnode → Ocnode} :
    updateByIndex t t.xIndex t.yIndex t.zIndex t.subDivisionLevel g = g t := by
  obtain ⟨x, y, z, l, a, ch, hc, c, f, n, fo, bo, tp, bt, lo, ro⟩ := t
  rw [updateByIndex]
  simp

/-- Conditions under which lookup and update descend into the children of a
well-formed tree: they hold whenever the target is in some child subtree. -/
theorem descend_conditions {t c m : Ocnode} (hwf : wfB t = true)
    (hc : c ∈ t.children) (hmc : m ∈ nodes c) :
    ¬(m.subDivisionLevel = t.subDivisionLevel)
    ∧ (m.xIndex ≥ t.xIndex
        ∧ m.xIndex ≤ t.xIndex + (resolution t.subDivisionLevel : Int)
        ∧ m.yIndex ≥ t.yIndex
        ∧ m.yIndex ≤ t.yIndex + (resolution t.subDivisionLevel : Int)
        ∧ m.zIndex ≥ t.zIndex
        ∧ m.zIndex ≤ t.zIndex + (resolution t.subDivisionLevel : Int))
    ∧ t.hasChildren = true := by
  have hparts := wfB_parts hwf
  have hok := childOkB_parts (hparts.2.2.1 c hc)
  have hwfc := hparts.2.2.2.2 c hc
  have hb := mem_nodes_box hwfc hmc
  have hres := one_le_resolution_int m.subDivisionLevel
  refine ⟨?_, ?_, ?_⟩
  · obtain ⟨hclev, _⟩ := hok
    have := hb.1
    omega
  · obtain ⟨hclev, cx1, cx2, cy1, cy2, cz1, cz2⟩ := hok
    obtain ⟨_, bx1, bx2, by1, by2, bz1, bz2, _⟩ := hb
    rw [hclev] at bx2 by2 bz2
    refine ⟨by omega, by omega, by omega, by omega, by omega, by omega⟩
  · exact hparts.2.1.mpr (fun hnil => by rw [hnil] at hc; cases hc)

/-- When the update has to descend, the root attributes survive and only the
children list is rewritten. -/
theorem updateByIndex_descend {t : Ocnode} {x y z : Int} {level : Nat}
    {g : Ocnode → Ocnode} (hne : ¬(level = t.subDivisionLevel))
    (hbox : x ≥ t.xIndex ∧ x ≤ t.xIndex + (resolution t.subDivisionLevel : Int)
        ∧ y ≥ t.yIndex ∧ y ≤ t.yIndex + (resolution t.subDivisionLevel : Int)
        ∧ z ≥ t.zIndex ∧ z ≤ t.zIndex + (resolution t.subDivisionLevel : Int))
    (hhc : t.hasChildren = true) :
    attr (updateByIndex t x y z level g) = attr t
    ∧ (updateByIndex t x y z level g).children = updateList t.children x y z level g := by
  obtain ⟨xi, yi, zi, l, a, ch, hc, c, f, n, fo, bo, tp, bt, lo, ro⟩ := t
  rw [updateByIndex]
  simp only [subDivisionLevel_mk, xIndex_mk, yIndex_mk, zIndex_mk, hasChildren_mk,
    children_mk] at hne hbox hhc ⊢
  rw [if_neg hne, if_pos ⟨hbox, hhc⟩]
  simp [attr]

mutual

/-- Effect of a `find_mut_by_index` assignment on the attribute listing of a
well-formed tree: exactly the unique node carrying the target coordinates
is rewritten by `g`; every other node keeps its attributes. -/
theorem nodes_attr_updateByIndex {t m : Ocnode} {g : Ocnode → Ocnode}
    (hwf : wfB t = true) (hg : attrOnly g) (hm : m ∈ nodes t) :
    (nodes (updateByIndex t m.xIndex m.yIndex m.zIndex m.subDivisionLevel g)).map attr
      = (nodes t).map (fun n => if n = m then attr (g n) else attr n) := by
  rcases mem_nodes_cases hm with rfl | ⟨c, hc, hmc⟩
  · rw [updateByIndex_root_eq]
    rw [nodes_def, nodes_def, List.map_cons, List.map_cons]
    have hch : (g m).children = m.children := (hg m).2.2.2.2.1
    rw [hch]
    congr 1
    · simp
    · refine (List.map_congr_left ?_).symm
      intro n hn
      rw [if_neg (ne_of_mem_nodesList_children hn)]
  · have hcond := descend_conditions hwf hc hmc
    have hdesc := updateByIndex_descend (g := g) hcond.1 hcond.2.1 hcond.2.2
    rw [nodes_def, nodes_def, List.map_cons, List.map_cons]
    have hparts := wfB_parts hwf
    have hne : ¬(t = m) := fun heq =>
      (ne_of_mem_nodesList_children (mem_nodesList_iff.mpr ⟨c, hc, hmc⟩)) heq.symm
    congr 1
    · rw [if_neg hne]
      exact hdesc.1
    · rw [hdesc.2]
      exact nodesList_attr_updateList (wfListB_eq_true_iff.mpr hparts.2.2.2.2)
        hparts.2.2.2.1 hg (mem_nodesList_iff.mpr ⟨c, hc, hmc⟩)
termination_by sizeOf t
decreasing_by
  exact sizeOf_children_lt t

theorem nodesList_attr_updateList {cs : List Ocnode} {m : Ocnode} {g : Ocnode → Ocnode}
    (hwfl : wfListB cs = true)
    (hpair : List.Pairwise (fun c d => sepB c d = true) cs)
    (hg : attrOnly g) (hm : m ∈ nodesList cs) :
    (nodesList (updateList cs m.xIndex m.yIndex m.zIndex m.subDivisionLevel g)).map attr
      = (nodesList cs).map (fun n => if n = m then attr (g n) else attr n) := by
  match cs with
  | [] => simp at hm
  | c :: rest =>
    have hwfc : wfB c = true := wfListB_eq_true_iff.mp hwfl c (List.mem_cons_self c rest)
    have hwfrest : wfListB rest = true := by
      rw [wfListB_eq_true_iff] at hwfl ⊢
      intro d hd; exact hwfl d (List.mem_cons_of_mem c hd)
    rw [List.pairwise_cons] at hpair
    by_cases hmemc : m ∈ nodes c
    · have hfind := findByIndex_complete hwfc hmemc
      rw [updateList, if_pos (by simp [hfind])]
      rw [nodesList_cons, nodesList_cons, List.map_append, List.map_append]
      congr 1
      · exact nodes_attr_updateByIndex hwfc hg hmemc
      · refine (List.map_congr_left ?_).symm
        intro n hn
        refine if_neg ?_
        rintro rfl
        obtain ⟨d, hd, hmd⟩ := mem_nodesList_iff.mp hn
        exact sep_ne hwfc (wfListB_eq_true_iff.mp hwfrest d hd) (hpair.1 d hd)
          hmemc hmd rfl rfl rfl
    · have hmr : m ∈ nodesList rest := by
        rw [nodesList_cons, List.mem_append] at hm
        rcases hm with h | h
        · exact absurd h hmemc
        · exact h
      have hnone : findByIndex c m.xIndex m.yIndex m.zIndex m.subDivisionLevel = none := by
        rcases hfc : findByIndex c m.xIndex m.yIndex m.zIndex m.subDivisionLevel with _ | m2
        · rfl
        · exfalso
          have hs := findByIndex_sound hfc
          obtain ⟨d, hd, hmd⟩ := mem_nodesList_iff.mp hmr
          exact sep_ne hwfc (wfListB_eq_true_iff.mp hwfrest d hd) (hpair.1 d hd)
            hs.1 hmd hs.2.1 hs.2.2.1 hs.2.2.2.1
      rw [updateList, if_neg (by simp [hnone])]
      rw [nodesList_cons, nodesList_cons, List.map_append, List.map_append]
      congr 1
      · refine (List.map_congr_left ?_).symm
        intro n hn
        refine if_neg ?_
        rintro rfl
        exact hmemc hn
      · exact nodesList_attr_updateList hwfrest hpair.2 hg hmr
termination_by sizeOf cs
decreasing_by all_goals (simp <;> omega)

end

end Ocnode

end Crafter

namespace Crafter

namespace Ocnode

mutual

/-- Two trees with the same skeleton: equal index triples, levels and branch
flags at every position, and children in the same arrangement. Attribute
edits never change the shape; a freshly built tree of the same depth has
the shape of the tree it restores. -/
def sameShapeB (a b : Ocnode) : Bool :=
  decide (a.xIndex = b.xIndex) && decide (a.yIndex = b.yIndex)
    && decide (a.zIndex = b.zIndex)
    && decide (a.subDivisionLevel = b.subDivisionLevel)
    && decide (a.hasChildren = b.hasChildren)
    && sameShapeListB a.children b.children
termination_by sizeOf a
decreasing_by
  exact sizeOf_children_lt a

def sameShapeListB : List Ocnode → List Ocnode → Bool
  | [], [] => true
  | _ :: _, [] => false
  | [], _ :: _ => false
  | a :: as, b :: bs => sameShapeB a b && sameShapeListB as bs
termination_by as _ => sizeOf as
decreasing_by all_goals (simp <;> omega)

end

theorem sameShapeB_parts {a b : Ocnode} (h : sameShapeB a b = true) :
    a.xIndex = b.xIndex ∧ a.yIndex = b.yIndex ∧ a.zIndex = b.zIndex
    ∧ a.subDivisionLevel = b.subDivisionLevel ∧ a.hasChildren = b.hasChildren
    ∧ sameShapeListB a.children b.children = true := by
  rw [sameShapeB] at h
  simp only [Bool.and_eq_true, decide_eq_true_eq] at h
  tauto

theorem sameShapeB_intro {a b : Ocnode} (h1 : a.xIndex = b.xIndex)
    (h2 : a.yIndex = b.yIndex) (h3 : a.zIndex = b.zIndex)
    (h4 : a.subDivisionLevel = b.subDivisionLevel) (h5 : a.hasChildren = b.hasChildren)
    (h6 : sameShapeListB a.children b.children = true) : sameShapeB a b = true := by
  rw [sameShapeB]
  simp only [Bool.and_eq_true, decide_eq_true_eq]
  tauto

theorem sameShapeListB_parts {as bs : List Ocnode} (h : sameShapeListB as bs = true) :
    List.Forall₂ (fun a b => sameShapeB a b = true) as bs := by
  match as, bs with
  | [], [] => exact List.Forall₂.nil
  | a :: as, [] => rw [sameShapeListB] at h; cases h
  | [], b :: bs => rw [sameShapeListB] at h; cases h
  | a :: as, b :: bs =>
    rw [sameShapeListB, Bool.and_eq_true] at h
    exact List.Forall₂.cons h.1 (sameShapeListB_parts h.2)
termination_by sizeOf as
decreasing_by all_goals (simp <;> omega)

theorem sameShapeListB_intro {as bs : List Ocnode}
    (h : List.Forall₂ (fun a b => sameShapeB a b = true) as bs) :
    sameShapeListB as bs = true := by
  induction h with
  | nil => rw [sameShapeListB]
  | cons h1 h2 ih => rw [sameShapeListB, Bool.and_eq_true]; exact ⟨h1, ih⟩

theorem sameShapeB_refl (a : Ocnode) : sameShapeB a a = true := by
  refine sameShapeB_intro rfl rfl rfl rfl rfl (sameShapeListB_intro ?_)
  refine List.forall₂_same.mpr ?_
  intro c hc
  exact sameShapeB_refl c
termination_by sizeOf a
decreasing_by
  exact sizeOf_lt_of_mem_children hc

mutual

theorem sameShapeB_symm {a b : Ocnode} (h : sameShapeB a b = true) :
    sameShapeB b a = true := by
  obtain ⟨h1, h2, h3, h4, h5, h6⟩ := sameShapeB_parts h
  exact sameShapeB_intro h1.symm h2.symm h3.symm h4.symm h5.symm
    (sameShapeListB_symm h6)
termination_by sizeOf a
decreasing_by
  exact sizeOf_children_lt a

theorem sameShapeListB_symm {as bs : List Ocnode} (h : sameShapeListB as bs = true) :
    sameShapeListB bs as = true := by
  match as, bs with
  | [], [] => rw [sameShapeListB]
  | a :: as, [] => rw [sameShapeListB] at h; cases h
  | [], b :: bs => rw [sameShapeListB] at h; cases h
  | a :: as, b :: bs =>
    rw [sameShapeListB, Bool.and_eq_true] at h ⊢
    exact ⟨sameShapeB_symm h.1, sameShapeListB_symm h.2⟩
termination_by sizeOf as
decreasing_by all_goals (simp <;> omega)

end

mutual

theorem sameShapeB_trans {a b c : Ocnode} (h1 : sameShapeB a b = true)
    (h2 : sameShapeB b c = true) : sameShapeB a c = true := by
  obtain ⟨p1, p2, p3, p4, p5, p6⟩ := sameShapeB_parts h1
  obtain ⟨q1, q2, q3, q4, q5, q6⟩ := sameShapeB_parts h2
  exact sameShapeB_intro (p1.trans q1) (p2.trans q2) (p3.trans q3) (p4.trans q4)
    (p5.trans q5) (sameShapeListB_trans p6 q6)
termination_by sizeOf a
decreasing_by
  exact sizeOf_children_lt a

theorem sameShapeListB_trans {as bs cs : List Ocnode}
    (h1 : sameShapeListB as bs = true) (h2 : sameShapeListB bs cs = true) :
    sameShapeListB as cs = true := by
  match as, bs, cs with
  | [], [], [] => rw [sameShapeListB]
  | [], [], _ :: _ => rw [sameShapeListB] at h2; cases h2
  | [], _ :: _, _ => rw [sameShapeListB] at h1; cases h1
  | _ :: _, [], _ => rw [sameShapeListB] at h1; cases h1
  | _ :: _, _ :: _, [] => rw [sameShapeListB] at h2; cases h2
  | a :: as, b :: bs, c :: cs =>
    rw [sameShapeListB, Bool.and_eq_true] at h1 h2 ⊢
    exact ⟨sameShapeB_trans h1.1 h2.1, sameShapeListB_trans h1.2 h2.2⟩
termination_by sizeOf as
decreasing_by all_goals (simp <;> omega)

end

end Ocnode

end Crafter

namespace Crafter

namespace Ocnode

theorem wfB_intro {t : Ocnode} (h1 : t.subDivisionLevel ≤ LEVELS)
    (h2 : t.hasChildren = true ↔ t.children ≠ [])
    (h3 : ∀ c ∈ t.children,
      childOkB t.xIndex t.yIndex t.zIndex t.subDivisionLevel c = true)
    (h4 : List.Pairwise (fun c d => sepB c d = true) t.children)
    (h5 : ∀ c ∈ t.children, wfB c = true) : wfB t = true := by
  obtain ⟨x, y, z, l, a, ch, hc, c, f, n, fo, bo, tp, bt, lo, ro⟩ := t
  simp only [subDivisionLevel_mk, hasChildren_mk, children_mk, xIndex_mk, yIndex_mk,
    zIndex_mk] at h1 h2 h3 h4 h5
  rw [wfB]
  simp only [Bool.and_eq_true, decide_eq_true_eq, List.all_eq_true]
  exact ⟨⟨⟨⟨h1, h2⟩, h3⟩, pairwiseSepB_eq_true_iff.mpr h4⟩, wfListB_eq_true_iff.mpr h5⟩

/-- `find_mut_by_index` assignments leave the root coordinates, level and
branch flag untouched. -/
theorem updateByIndex_root_attrs {t : Ocnode} {x y z : Int} {level : Nat}
    {g : Ocnode → Ocnode} (hg : attrOnly g) :
    (updateByIndex t x y z level g).xIndex = t.xIndex
    ∧ (updateByIndex t x y z level g).yIndex = t.yIndex
    ∧ (updateByIndex t x y z level g).zIndex = t.zIndex
    ∧ (updateByIndex t x y z level g).subDivisionLevel = t.subDivisionLevel
    ∧ (updateByIndex t x y z level g).hasChildren = t.hasChildren := by
  obtain ⟨xi, yi, zi, l, a, ch, hc, c, f, n, fo, bo, tp, bt, lo, ro⟩ := t
  rw [updateByIndex]
  split_ifs with h1 h2 h3
  · have := hg (Ocnode.mk xi yi zi l a ch hc c f n fo bo tp bt lo ro)
    simpa using ⟨this.1, this.2.1, this.2.2.1, this.2.2.2.1, this.2.2.2.2.2⟩
  · simp
  · simp
  · simp

/-- The children of an updated node are the original children or the
once-updated children list. -/
theorem updateByIndex_children_cases {t : Ocnode} {x y z : Int} {level : Nat}
    {g : Ocnode → Ocnode} (hg : attrOnly g) :
    (updateByIndex t x y z level g).children = t.children
    ∨ (updateByIndex t x y z level g).children = updateList t.children x y z level g := by
  obtain ⟨xi, yi, zi, l, a, ch, hc, c, f, n, fo, bo, tp, bt, lo, ro⟩ := t
  rw [updateByIndex]
  split_ifs with h1 h2 h3
  · exact Or.inl (by simpa using (hg (Ocnode.mk xi yi zi l a ch hc c f n fo bo tp bt lo ro)).2.2.2.2.1)
  · exact Or.inl (by simp)
  · exact Or.inr (by simp)
  · exact Or.inl (by simp)

/-- Positionally, `updateList` rewrites at most one element via
`updateByIndex` and keeps the rest. -/
theorem updateList_forall₂ (cs : List Ocnode) (x y z : Int) (level : Nat)
    (g : Ocnode → Ocnode) :
    List.Forall₂ (fun old new => new = updateByIndex old x y z level g ∨ new = old)
      cs (updateList cs x y z level g) := by
  match cs with
  | [] => rw [updateList]; exact List.Forall₂.nil
  | c :: rest =>
    rw [updateList]
    split_ifs with h
    · refine List.Forall₂.cons (Or.inl rfl) ?_
      refine List.forall₂_same.mpr ?_
      intro d hd
      exact Or.inr rfl
    · exact List.Forall₂.cons (Or.inr rfl) (updateList_forall₂ rest x y z level g)

theorem childOkB_of_attrs_eq {x y z : Int} {l : Nat} {c c2 : Ocnode}
    (hx : c2.xIndex = c.xIndex) (hy : c2.yIndex = c.yIndex) (hz : c2.zIndex = c.zIndex)
    (hl : c2.subDivisionLevel = c.subDivisionLevel) :
    childOkB x y z l c2 = childOkB x y z l c := by
  rw [childOkB, childOkB, hx, hy, hz, hl]

theorem sepB_of_attrs_eq {c c2 d d2 : Ocnode}
    (hcx : c2.xIndex = c.xIndex) (hcy : c2.yIndex = c.yIndex) (hcz : c2.zIndex = c.zIndex)
    (hcl : c2.subDivisionLevel = c.subDivisionLevel)
    (hdx : d2.xIndex = d.xIndex) (hdy : d2.yIndex = d.yIndex) (hdz : d2.zIndex = d.zIndex)
    (hdl : d2.subDivisionLevel = d.subDivisionLevel) :
    sepB c2 d2 = sepB c d := by
  rw [sepB, sepB, hcx, hcy, hcz, hcl, hdx, hdy, hdz, hdl]

theorem forall₂_exists_left_of_mem_right {α β : Type} {R : α → β → Prop}
    {as : List α} {bs : List β} (h : List.Forall₂ R as bs) {b : β} (hb : b ∈ bs) :
    ∃ a ∈ as, R a b := by
  induction h with
  | nil => cases hb
  | cons h1 h2 ih =>
    rcases List.mem_cons.mp hb with rfl | hb2
    · exact ⟨_, List.mem_cons_self _ _, h1⟩
    · obtain ⟨a, ha, hr⟩ := ih hb2
      exact ⟨a, List.mem_cons_of_mem _ ha, hr⟩

/-- Transport pairwise separation along a positionwise coordinate-preserving
correspondence. -/
theorem pairwise_sepB_transfer {cs cs2 : List Ocnode}
    (hf : List.Forall₂ (fun old new => new.xIndex = old.xIndex ∧ new.yIndex = old.yIndex
      ∧ new.zIndex = old.zIndex ∧ new.subDivisionLevel = old.subDivisionLevel) cs cs2)
    (hp : List.Pairwise (fun c d => sepB c d = true) cs) :
    List.Pairwise (fun c d => sepB c d = true) cs2 := by
  induction hf with
  | nil => exact List.Pairwise.nil
  | cons h1 h2 ih =>
    rename_i a b as bs
    rw [List.pairwise_cons] at hp ⊢
    refine ⟨?_, ih hp.2⟩
    intro d2 hd2
    obtain ⟨d, hd, hdeq⟩ := forall₂_exists_left_of_mem_right h2 hd2
    rw [sepB_of_attrs_eq h1.1 h1.2.1 h1.2.2.1 h1.2.2.2 hdeq.1 hdeq.2.1 hdeq.2.2.1
      hdeq.2.2.2]
    exact hp.1 d hd

mutual

/-- Attribute assignments through `find_mut_by_index` preserve the shape
invariant. -/
theorem wfB_updateByIndex {t : Ocnode} {x y z : Int} {level : Nat}
    {g : Ocnode → Ocnode} (hg : attrOnly g) (hw : wfB t = true) :
    wfB (updateByIndex t x y z level g) = true := by
  have hparts := wfB_parts hw
  have hroot := @updateByIndex_root_attrs t x y z level g hg
  have hatt : List.Forall₂ (fun old new => new.xIndex = old.xIndex
      ∧ new.yIndex = old.yIndex ∧ new.zIndex = old.zIndex
      ∧ new.subDivisionLevel = old.subDivisionLevel) t.children
      (updateList t.children x y z level g) := by
    refine (updateList_forall₂ t.children x y z level g).imp ?_
    rintro old new (rfl | rfl)
    · have h := @updateByIndex_root_attrs old x y z level g hg
      exact ⟨h.1, h.2.1, h.2.2.1, h.2.2.2.1⟩
    · exact ⟨rfl, rfl, rfl, rfl⟩
  rcases @updateByIndex_children_cases t x y z level g hg with hch | hch
  · refine wfB_intro ?_ ?_ ?_ ?_ ?_
    · rw [hroot.2.2.2.1]; exact hparts.1
    · rw [hroot.2.2.2.2, hch]; exact hparts.2.1
    · intro c hc
      rw [hch] at hc
      rw [hroot.1, hroot.2.1, hroot.2.2.1, hroot.2.2.2.1]
      exact hparts.2.2.1 c hc
    · rw [hch]; exact hparts.2.2.2.1
    · intro c hc; rw [hch] at hc; exact hparts.2.2.2.2 c hc
  · refine wfB_intro ?_ ?_ ?_ ?_ ?_
    · rw [hroot.2.2.2.1]; exact hparts.1
    · rw [hroot.2.2.2.2, hch]
      have hlen := List.Forall₂.length_eq (updateList_forall₂ t.children x y z level g)
      have hiff : t.children = [] ↔ updateList t.children x y z level g = [] := by
        constructor
        · intro h; rw [h, updateList]
        · intro h
          have h0 : (updateList t.children x y z level g).length = 0 := by rw [h]; rfl
          rw [← hlen] at h0
          exact List.length_eq_zero.mp h0
      rw [hparts.2.1]
      exact not_congr hiff
    · intro c2 hc2
      rw [hch] at hc2
      obtain ⟨c, hc, hceq⟩ := forall₂_exists_left_of_mem_right hatt hc2
      rw [hroot.1, hroot.2.1, hroot.2.2.1, hroot.2.2.2.1,
        childOkB_of_attrs_eq hceq.1 hceq.2.1 hceq.2.2.1 hceq.2.2.2]
      exact hparts.2.2.1 c hc
    · rw [hch]; exact pairwise_sepB_transfer hatt hparts.2.2.2.1
    · intro c2 hc2
      rw [hch] at hc2
      exact wfB_updateList hg (hparts.2.2.2.2) c2 hc2
termination_by sizeOf t
decreasing_by
  exact sizeOf_children_lt t

theorem wfB_updateList {cs : List Ocnode} {x y z : Int} {level : Nat}
    {g : Ocnode → Ocnode} (hg : attrOnly g) (hw : ∀ c ∈ cs, wfB c = true) :
    ∀ c2 ∈ updateList cs x y z level g, wfB c2 = true := by
  match cs with
  | [] => rw [updateList]; intro c2 hc2; cases hc2
  | c :: rest =>
    rw [updateList]
    split_ifs with h
    · intro c2 hc2
      rcases List.mem_cons.mp hc2 with rfl | hc2
      · exact wfB_updateByIndex hg (hw c (List.mem_cons_self c rest))
      · exact hw c2 (List.mem_cons_of_mem c hc2)
    · intro c2 hc2
      rcases List.mem_cons.mp hc2 with rfl | hc2
      · exact hw c2 (List.mem_cons_self c2 rest)
      · exact wfB_updateList hg (fun d hd => hw d (List.mem_cons_of_mem c hd)) c2 hc2
termination_by sizeOf cs
decreasing_by all_goals (simp <;> omega)

end

end Ocnode

end Crafter

namespace Crafter

namespace Ocnode

@[simp] theorem attr_ax (n : Ocnode) : (attr n).ax = n.xIndex := rfl

@[simp] theorem attr_ay (n : Ocnode) : (attr n).ay = n.yIndex := rfl

@[simp] theorem attr_az (n : Ocnode) : (attr n).az = n.zIndex := rfl

@[simp] theorem attr_alevel (n : Ocnode) : (attr n).alevel = n.subDivisionLevel := rfl

@[simp] theorem attr_aactive (n : Ocnode) : (attr n).aactive = n.active := rfl

@[simp] theorem attr_acolor (n : Ocnode) : (attr n).acolor = n.color := rfl

@[simp] theorem attr_afluid (n : Ocnode) : (attr n).afluid = n.fluid := rfl

@[simp] theorem attr_anoise (n : Ocnode) : (attr n).anoise = n.noise := rfl

@[simp] theorem attr_afront (n : Ocnode) : (attr n).afront = n.frontOccludedCalculated := rfl

@[simp] theorem attr_aback (n : Ocnode) : (attr n).aback = n.backOccludedCalculated := rfl

@[simp] theorem attr_atop (n : Ocnode) : (attr n).atop = n.topOccludedCalculated := rfl

@[simp] theorem attr_abottom (n : Ocnode) :
    (attr n).abottom = n.bottomOccludedCalculated := rfl

@[simp] theorem attr_aleft (n : Ocnode) : (attr n).aleft = n.leftOccludedCalculated := rfl

@[simp] theorem attr_aright (n : Ocnode) : (attr n).aright = n.rightOccludedCalculated := rfl

@[simp] theorem attr_ahasChildren (n : Ocnode) : (attr n).ahasChildren = n.hasChildren := rfl

/-- The coordinates recorded by the conditional rewrite of
`nodes_attr_updateByIndex` are always those of the underlying node. -/
theorem ite_attr_coords {m n : Ocnode} {g : Ocnode → Ocnode} (hg : attrOnly g) :
    ((if n = m then attr (g n) else attr n).ax = n.xIndex
    ∧ (if n = m then attr (g n) else attr n).ay = n.yIndex
    ∧ (if n = m then attr (g n) else attr n).az = n.zIndex
    ∧ (if n = m then attr (g n) else attr n).alevel = n.subDivisionLevel) := by
  split_ifs with h
  · have := hg n
    simp [this.1, this.2.1, this.2.2.1, this.2.2.2.1]
  · simp

/-- After an assignment at the coordinates of node `m`, lookup at those
coordinates reports exactly `g m`'s attributes. -/
theorem findByIndex_update_target {t m : Ocnode} {g : Ocnode → Ocnode}
    (hwf : wfB t = true) (hg : attrOnly g) (hm : m ∈ nodes t) :
    Option.map attr (findByIndex
        (updateByIndex t m.xIndex m.yIndex m.zIndex m.subDivisionLevel g)
        m.xIndex m.yIndex m.zIndex m.subDivisionLevel)
      = some (attr (g m)) := by
  have hmap := nodes_attr_updateByIndex hwf hg hm
  have hwu : wfB (updateByIndex t m.xIndex m.yIndex m.zIndex m.subDivisionLevel g) = true :=
    wfB_updateByIndex hg hwf
  have hmem : attr (g m) ∈
      (nodes (updateByIndex t m.xIndex m.yIndex m.zIndex m.subDivisionLevel g)).map attr := by
    rw [hmap]
    exact List.mem_map.mpr ⟨m, hm, by rw [if_pos rfl]⟩
  obtain ⟨n, hn, hattr⟩ := List.mem_map.mp hmem
  have hx : n.xIndex = m.xIndex := by
    have := congrArg AttrRecord.ax hattr
    simpa [(hg m).1] using this
  have hy : n.yIndex = m.yIndex := by
    have := congrArg AttrRecord.ay hattr
    simpa [(hg m).2.1] using this
  have hz : n.zIndex = m.zIndex := by
    have := congrArg AttrRecord.az hattr
    simpa [(hg m).2.2.1] using this
  have hl : n.subDivisionLevel = m.subDivisionLevel := by
    have := congrArg AttrRecord.alevel hattr
    simpa [(hg m).2.2.2.1] using this
  have hfind := findByIndex_complete hwu hn
  rw [hx, hy, hz, hl] at hfind
  rw [hfind]
  simp [hattr]

/-- An assignment at the coordinates of `m` does not change the reported
attributes at any other coordinate. -/
theorem findByIndex_update_other {t m : Ocnode} {g : Ocnode → Ocnode}
    (hwf : wfB t = true) (hg : attrOnly g) (hm : m ∈ nodes t)
    {x2 y2 z2 : Int} {l2 : Nat}
    (hne : ¬(x2 = m.xIndex ∧ y2 = m.yIndex ∧ z2 = m.zIndex ∧ l2 = m.subDivisionLevel)) :
    Option.map attr (findByIndex
        (updateByIndex t m.xIndex m.yIndex m.zIndex m.subDivisionLevel g) x2 y2 z2 l2)
      = Option.map attr (findByIndex t x2 y2 z2 l2) := by
  have hmap := nodes_attr_updateByIndex hwf hg hm
  have hwu : wfB (updateByIndex t m.xIndex m.yIndex m.zIndex m.subDivisionLevel g) = true :=
    wfB_updateByIndex hg hwf
  rcases hf : findByIndex t x2 y2 z2 l2 with _ | n
  · rw [findByIndex_eq_none_iff hwf] at hf
    have hnone : findByIndex
        (updateByIndex t m.xIndex m.yIndex m.zIndex m.subDivisionLevel g) x2 y2 z2 l2
        = none := by
      rw [findByIndex_eq_none_iff hwu]
      intro n2 hn2 hco
      have hmem : attr n2 ∈
          (nodes (updateByIndex t m.xIndex m.yIndex m.zIndex m.subDivisionLevel g)).map
            attr := List.mem_map_of_mem attr hn2
      rw [hmap] at hmem
      obtain ⟨n0, hn0, heq⟩ := List.mem_map.mp hmem
      have hcoords := ite_attr_coords (m := m) (n := n0) hg
      refine hf n0 hn0 ⟨?_, ?_, ?_, ?_⟩
      · have h1 := hcoords.1
        rw [heq] at h1
        simp only [attr_ax] at h1
        rw [← h1]; exact hco.1
      · have h1 := hcoords.2.1
        rw [heq] at h1
        simp only [attr_ay] at h1
        rw [← h1]; exact hco.2.1
      · have h1 := hcoords.2.2.1
        rw [heq] at h1
        simp only [attr_az] at h1
        rw [← h1]; exact hco.2.2.1
      · have h1 := hcoords.2.2.2
        rw [heq] at h1
        simp only [attr_alevel] at h1
        rw [← h1]; exact hco.2.2.2
    rw [hnone]
  · have hs := findByIndex_sound hf
    have hnm : ¬(n = m) := by
      rintro rfl
      exact hne ⟨hs.2.1.symm, hs.2.2.1.symm, hs.2.2.2.1.symm, hs.2.2.2.2.symm⟩
    have hmem : attr n ∈
        (nodes (updateByIndex t m.xIndex m.yIndex m.zIndex m.subDivisionLevel g)).map
          attr := by
      rw [hmap]
      exact List.mem_map.mpr ⟨n, hs.1, by rw [if_neg hnm]⟩
    obtain ⟨n2, hn2, hattr⟩ := List.mem_map.mp hmem
    have hx : n2.xIndex = x2 := by
      have h1 := congrArg AttrRecord.ax hattr
      simp only [attr_ax] at h1
      rw [h1]; exact hs.2.1
    have hy : n2.yIndex = y2 := by
      have h1 := congrArg AttrRecord.ay hattr
      simp only [attr_ay] at h1
      rw [h1]; exact hs.2.2.1
    have hz : n2.zIndex = z2 := by
      have h1 := congrArg AttrRecord.az hattr
      simp only [attr_az] at h1
      rw [h1]; exact hs.2.2.2.1
    have hl : n2.subDivisionLevel = l2 := by
      have h1 := congrArg AttrRecord.alevel hattr
      simp only [attr_alevel] at h1
      rw [h1]; exact hs.2.2.2.2
    have hfind := findByIndex_complete hwu hn2
    rw [hx, hy, hz, hl] at hfind
    rw [hfind]
    simp [hattr]

end Ocnode

end Crafter

namespace Crafter

namespace Ocnode

/-- In a well-formed tree, a node at the finest level is a leaf. -/
theorem leaf_of_level_LEVELS {m : Ocnode} (hwf : wfB m = true)
    (hl : m.subDivisionLevel = LEVELS) : m.hasChildren = false ∧ m.children = [] := by
  have hparts := wfB_parts hwf
  rcases hnil : m.children with _ | ⟨c, rest⟩
  · refine ⟨?_, rfl⟩
    by_contra hhc
    have h1 := hparts.2.1.mp (by simpa using hhc)
    exact h1 hnil
  · exfalso
    have hc : c ∈ m.children := by rw [hnil]; exact List.mem_cons_self c rest
    have hok := childOkB_parts (hparts.2.2.1 c hc)
    have hwfc := wfB_parts (hparts.2.2.2.2 c hc)
    have := hwfc.1
    rw [hok.1, hl] at this
    omega

theorem setVoxel_fields (v : Bool) (col : Color4) (f n : Int) (m : Ocnode) :
    (setVoxel v col f n m).active = v ∧ (setVoxel v col f n m).color = col
    ∧ (setVoxel v col f n m).fluid = f ∧ (setVoxel v col f n m).noise = n
    ∧ (setVoxel v col f n m).hasChildren = m.hasChildren := by
  obtain ⟨x, y, z, l, a, ch, hc, c, fl, no, fo, bo, tp, bt, lo, ro⟩ := m
  simp [setVoxel]

theorem setPaint_fields (col : Color4) (no fl : Int) (m : Ocnode) :
    (setPaint col no fl m).color = col ∧ (setPaint col no fl m).noise = no
    ∧ (setPaint col no fl m).fluid = fl ∧ (setPaint col no fl m).active = m.active
    ∧ (setPaint col no fl m).hasChildren = m.hasChildren
    ∧ (setPaint col no fl m).frontOccludedCalculated = m.frontOccludedCalculated
    ∧ (setPaint col no fl m).backOccludedCalculated = m.backOccludedCalculated
    ∧ (setPaint col no fl m).topOccludedCalculated = m.topOccludedCalculated
    ∧ (setPaint col no fl m).bottomOccludedCalculated = m.bottomOccludedCalculated
    ∧ (setPaint col no fl m).leftOccludedCalculated = m.leftOccludedCalculated
    ∧ (setPaint col no fl m).rightOccludedCalculated = m.rightOccludedCalculated := by
  obtain ⟨x, y, z, l, a, ch, hc, c, f, n, fo, bo, tp, bt, lo, ro⟩ := m
  simp [setPaint]

/-- A finest-level leaf with the given activity and colour, used to build
small well-formed witness trees. -/
def mkLeaf (x y z : Int) (act : Bool) (col : Color4) : Ocnode :=
  .mk x y z LEVELS act [] false col 0 0 false false false false false false

/-- Wrap a node in a single-child parent one level up at the same corner. -/
def wrapNode (child : Ocnode) : Ocnode :=
  .mk child.xIndex child.yIndex child.zIndex (child.subDivisionLevel - 1) false [child]
    true ⟨0, 0, 0, 0⟩ 0 0 false false false false false false

/-- Iterate `wrapNode`. -/
def wrapN : Nat → Ocnode → Ocnode
  | 0, n => n
  | k + 1, n => wrapN k (wrapNode n)

mutual

theorem drawables_smooth {t : Ocnode} {c : Cube} (hc : c ∈ drawables t) :
    c.smooth = true := by
  match t with
  | .mk x y z l a ch hcd co f n fo bo tp bt lo ro =>
    rw [drawables] at hc
    split_ifs at hc with h1 h2 h3
    · rw [List.mem_singleton] at hc
      subst hc
      rfl
    · exact drawablesList_smooth hc
    · rw [List.mem_singleton] at hc
      subst hc
      rfl
    · cases hc
termination_by sizeOf t
decreasing_by
  simp; omega

theorem drawablesList_smooth {cs : List Ocnode} {c : Cube} (hc : c ∈ drawablesList cs) :
    c.smooth = true := by
  match cs with
  | [] => rw [drawablesList] at hc; cases hc
  | d :: rest =>
    rw [drawablesList] at hc
    rcases List.mem_append.mp hc with h | h
    · exact drawables_smooth h
    · exact drawablesList_smooth h
termination_by sizeOf cs
decreasing_by all_goals (simp <;> omega)

end

end Ocnode

open Ocnode

/-- C9: for every tree state and every camera position, `optimize` leaves
the entire tree unchanged — its whole body is commented out in the source,
so the LOD collapse mechanism is inert in the baseline. -/
theorem C9_optimize_inert (cameraEye : ℚ × ℚ × ℚ) (t : Ocnode) :
    Octree.optimize cameraEye t = t := rfl

/-- C10: every cube emitted by `drawables` has `smooth = true`; the flat
geometry mode is never selected for octree-emitted cubes. -/
theorem C10_drawables_smooth_true (t : Ocnode) (c : Cube)
    (hc : c ∈ Octree.drawables t) : c.smooth = true :=
  Ocnode.drawables_smooth hc

unseal Ocnode.drawables Ocnode.drawablesList in
/-- Witness for C10: a single active leaf emits one cube, and the theorem
applies to its head. -/
theorem C10_witness :
    ∃ c ∈ Octree.drawables (mkLeaf 0 0 0 true ⟨1, 0, 0, 1⟩), c.smooth = true := by
  have hlen : 0 < (Octree.drawables (mkLeaf 0 0 0 true ⟨1, 0, 0, 1⟩)).length := by decide
  have hne : Octree.drawables (mkLeaf 0 0 0 true ⟨1, 0, 0, 1⟩) ≠ [] :=
    List.ne_nil_of_length_pos hlen
  exact ⟨_, List.head_mem hne, C10_drawables_smooth_true _ _ (List.head_mem hne)⟩

end Crafter

namespace Crafter

namespace Ocnode

theorem mem_nodes_trans {a b c : Ocnode} (h1 : a ∈ nodes b) (h2 : b ∈ nodes c) :
    a ∈ nodes c := by
  rcases mem_nodes_cases h2 with rfl | ⟨d, hd, hmd⟩
  · exact h1
  · rw [nodes_def]
    exact List.mem_cons_of_mem _ (mem_nodesList_iff.mpr ⟨d, hd, mem_nodes_trans h1 hmd⟩)
termination_by sizeOf c
decreasing_by
  exact sizeOf_lt_of_mem_children hd

end Ocnode

open Ocnode

/-- C5: on a well-formed tree containing a finest-level leaf at an in-range
coordinate `(cx, cy, cz)` (the session tree contains one for every in-range
coordinate), `toggle_voxels([(cx,cy,cz)], true, col, fl, no)` followed by
`find_by_index` at the finest level returns an active leaf carrying exactly
the given colour, fluid and noise. -/
theorem C5_toggle_then_find (t : Ocnode) (cx cy cz : Int) (col : Color4) (fl no : Int)
    (m : Ocnode) (hwf : wfB t = true) (hm : m ∈ nodes t)
    (hx : m.xIndex = cx) (hy : m.yIndex = cy) (hz : m.zIndex = cz)
    (hl : m.subDivisionLevel = LEVELS) :
    ∃ m2, findByIndex (toggleVoxels t [(cx, cy, cz)] true col fl no) cx cy cz LEVELS
        = some m2
      ∧ m2.active = true ∧ m2.color = col ∧ m2.fluid = fl ∧ m2.noise = no
      ∧ m2.hasChildren = false := by
  subst hx; subst hy; subst hz
  have htog : toggleVoxels t [(m.xIndex, m.yIndex, m.zIndex)] true col fl no
      = updateByIndex t m.xIndex m.yIndex m.zIndex LEVELS (setVoxel true col fl no) := by
    simp [toggleVoxels]
  rw [htog, ← hl]
  have hD2 := findByIndex_update_target hwf (attrOnly_setVoxel true col fl no) hm
  obtain ⟨m2, hm2, hattr⟩ := Option.map_eq_some'.mp hD2
  have hfields := setVoxel_fields true col fl no m
  have hleaf := leaf_of_level_LEVELS (wfB_of_mem_nodes hwf hm) hl
  refine ⟨m2, hm2, ?_, ?_, ?_, ?_, ?_⟩
  · have h1 := congrArg AttrRecord.aactive hattr
    simp only [attr_aactive] at h1
    rw [h1, hfields.1]
  · have h1 := congrArg AttrRecord.acolor hattr
    simp only [attr_acolor] at h1
    rw [h1, hfields.2.1]
  · have h1 := congrArg AttrRecord.afluid hattr
    simp only [attr_afluid] at h1
    rw [h1, hfields.2.2.1]
  · have h1 := congrArg AttrRecord.anoise hattr
    simp only [attr_anoise] at h1
    rw [h1, hfields.2.2.2.1]
  · have h1 := congrArg AttrRecord.ahasChildren hattr
    simp only [attr_ahasChildren] at h1
    rw [h1, hfields.2.2.2.2, hleaf.1]

set_option maxRecDepth 4000 in
unseal Ocnode.wfB Ocnode.wfListB in
/-- Witness for C5 on a one-node tree whose root is a finest-level leaf. -/
theorem C5_witness :
    wfB (mkLeaf 0 0 0 false ⟨1, 0, 0, 1⟩) = true
    ∧ ∃ m2, findByIndex
        (toggleVoxels (mkLeaf 0 0 0 false ⟨1, 0, 0, 1⟩) [(0, 0, 0)] true ⟨0, 1, 0, 1⟩ 3 4)
        0 0 0 LEVELS = some m2
      ∧ m2.active = true ∧ m2.color = ⟨0, 1, 0, 1⟩ ∧ m2.fluid = 3 ∧ m2.noise = 4
      ∧ m2.hasChildren = false :=
  ⟨by decide,
   C5_toggle_then_find (mkLeaf 0 0 0 false ⟨1, 0, 0, 1⟩) 0 0 0 ⟨0, 1, 0, 1⟩ 3 4
     (mkLeaf 0 0 0 false ⟨1, 0, 0, 1⟩) (by decide) (mem_nodes_self _) rfl rfl rfl rfl⟩

namespace Ocnode

/-- One painting step at a node whose six cached occlusion flags are all
false performs the colour assignment and recurses nowhere. -/
theorem paintFuel_succ_no_occ {fuel : Nat} {t : Ocnode} {x y z : Int} {level : Nat}
    {n : Ocnode} {col : Color4} {noise fluid : Int}
    {completed : List (Int × Int × Int × Nat)}
    (hfind : findByIndex t x y z level = some n)
    (h1 : n.frontOccludedCalculated = false) (h2 : n.backOccludedCalculated = false)
    (h3 : n.topOccludedCalculated = false) (h4 : n.bottomOccludedCalculated = false)
    (h5 : n.leftOccludedCalculated = false) (h6 : n.rightOccludedCalculated = false) :
    paintConnectedNodesWithCompletion (fuel + 1) t (x, y, z, level) col noise fluid completed
      = (updateByIndex t x y z level (setPaint col noise fluid),
         completed ++ [(x, y, z, level)]) := by
  rw [paintConnectedNodesWithCompletion, hfind]
  simp [h1, h2, h3, h4, h5, h6]

/-- `paint_connected_nodes` at an isolated node reduces to the single field
assignment. -/
theorem paintConnectedNodes_no_occ {t : Ocnode} {x y z : Int} {level : Nat}
    {n : Ocnode} {col : Color4} {noise fluid : Int}
    (hfind : findByIndex t x y z level = some n)
    (h1 : n.frontOccludedCalculated = false) (h2 : n.backOccludedCalculated = false)
    (h3 : n.topOccludedCalculated = false) (h4 : n.bottomOccludedCalculated = false)
    (h5 : n.leftOccludedCalculated = false) (h6 : n.rightOccludedCalculated = false) :
    paintConnectedNodes t (x, y, z, level) col noise fluid
      = updateByIndex t x y z level (setPaint col noise fluid) := by
  rw [paintConnectedNodes]
  have hfuel : (nodes t).length + 2 = ((nodes t).length + 1) + 1 := rfl
  rw [hfuel, paintFuel_succ_no_occ hfind h1 h2 h3 h4 h5 h6]

end Ocnode

/-- C7: painting seeded at an active node whose six cached occlusion flags
are all false rewrites exactly that node's colour, noise and fluid and
leaves every other node unchanged; node contents are compared through
`find_by_index`, which reports every attribute field. -/
theorem C7_paint_isolated (t : Ocnode) (x y z : Int) (level : Nat) (n : Ocnode)
    (col : Color4) (noise fluid : Int)
    (hwf : wfB t = true)
    (hfind : findByIndex t x y z level = some n)
    (hact : n.active = true)
    (h1 : n.frontOccludedCalculated = false) (h2 : n.backOccludedCalculated = false)
    (h3 : n.topOccludedCalculated = false) (h4 : n.bottomOccludedCalculated = false)
    (h5 : n.leftOccludedCalculated = false) (h6 : n.rightOccludedCalculated = false) :
    Option.map Ocnode.attr
        (findByIndex (paintConnectedNodes t (x, y, z, level) col noise fluid) x y z level)
      = some (Ocnode.attr (setPaint col noise fluid n))
    ∧ ∀ (x2 y2 z2 : Int) (l2 : Nat), ¬(x2 = x ∧ y2 = y ∧ z2 = z ∧ l2 = level) →
        Option.map Ocnode.attr
            (findByIndex (paintConnectedNodes t (x, y, z, level) col noise fluid) x2 y2 z2 l2)
          = Option.map Ocnode.attr (findByIndex t x2 y2 z2 l2) := by
  have hs := findByIndex_sound hfind
  rw [paintConnectedNodes_no_occ hfind h1 h2 h3 h4 h5 h6]
  obtain ⟨hmem, hsx, hsy, hsz, hsl⟩ := hs
  subst hsx; subst hsy; subst hsz; subst hsl
  constructor
  · exact findByIndex_update_target hwf (attrOnly_setPaint col noise fluid) hmem
  · intro x2 y2 z2 l2 hne
    exact findByIndex_update_other hwf (attrOnly_setPaint col noise fluid) hmem hne

set_option maxRecDepth 4000 in
unseal Ocnode.wfB Ocnode.wfListB Ocnode.findByIndex Ocnode.findList in
/-- Witness for C7: an isolated active one-node tree. -/
theorem C7_witness :
    wfB (mkLeaf 0 0 0 true ⟨1, 0, 0, 1⟩) = true
    ∧ (Option.map Ocnode.attr
        (findByIndex
          (paintConnectedNodes (mkLeaf 0 0 0 true ⟨1, 0, 0, 1⟩) (0, 0, 0, LEVELS)
            ⟨0, 0, 1, 1⟩ 5 6) 0 0 0 LEVELS)
      = some (Ocnode.attr (setPaint ⟨0, 0, 1, 1⟩ 5 6 (mkLeaf 0 0 0 true ⟨1, 0, 0, 1⟩)))
    ∧ ∀ (x2 y2 z2 : Int) (l2 : Nat), ¬(x2 = 0 ∧ y2 = 0 ∧ z2 = 0 ∧ l2 = LEVELS) →
        Option.map Ocnode.attr
            (findByIndex
              (paintConnectedNodes (mkLeaf 0 0 0 true ⟨1, 0, 0, 1⟩) (0, 0, 0, LEVELS)
                ⟨0, 0, 1, 1⟩ 5 6) x2 y2 z2 l2)
          = Option.map Ocnode.attr (findByIndex (mkLeaf 0 0 0 true ⟨1, 0, 0, 1⟩) x2 y2 z2 l2)) :=
  ⟨by decide,
   C7_paint_isolated (mkLeaf 0 0 0 true ⟨1, 0, 0, 1⟩) 0 0 0 LEVELS
     (mkLeaf 0 0 0 true ⟨1, 0, 0, 1⟩) ⟨0, 0, 1, 1⟩ 5 6 (by decide) (by rfl) rfl
     rfl rfl rfl rfl rfl rfl⟩

/-- C8 (amended): `all_voxels_active` is true iff every listed coordinate
whose finest-level lookup succeeds refers to an active leaf; coordinates
whose lookup fails are skipped rather than counted as failures. -/
theorem C8_allVoxelsActive_amended (t : Ocnode) (positions : List (Int × Int × Int)) :
    allVoxelsActive t positions = true
      ↔ ∀ p ∈ positions, ∀ m, findByIndex t p.1 p.2.1 p.2.2 LEVELS = some m →
          m.active = true := by
  induction positions with
  | nil => simp [allVoxelsActive]
  | cons p rest ih =>
    rw [allVoxelsActive]
    rcases hf : findByIndex t p.1 p.2.1 p.2.2 LEVELS with _ | m
    · simp only [List.mem_cons]
      constructor
      · intro h q hq
        rcases hq with rfl | hq
        · intro m2 hm2; rw [hf] at hm2; cases hm2
        · exact (ih.mp h) q hq
      · intro h
        refine ih.mpr ?_
        intro q hq
        exact h q (Or.inr hq)
    · by_cases ha : m.active = true
      · show (if m.active = true then allVoxelsActive t rest else false) = true ↔ _
        rw [if_pos ha]
        simp only [List.mem_cons]
        constructor
        · intro h q hq
          rcases hq with rfl | hq
          · intro m2 hm2
            rw [hf] at hm2
            obtain rfl : m = m2 := by injection hm2
            exact ha
          · exact (ih.mp h) q hq
        · intro h
          refine ih.mpr ?_
          intro q hq
          exact h q (Or.inr hq)
      · show (if m.active = true then allVoxelsActive t rest else false) = true ↔ _
        rw [if_neg ha]
        simp only [List.mem_cons]
        constructor
        · intro h; cases h
        · intro h
          exfalso
          exact ha (h p (Or.inl rfl) m hf)

unseal Ocnode.findByIndex Ocnode.findList in
/-- Counterexample for C8 as stated: on a tree with no finest-level leaf at
the listed coordinate (a lookup miss, as for an out-of-range coordinate on
the session tree), `all_voxels_active` still answers true even though no
active leaf exists there. -/
theorem C8_counterexample :
    allVoxelsActive Ocnode.new [(0, 0, 0)] = true
    ∧ ¬(∀ p ∈ [((0 : Int), (0 : Int), (0 : Int))],
        ∃ m, findByIndex Ocnode.new p.1 p.2.1 p.2.2 LEVELS = some m ∧ m.active = true) := by
  constructor
  · rfl
  · intro h
    obtain ⟨m, hm, _⟩ := h (0, 0, 0) (List.mem_singleton_self _)
    have hnone : findByIndex Ocnode.new 0 0 0 LEVELS = none := rfl
    rw [hnone] at hm
    cases hm

namespace Ocnode

/-- The tree used to exhibit the `recalculate_occlusion_for_selections`
level mismatch: a level-7 parent with two adjacent active uniform leaves. -/
def twoLeafParent : Ocnode :=
  .mk 0 0 0 7 false [mkLeaf 0 0 0 true ⟨1, 0, 0, 1⟩, mkLeaf 1 0 0 true ⟨1, 0, 0, 1⟩]
    true ⟨0, 0, 0, 0⟩ 0 0 false false false false false false

/-- Because every node of a well-formed tree lives at a level at most
`ocnode::LEVELS = 8`, the lookups of the targeted recompute, made at
`octree::LEVELS = 9`, all miss, and the whole pass is the identity. -/
theorem recalcForSelections_noop (t : Ocnode) (selections : List (Int × Int × Int))
    (hwf : wfB t = true) :
    Octree.recalculateOcclusionForSelections t selections = t := by
  rw [Octree.recalculateOcclusionForSelections]
  have hstep : ∀ p, Octree.recalcSelectionStep t p = t := by
    intro p
    rw [Octree.recalcSelectionStep, findByIndex_octreeLEVELS hwf]
  have hvar : ∀ (vs : List (Int × Int × Int)) (pos : Int × Int × Int),
      vs.foldl (fun acc2 v =>
        Octree.recalcSelectionStep acc2 (pos.1 + v.1, pos.2.1 + v.2.1, pos.2.2 + v.2.2)) t
        = t := by
    intro vs pos
    induction vs with
    | nil => rfl
    | cons v rest ihv => rw [List.foldl_cons, hstep]; exact ihv
  induction selections with
  | nil => rfl
  | cons s rest ihs => rw [List.foldl_cons, hvar]; exact ihs

end Ocnode

set_option maxRecDepth 10000 in
unseal Ocnode.findByIndex Ocnode.findList Ocnode.recalculateOcclusion
  Ocnode.recalculateOcclusionList Ocnode.wfB Ocnode.wfListB in
/-- C2 (code bug): `recalculate_occlusion_for_selections` looks nodes up at
`octree::LEVELS = 9`, one level deeper than any node of the tree built at
`ocnode::LEVELS = 8`, so it changes nothing — here two adjacent uniform
active leaves keep a false right-face flag that the full
`recalculate_occlusion` sets to true. -/
theorem C2_levels_mismatch :
    Octree.recalculateOcclusionForSelections Ocnode.twoLeafParent [(0, 0, 0)]
      = Ocnode.twoLeafParent
    ∧ Option.map (fun n => n.rightOccludedCalculated)
        (findByIndex (Octree.recalculateOcclusion Ocnode.twoLeafParent) 0 0 0 LEVELS)
      = some true
    ∧ Option.map (fun n => n.rightOccludedCalculated)
        (findByIndex Ocnode.twoLeafParent 0 0 0 LEVELS)
      = some false := by
  refine ⟨Ocnode.recalcForSelections_noop _ _ (by decide), ?_, ?_⟩
  · rfl
  · rfl

end Crafter

namespace Crafter

namespace Ocnode

/-- The per-node flag rewrite `recalculate_occlusion` applies (children
aside): an active node receives the six freshly computed flags, an inactive
node is untouched. -/
def recalcNodeFlags (root n : Ocnode) : Ocnode :=
  if n.active = true then
    setOcclusionFlags n (frontOccluded n root) (backOccluded n root) (topOccluded n root)
      (bottomOccluded n root) (leftOccluded n root) (rightOccluded n root)
  else n

theorem setOcclusionFlags_fields (n : Ocnode) (fo bo tp bt lo ro : Bool) :
    (setOcclusionFlags n fo bo tp bt lo ro).xIndex = n.xIndex
    ∧ (setOcclusionFlags n fo bo tp bt lo ro).yIndex = n.yIndex
    ∧ (setOcclusionFlags n fo bo tp bt lo ro).zIndex = n.zIndex
    ∧ (setOcclusionFlags n fo bo tp bt lo ro).subDivisionLevel = n.subDivisionLevel
    ∧ (setOcclusionFlags n fo bo tp bt lo ro).active = n.active
    ∧ (setOcclusionFlags n fo bo tp bt lo ro).hasChildren = n.hasChildren
    ∧ (setOcclusionFlags n fo bo tp bt lo ro).color = n.color
    ∧ (setOcclusionFlags n fo bo tp bt lo ro).fluid = n.fluid
    ∧ (setOcclusionFlags n fo bo tp bt lo ro).noise = n.noise
    ∧ (setOcclusionFlags n fo bo tp bt lo ro).frontOccludedCalculated = fo
    ∧ (setOcclusionFlags n fo bo tp bt lo ro).backOccludedCalculated = bo
    ∧ (setOcclusionFlags n fo bo tp bt lo ro).topOccludedCalculated = tp
    ∧ (setOcclusionFlags n fo bo tp bt lo ro).bottomOccludedCalculated = bt
    ∧ (setOcclusionFlags n fo bo tp bt lo ro).leftOccludedCalculated = lo
    ∧ (setOcclusionFlags n fo bo tp bt lo ro).rightOccludedCalculated = ro := by
  obtain ⟨x, y, z, l, a, ch, hc, c, f, no, p, q, r, s, u, v⟩ := n
  simp [setOcclusionFlags]

theorem recalcNodeFlags_preserves (root n : Ocnode) :
    (recalcNodeFlags root n).xIndex = n.xIndex
    ∧ (recalcNodeFlags root n).yIndex = n.yIndex
    ∧ (recalcNodeFlags root n).zIndex = n.zIndex
    ∧ (recalcNodeFlags root n).subDivisionLevel = n.subDivisionLevel
    ∧ (recalcNodeFlags root n).active = n.active
    ∧ (recalcNodeFlags root n).color = n.color
    ∧ (recalcNodeFlags root n).fluid = n.fluid
    ∧ (recalcNodeFlags root n).noise = n.noise := by
  rw [recalcNodeFlags]
  split_ifs with h
  · have hf := setOcclusionFlags_fields n (frontOccluded n root) (backOccluded n root)
      (topOccluded n root) (bottomOccluded n root) (leftOccluded n root)
      (rightOccluded n root)
    exact ⟨hf.1, hf.2.1, hf.2.2.1, hf.2.2.2.1, hf.2.2.2.2.1, hf.2.2.2.2.2.2.1,
      hf.2.2.2.2.2.2.2.1, hf.2.2.2.2.2.2.2.2.1⟩
  · exact ⟨rfl, rfl, rfl, rfl, rfl, rfl, rfl, rfl⟩

/-- `uniform` only reads colour, fluid and noise, so it transfers along
attribute equality on either side. -/
theorem uniform_congr {a a2 b b2 : Ocnode} (h1 : a.color = a2.color)
    (h2 : a.fluid = a2.fluid) (h3 : a.noise = a2.noise) (h4 : b.color = b2.color)
    (h5 : b.fluid = b2.fluid) (h6 : b.noise = b2.noise) :
    uniform a b = uniform a2 b2 := by
  rw [uniform, uniform, h1, h2, h3, h4, h5, h6]

mutual

/-- Attribute listing of `recalculate_occlusion`: every node of a
well-formed tree receives exactly the per-node flag rewrite against the
frozen root. -/
theorem nodes_attr_recalc {root t : Ocnode} (hwf : wfB t = true) :
    (nodes (recalculateOcclusion root t)).map attr
      = (nodes t).map (fun n => attr (recalcNodeFlags root n)) := by
  match t with
  | .mk x y z l a ch hc c f n fo bo tp bt lo ro =>
    have hparts := wfB_parts (t := .mk x y z l a ch hc c f n fo bo tp bt lo ro) hwf
    rw [recalculateOcclusion]
    rw [nodes_def, nodes_def]
    simp only [children_mk, List.map_cons]
    congr 1
    · by_cases ha : a = true
      · simp [recalcNodeFlags, setOcclusionFlags, attr, ha]
      · have ha2 : a = false := by simpa using ha
        simp [recalcNodeFlags, attr, ha2]
    · by_cases hhc : hc = true
      · simp only [hhc, if_true]
        exact nodes_attr_recalcList (fun d hd => hparts.2.2.2.2 d hd)
      · have hh2 : hc = false := by simpa using hhc
        have hnil : ch = [] := by
          by_contra hne
          have := hparts.2.1.mpr (by simpa using hne)
          simp only [hasChildren_mk] at this
          rw [this] at hh2
          cases hh2
        simp [hh2, hnil]
termination_by sizeOf t
decreasing_by
  simp; omega

theorem nodes_attr_recalcList {root : Ocnode} {cs : List Ocnode}
    (hwf : ∀ c ∈ cs, wfB c = true) :
    (nodesList (recalculateOcclusionList root cs)).map attr
      = (nodesList cs).map (fun n => attr (recalcNodeFlags root n)) := by
  match cs with
  | [] => rw [recalculateOcclusionList]; simp
  | c :: rest =>
    rw [recalculateOcclusionList, nodesList_cons, nodesList_cons, List.map_append,
      List.map_append]
    congr 1
    · exact nodes_attr_recalc (hwf c (List.mem_cons_self c rest))
    · exact nodes_attr_recalcList (fun d hd => hwf d (List.mem_cons_of_mem c hd))
termination_by sizeOf cs
decreasing_by all_goals (simp <;> omega)

end

/-- The occlusion check pattern shared by the six direction helpers,
characterised on well-formed trees: the flag is true exactly when the tree
holds an active node at the queried coordinate that is uniform with
`self`. -/
theorem occCheck_iff {t n : Ocnode} (hwf : wfB t = true) (qx qy qz : Int) (ql : Nat) :
    (match findByIndex t qx qy qz ql with
      | some nb => if nb.active = true then uniform n nb else false
      | none => false) = true
    ↔ ∃ m ∈ nodes t, m.xIndex = qx ∧ m.yIndex = qy ∧ m.zIndex = qz
        ∧ m.subDivisionLevel = ql ∧ m.active = true ∧ uniform n m = true := by
  rcases hf : findByIndex t qx qy qz ql with _ | nb
  · simp only []
    constructor
    · intro h; cases h
    · rintro ⟨m, hm, hx, hy, hz, hl, _, _⟩
      rw [findByIndex_eq_none_iff hwf] at hf
      exact absurd ⟨hx, hy, hz, hl⟩ (hf m hm)
  · simp only []
    have hs := findByIndex_sound hf
    constructor
    · intro h
      by_cases ha : nb.active = true
      · rw [if_pos ha] at h
        exact ⟨nb, hs.1, hs.2.1, hs.2.2.1, hs.2.2.2.1, hs.2.2.2.2, ha, h⟩
      · rw [if_neg ha] at h; cases h
    · rintro ⟨m, hm, hx, hy, hz, hl, hact, huni⟩
      have hfm : findByIndex t qx qy qz ql = some m :=
        (findByIndex_eq_some_iff hwf).mpr ⟨hm, hx, hy, hz, hl⟩
      rw [hf] at hfm
      obtain rfl : nb = m := by injection hfm
      rw [if_pos hact]
      exact huni

end Ocnode

end Crafter

namespace Crafter

namespace Ocnode

theorem attr_eq_fields {a b1 : Ocnode} (h : attr a = attr b1) :
    a.xIndex = b1.xIndex ∧ a.yIndex = b1.yIndex ∧ a.zIndex = b1.zIndex
    ∧ a.subDivisionLevel = b1.subDivisionLevel ∧ a.active = b1.active
    ∧ a.hasChildren = b1.hasChildren ∧ a.color = b1.color ∧ a.fluid = b1.fluid
    ∧ a.noise = b1.noise
    ∧ a.frontOccludedCalculated = b1.frontOccludedCalculated
    ∧ a.backOccludedCalculated = b1.backOccludedCalculated
    ∧ a.topOccludedCalculated = b1.topOccludedCalculated
    ∧ a.bottomOccludedCalculated = b1.bottomOccludedCalculated
    ∧ a.leftOccludedCalculated = b1.leftOccludedCalculated
    ∧ a.rightOccludedCalculated = b1.rightOccludedCalculated := by
  rw [attr, attr, AttrRecord.mk.injEq] at h
  exact h

theorem recalcNodeFlags_flags_of_active {root n : Ocnode} (ha : n.active = true) :
    (recalcNodeFlags root n).frontOccludedCalculated = frontOccluded n root
    ∧ (recalcNodeFlags root n).backOccludedCalculated = backOccluded n root
    ∧ (recalcNodeFlags root n).topOccludedCalculated = topOccluded n root
    ∧ (recalcNodeFlags root n).bottomOccludedCalculated = bottomOccluded n root
    ∧ (recalcNodeFlags root n).leftOccludedCalculated = leftOccluded n root
    ∧ (recalcNodeFlags root n).rightOccludedCalculated = rightOccluded n root := by
  rw [recalcNodeFlags, if_pos ha]
  have hf := setOcclusionFlags_fields n (frontOccluded n root) (backOccluded n root)
    (topOccluded n root) (bottomOccluded n root) (leftOccluded n root)
    (rightOccluded n root)
  exact ⟨hf.2.2.2.2.2.2.2.2.2.1, hf.2.2.2.2.2.2.2.2.2.2.1, hf.2.2.2.2.2.2.2.2.2.2.2.1,
    hf.2.2.2.2.2.2.2.2.2.2.2.2.1, hf.2.2.2.2.2.2.2.2.2.2.2.2.2.1,
    hf.2.2.2.2.2.2.2.2.2.2.2.2.2.2⟩

/-- The active-uniform-neighbour witnesses are the same before and after the
recomputation pass, because the pass only rewrites cached flags. -/
theorem exists_recalc_iff {t n2 : Ocnode} (hwf : wfB t = true)
    (qx qy qz : Int) (ql : Nat) :
    (∃ m ∈ nodes t, m.xIndex = qx ∧ m.yIndex = qy ∧ m.zIndex = qz
        ∧ m.subDivisionLevel = ql ∧ m.active = true ∧ uniform n2 m = true)
    ↔ ∃ m ∈ nodes (Octree.recalculateOcclusion t), m.xIndex = qx ∧ m.yIndex = qy
        ∧ m.zIndex = qz ∧ m.subDivisionLevel = ql ∧ m.active = true
        ∧ uniform n2 m = true := by
  have hmap := @nodes_attr_recalc t t hwf
  constructor
  · rintro ⟨m, hm, hx, hy, hz, hl, ha, hu⟩
    have hmem : attr (recalcNodeFlags t m)
        ∈ (nodes (Octree.recalculateOcclusion t)).map attr := by
      rw [Octree.recalculateOcclusion, hmap]
      exact List.mem_map.mpr ⟨m, hm, rfl⟩
    obtain ⟨m2, hm2, heq⟩ := List.mem_map.mp hmem
    have hfields := attr_eq_fields heq
    have hpres := recalcNodeFlags_preserves t m
    refine ⟨m2, hm2, ?_, ?_, ?_, ?_, ?_, ?_⟩
    · rw [hfields.1, hpres.1]; exact hx
    · rw [hfields.2.1, hpres.2.1]; exact hy
    · rw [hfields.2.2.1, hpres.2.2.1]; exact hz
    · rw [hfields.2.2.2.1, hpres.2.2.2.1]; exact hl
    · rw [hfields.2.2.2.2.1, hpres.2.2.2.2.1]; exact ha
    · rw [← hu]
      refine uniform_congr rfl rfl rfl ?_ ?_ ?_
      · rw [hfields.2.2.2.2.2.2.1, hpres.2.2.2.2.2.1]
      · rw [hfields.2.2.2.2.2.2.2.1, hpres.2.2.2.2.2.2.1]
      · rw [hfields.2.2.2.2.2.2.2.2.1, hpres.2.2.2.2.2.2.2]
  · rintro ⟨m2, hm2, hx, hy, hz, hl, ha, hu⟩
    have hmem : attr m2 ∈ (nodes t).map (fun n => attr (recalcNodeFlags t n)) := by
      rw [← hmap]
      exact List.mem_map_of_mem attr (by rw [Octree.recalculateOcclusion] at hm2; exact hm2)
    obtain ⟨m, hm, heq⟩ := List.mem_map.mp hmem
    have hfields := attr_eq_fields heq.symm
    have hpres := recalcNodeFlags_preserves t m
    refine ⟨m, hm, ?_, ?_, ?_, ?_, ?_, ?_⟩
    · rw [← hpres.1, ← hfields.1]; exact hx
    · rw [← hpres.2.1, ← hfields.2.1]; exact hy
    · rw [← hpres.2.2.1, ← hfields.2.2.1]; exact hz
    · rw [← hpres.2.2.2.1, ← hfields.2.2.2.1]; exact hl
    · rw [← hpres.2.2.2.2.1, ← hfields.2.2.2.2.1]; exact ha
    · rw [← hu]
      refine uniform_congr rfl rfl rfl ?_ ?_ ?_
      · rw [← hpres.2.2.2.2.2.1, ← hfields.2.2.2.2.2.2.1]
      · rw [← hpres.2.2.2.2.2.2.1, ← hfields.2.2.2.2.2.2.2.1]
      · rw [← hpres.2.2.2.2.2.2.2, ← hfields.2.2.2.2.2.2.2.2.1]

/-- One direction of the occlusion characterisation, shared by all six
faces. -/
theorem C1_one_direction {t n n2 : Ocnode} (hwf : wfB t = true)
    (hcol : n2.color = n.color) (hfl : n2.fluid = n.fluid) (hno : n2.noise = n.noise)
    (qx qy qz : Int) (ql : Nat) :
    ((match findByIndex t qx qy qz ql with
        | some nb => if nb.active = true then uniform n nb else false
        | none => false) = true)
    ↔ ∃ m ∈ nodes (Octree.recalculateOcclusion t), m.xIndex = qx ∧ m.yIndex = qy
        ∧ m.zIndex = qz ∧ m.subDivisionLevel = ql ∧ m.active = true
        ∧ uniform n2 m = true := by
  refine (occCheck_iff hwf qx qy qz ql).trans ?_
  refine Iff.trans ?_ (exists_recalc_iff hwf qx qy qz ql)
  apply exists_congr
  intro m
  apply and_congr_right
  intro _
  refine and_congr_right fun _ => and_congr_right fun _ => and_congr_right fun _ =>
    and_congr_right fun _ => ?_
  rw [uniform_congr hcol.symm hfl.symm hno.symm rfl rfl rfl]

end Ocnode

end Crafter

namespace Crafter

namespace Ocnode

/-- The concrete active leaf used to witness the occlusion-flag
characterisation: the left leaf of `twoLeafParent` after the full
recomputation pass (only its right face is occluded). -/
def c1Leaf : Ocnode :=
  .mk 0 0 0 8 true [] false ⟨1, 0, 0, 1⟩ 0 0 false false false false false true

end Ocnode

open Ocnode

/-- C1: after a full `recalculate_occlusion`, an active leaf's cached flag
for each of the six face directions is true if and only if the tree holds,
one resolution step away in that direction at the same subdivision level, a
node that is active and uniform with the leaf — identical colour (all four
components), fluid and noise, the neighbour's occlusion flags playing no
part. -/
theorem C1_occlusion_flags (t n2 : Ocnode) (hwf : wfB t = true)
    (hn2 : n2 ∈ nodes (Octree.recalculateOcclusion t))
    (hleaf : n2.hasChildren = false) (hact : n2.active = true) :
    (n2.frontOccludedCalculated = true
      ↔ ∃ m ∈ nodes (Octree.recalculateOcclusion t), m.xIndex = n2.xIndex
          ∧ m.yIndex = n2.yIndex
          ∧ m.zIndex = n2.zIndex - (resolution n2.subDivisionLevel : Int)
          ∧ m.subDivisionLevel = n2.subDivisionLevel ∧ m.active = true
          ∧ uniform n2 m = true)
    ∧ (n2.backOccludedCalculated = true
      ↔ ∃ m ∈ nodes (Octree.recalculateOcclusion t), m.xIndex = n2.xIndex
          ∧ m.yIndex = n2.yIndex
          ∧ m.zIndex = n2.zIndex + (resolution n2.subDivisionLevel : Int)
          ∧ m.subDivisionLevel = n2.subDivisionLevel ∧ m.active = true
          ∧ uniform n2 m = true)
    ∧ (n2.topOccludedCalculated = true
      ↔ ∃ m ∈ nodes (Octree.recalculateOcclusion t), m.xIndex = n2.xIndex
          ∧ m.yIndex = n2.yIndex + (resolution n2.subDivisionLevel : Int)
          ∧ m.zIndex = n2.zIndex
          ∧ m.subDivisionLevel = n2.subDivisionLevel ∧ m.active = true
          ∧ uniform n2 m = true)
    ∧ (n2.bottomOccludedCalculated = true
      ↔ ∃ m ∈ nodes (Octree.recalculateOcclusion t), m.xIndex = n2.xIndex
          ∧ m.yIndex = n2.yIndex - (resolution n2.subDivisionLevel : Int)
          ∧ m.zIndex = n2.zIndex
          ∧ m.subDivisionLevel = n2.subDivisionLevel ∧ m.active = true
          ∧ uniform n2 m = true)
    ∧ (n2.leftOccludedCalculated = true
      ↔ ∃ m ∈ nodes (Octree.recalculateOcclusion t),
          m.xIndex = n2.xIndex - (resolution n2.subDivisionLevel : Int)
          ∧ m.yIndex = n2.yIndex ∧ m.zIndex = n2.zIndex
          ∧ m.subDivisionLevel = n2.subDivisionLevel ∧ m.active = true
          ∧ uniform n2 m = true)
    ∧ (n2.rightOccludedCalculated = true
      ↔ ∃ m ∈ nodes (Octree.recalculateOcclusion t),
          m.xIndex = n2.xIndex + (resolution n2.subDivisionLevel : Int)
          ∧ m.yIndex = n2.yIndex ∧ m.zIndex = n2.zIndex
          ∧ m.subDivisionLevel = n2.subDivisionLevel ∧ m.active = true
          ∧ uniform n2 m = true) := by
  have hn2' : n2 ∈ nodes (recalculateOcclusion t t) := by
    rw [Octree.recalculateOcclusion] at hn2; exact hn2
  have hmem : attr n2 ∈ (nodes t).map (fun n => attr (recalcNodeFlags t n)) := by
    rw [← @nodes_attr_recalc t t hwf]
    exact List.mem_map_of_mem attr hn2'
  obtain ⟨n, hn, heq⟩ := List.mem_map.mp hmem
  have hfe := attr_eq_fields heq.symm
  have hpres := recalcNodeFlags_preserves t n
  have hactn : n.active = true := by
    rw [← hpres.2.2.2.2.1, ← hfe.2.2.2.2.1]; exact hact
  have hflags := @recalcNodeFlags_flags_of_active t n hactn
  have hx : n2.xIndex = n.xIndex := by rw [hfe.1, hpres.1]
  have hy : n2.yIndex = n.yIndex := by rw [hfe.2.1, hpres.2.1]
  have hz : n2.zIndex = n.zIndex := by rw [hfe.2.2.1, hpres.2.2.1]
  have hl : n2.subDivisionLevel = n.subDivisionLevel := by
    rw [hfe.2.2.2.1, hpres.2.2.2.1]
  have hcol : n2.color = n.color := by rw [hfe.2.2.2.2.2.2.1, hpres.2.2.2.2.2.1]
  have hfl : n2.fluid = n.fluid := by rw [hfe.2.2.2.2.2.2.2.1, hpres.2.2.2.2.2.2.1]
  have hno : n2.noise = n.noise := by rw [hfe.2.2.2.2.2.2.2.2.1, hpres.2.2.2.2.2.2.2]
  refine ⟨?_, ?_, ?_, ?_, ?_, ?_⟩
  · have hflag : n2.frontOccludedCalculated = frontOccluded n t := by
      rw [hfe.2.2.2.2.2.2.2.2.2.1, hflags.1]
    rw [hflag, hx, hy, hz, hl, frontOccluded]
    exact C1_one_direction hwf hcol hfl hno _ _ _ _
  · have hflag : n2.backOccludedCalculated = backOccluded n t := by
      rw [hfe.2.2.2.2.2.2.2.2.2.2.1, hflags.2.1]
    rw [hflag, hx, hy, hz, hl, backOccluded]
    exact C1_one_direction hwf hcol hfl hno _ _ _ _
  · have hflag : n2.topOccludedCalculated = topOccluded n t := by
      rw [hfe.2.2.2.2.2.2.2.2.2.2.2.1, hflags.2.2.1]
    rw [hflag, hx, hy, hz, hl, topOccluded]
    exact C1_one_direction hwf hcol hfl hno _ _ _ _
  · have hflag : n2.bottomOccludedCalculated = bottomOccluded n t := by
      rw [hfe.2.2.2.2.2.2.2.2.2.2.2.2.1, hflags.2.2.2.1]
    rw [hflag, hx, hy, hz, hl, bottomOccluded]
    exact C1_one_direction hwf hcol hfl hno _ _ _ _
  · have hflag : n2.leftOccludedCalculated = leftOccluded n t := by
      rw [hfe.2.2.2.2.2.2.2.2.2.2.2.2.2.1, hflags.2.2.2.2.1]
    rw [hflag, hx, hy, hz, hl, leftOccluded]
    exact C1_one_direction hwf hcol hfl hno _ _ _ _
  · have hflag : n2.rightOccludedCalculated = rightOccluded n t := by
      rw [hfe.2.2.2.2.2.2.2.2.2.2.2.2.2.2, hflags.2.2.2.2.2]
    rw [hflag, hx, hy, hz, hl, rightOccluded]
    exact C1_one_direction hwf hcol hfl hno _ _ _ _

end Crafter

namespace Crafter

open Ocnode

set_option maxRecDepth 10000 in
unseal Ocnode.findByIndex Ocnode.findList Ocnode.recalculateOcclusion
  Ocnode.recalculateOcclusionList Ocnode.wfB Ocnode.wfListB Ocnode.nodes
  Ocnode.nodesList in
/-- Witness for C1: on the two-leaf tree, the recomputed left leaf sits in
the recomputed tree, is an active leaf, and its right-face flag (the only
true one) matches the existence of its active uniform right neighbour. -/
theorem C1_witness :
    wfB twoLeafParent = true
    ∧ c1Leaf ∈ nodes (Octree.recalculateOcclusion twoLeafParent)
    ∧ c1Leaf.hasChildren = false
    ∧ c1Leaf.active = true
    ∧ (c1Leaf.rightOccludedCalculated = true
      ↔ ∃ m ∈ nodes (Octree.recalculateOcclusion twoLeafParent),
          m.xIndex = c1Leaf.xIndex + (resolution c1Leaf.subDivisionLevel : Int)
          ∧ m.yIndex = c1Leaf.yIndex ∧ m.zIndex = c1Leaf.zIndex
          ∧ m.subDivisionLevel = c1Leaf.subDivisionLevel ∧ m.active = true
          ∧ uniform c1Leaf m = true) :=
  ⟨by decide, by decide, rfl, rfl,
   (C1_occlusion_flags twoLeafParent c1Leaf (by decide) (by decide) rfl rfl).2.2.2.2.2⟩

end Crafter

namespace Crafter

/-- `Cube::vertices` keeps exactly the face blocks whose occlusion flag is
unset, in the source's emission order bottom, left, right, front, back,
top. -/
theorem vertices_filter (c : Cube) :
    Cube.vertices c
      = List.join ((allFaces.filter (fun f2 => !faceOccluded c f2)).map
          (faceVertexList c)) := by
  cases hb : c.bottomOccluded <;> cases hl : c.leftOccluded
    <;> cases hr : c.rightOccluded <;> cases hf : c.frontOccluded
    <;> cases hk : c.backOccluded <;> cases ht : c.topOccluded
    <;> simp [Cube.vertices, allFaces, faceOccluded, faceVertexList, hb, hl, hr, hf,
      hk, ht]

open Ocnode

/-- C6: for every cube emitted by `drawables` and every face whose occlusion
flag is set, the cube's vertex list is exactly the concatenation of the
non-occluded faces' triangle blocks, and the occluded face is not among
them — it contributes no geometry at all. -/
theorem C6_occluded_face_no_geometry (t : Ocnode) (c : Cube) (face : Face)
    (hc : c ∈ Octree.drawables t) (hocc : faceOccluded c face = true) :
    Cube.vertices c
      = List.join ((allFaces.filter (fun f2 => !faceOccluded c f2)).map
          (faceVertexList c))
    ∧ face ∉ allFaces.filter (fun f2 => !faceOccluded c f2) := by
  refine ⟨vertices_filter c, ?_⟩
  intro hmem
  have h1 := (List.mem_filter.mp hmem).2
  rw [hocc] at h1
  cases h1

namespace Ocnode

/-- An active finest-level leaf whose top face is marked occluded. -/
def c6Leaf : Ocnode :=
  .mk 0 0 0 LEVELS true [] false ⟨1, 0, 0, 1⟩ 0 0 false false true false false false

end Ocnode

unseal Ocnode.drawables Ocnode.drawablesList in
/-- Witness for C6: the single cube emitted for `c6Leaf` has its top flag
set, and the theorem applies to it at the top face. -/
theorem C6_witness :
    ∃ c ∈ Octree.drawables c6Leaf, faceOccluded c Face.top = true
      ∧ (Cube.vertices c
          = List.join ((allFaces.filter (fun f2 => !faceOccluded c f2)).map
              (faceVertexList c))
        ∧ Face.top ∉ allFaces.filter (fun f2 => !faceOccluded c f2)) := by
  have hne : Octree.drawables c6Leaf ≠ [] :=
    List.ne_nil_of_length_pos (by decide)
  have htop : faceOccluded ((Octree.drawables c6Leaf).head hne) Face.top = true := rfl
  exact ⟨_, List.head_mem hne, htop,
    C6_occluded_face_no_geometry c6Leaf _ Face.top (List.head_mem hne) htop⟩

end Crafter

namespace Crafter

namespace Ocnode

/-- The coordinate key of a node: index triple and subdivision level. -/
def coordsOf (n : Ocnode) : Int × Int × Int × Nat :=
  (n.xIndex, n.yIndex, n.zIndex, n.subDivisionLevel)

/-- What a lookup reveals of an active node: colour, fluid, noise and the
six occlusion flags; `none` for an inactive node. -/
def activeRecord (n : Ocnode) :
    Option (Color4 × Int × Int × Bool × Bool × Bool × Bool × Bool × Bool) :=
  if n.active = true then
    some (n.color, n.fluid, n.noise, n.frontOccludedCalculated,
      n.backOccludedCalculated, n.topOccludedCalculated,
      n.bottomOccludedCalculated, n.leftOccludedCalculated,
      n.rightOccludedCalculated)
  else none

/-- `activeRecord` through the attribute projection. -/
def arOfAttr (rr : AttrRecord) :
    Option (Color4 × Int × Int × Bool × Bool × Bool × Bool × Bool × Bool) :=
  if rr.aactive = true then
    some (rr.acolor, rr.afluid, rr.anoise, rr.afront, rr.aback, rr.atop,
      rr.abottom, rr.aleft, rr.aright)
  else none

theorem activeRecord_eq (n : Ocnode) : activeRecord n = arOfAttr (attr n) := rfl

/-- The active-node observation of a coordinate: look the node up and read
its active record. -/
def lookupActive (t : Ocnode) (x y z : Int) (l : Nat) :
    Option (Color4 × Int × Int × Bool × Bool × Bool × Bool × Bool × Bool) :=
  (findByIndex t x y z l).bind activeRecord

theorem bind_activeRecord_congr {o1 o2 : Option Ocnode}
    (h : Option.map attr o1 = Option.map attr o2) :
    o1.bind activeRecord = o2.bind activeRecord := by
  cases o1 with
  | none =>
    cases o2 with
    | none => rfl
    | some b => simp at h
  | some a =>
    cases o2 with
    | none => simp at h
    | some b =>
      have hab : attr a = attr b := by simpa using h
      show activeRecord a = activeRecord b
      rw [activeRecord_eq a, activeRecord_eq b, hab]

/-- The field copy of `Ocnode::apply` installs exactly the stored record's
active observation. -/
theorem activeRecord_copy (src tgt : Ocnode) :
    activeRecord (copyNodeAttributes src tgt) = activeRecord src := by
  obtain ⟨x, y, z, l, a, ch, hc, c, f, n, fo, bo, tp, bt, lo, ro⟩ := tgt
  simp [copyNodeAttributes, activeRecord]

theorem clear_fields (t : Ocnode) :
    (clear t).xIndex = t.xIndex ∧ (clear t).yIndex = t.yIndex
    ∧ (clear t).zIndex = t.zIndex ∧ (clear t).subDivisionLevel = t.subDivisionLevel
    ∧ (clear t).active = false ∧ (clear t).hasChildren = t.hasChildren
    ∧ (clear t).children = clearList t.children := by
  obtain ⟨x, y, z, l, a, ch, hc, c, f, n, fo, bo, tp, bt, lo, ro⟩ := t
  rw [clear]
  simp

theorem clearList_eq_map (cs : List Ocnode) : clearList cs = cs.map clear := by
  match cs with
  | [] => rw [clearList]; rfl
  | c :: rest => rw [clearList, List.map_cons, clearList_eq_map rest]
termination_by sizeOf cs
decreasing_by all_goals (simp <;> omega)

mutual

/-- Every node of a cleared tree is inactive. -/
theorem clear_active {t : Ocnode} : ∀ m ∈ nodes (clear t), m.active = false := by
  match t with
  | .mk x y z l a ch hc c f n fo bo tp bt lo ro =>
    rw [clear]
    intro m hm
    rw [nodes_def] at hm
    simp only [children_mk] at hm
    rcases List.mem_cons.mp hm with rfl | hm2
    · simp
    · exact clearList_active m hm2
termination_by sizeOf t
decreasing_by
  simp; omega

theorem clearList_active {cs : List Ocnode} :
    ∀ m ∈ nodesList (clearList cs), m.active = false := by
  match cs with
  | [] =>
    rw [clearList]
    intro m hm
    rw [nodesList_nil] at hm
    cases hm
  | c :: rest =>
    rw [clearList]
    intro m hm
    rw [nodesList_cons] at hm
    rcases List.mem_append.mp hm with h | h
    · exact clear_active m h
    · exact clearList_active m h
termination_by sizeOf cs
decreasing_by all_goals (simp <;> omega)

end

/-- `Ocnode::clear` preserves the shape invariant. -/
theorem wfB_clear {t : Ocnode} (hwf : wfB t = true) : wfB (clear t) = true := by
  have hparts := wfB_parts hwf
  have hf := clear_fields t
  refine wfB_intro ?_ ?_ ?_ ?_ ?_
  · rw [hf.2.2.2.1]; exact hparts.1
  · rw [hf.2.2.2.2.2.1, hf.2.2.2.2.2.2, clearList_eq_map, hparts.2.1]
    simp
  · intro c2 hc2
    rw [hf.2.2.2.2.2.2, clearList_eq_map] at hc2
    obtain ⟨c, hc, rfl⟩ := List.mem_map.mp hc2
    have hcf := clear_fields c
    rw [hf.1, hf.2.1, hf.2.2.1, hf.2.2.2.1,
      childOkB_of_attrs_eq hcf.1 hcf.2.1 hcf.2.2.1 hcf.2.2.2.1]
    exact hparts.2.2.1 c hc
  · rw [hf.2.2.2.2.2.2, clearList_eq_map]
    refine pairwise_sepB_transfer ?_ hparts.2.2.2.1
    refine List.forall₂_map_right_iff.mpr (List.forall₂_same.mpr ?_)
    intro c hc
    have hcf := clear_fields c
    exact ⟨hcf.1, hcf.2.1, hcf.2.2.1, hcf.2.2.2.1⟩
  · intro c2 hc2
    rw [hf.2.2.2.2.2.2, clearList_eq_map] at hc2
    obtain ⟨c, hc, rfl⟩ := List.mem_map.mp hc2
    exact wfB_clear (hparts.2.2.2.2 c hc)
termination_by sizeOf t
decreasing_by
  exact sizeOf_lt_of_mem_children hc

mutual

/-- Clearing changes no coordinate. -/
theorem nodesCoords_clear (t : Ocnode) :
    (nodes (clear t)).map coordsOf = (nodes t).map coordsOf := by
  match t with
  | .mk x y z l a ch hc c f n fo bo tp bt lo ro =>
    rw [clear, nodes_def, nodes_def]
    simp only [children_mk, List.map_cons]
    congr 1
    exact nodesCoordsList_clear ch
termination_by sizeOf t
decreasing_by
  simp; omega

theorem nodesCoordsList_clear (cs : List Ocnode) :
    (nodesList (clearList cs)).map coordsOf = (nodesList cs).map coordsOf := by
  match cs with
  | [] => rw [clearList]
  | c :: rest =>
    rw [clearList, nodesList_cons, nodesList_cons, List.map_append, List.map_append]
    congr 1
    · exact nodesCoords_clear c
    · exact nodesCoordsList_clear rest
termination_by sizeOf cs
decreasing_by all_goals (simp <;> omega)

end

mutual

/-- Trees of the same shape list the same coordinates in the same order. -/
theorem nodesCoords_sameShape {a b : Ocnode} (h : sameShapeB a b = true) :
    (nodes a).map coordsOf = (nodes b).map coordsOf := by
  obtain ⟨h1, h2, h3, h4, h5, h6⟩ := sameShapeB_parts h
  rw [nodes_def, nodes_def]
  simp only [List.map_cons]
  congr 1
  · simp [coordsOf, h1, h2, h3, h4]
  · exact nodesCoordsList_sameShape h6
termination_by sizeOf a
decreasing_by
  exact sizeOf_children_lt a

theorem nodesCoordsList_sameShape {as bs : List Ocnode}
    (h : sameShapeListB as bs = true) :
    (nodesList as).map coordsOf = (nodesList bs).map coordsOf := by
  match as, bs with
  | [], [] => rfl
  | a :: as2, [] => rw [sameShapeListB] at h; cases h
  | [], b :: bs2 => rw [sameShapeListB] at h; cases h
  | a :: as2, b :: bs2 =>
    rw [sameShapeListB, Bool.and_eq_true] at h
    rw [nodesList_cons, nodesList_cons, List.map_append, List.map_append]
    congr 1
    · exact nodesCoords_sameShape h.1
    · exact nodesCoordsList_sameShape h.2
termination_by sizeOf as
decreasing_by all_goals (simp <;> omega)

end

/-- Assignments through `find_mut_by_index` change no coordinate. -/
theorem nodesCoords_updateByIndex {t m : Ocnode} {g : Ocnode → Ocnode}
    (hwf : wfB t = true) (hg : attrOnly g) (hm : m ∈ nodes t) :
    (nodes (updateByIndex t m.xIndex m.yIndex m.zIndex m.subDivisionLevel g)).map
        coordsOf
      = (nodes t).map coordsOf := by
  have hmap := nodes_attr_updateByIndex hwf hg hm
  have hfac : ∀ ns : List Ocnode, ns.map coordsOf
      = (ns.map attr).map (fun rr => (rr.ax, rr.ay, rr.az, rr.alevel)) := by
    intro ns
    rw [List.map_map]
    rfl
  rw [hfac, hfac, hmap, List.map_map, List.map_map]
  refine List.map_congr_left ?_
  intro n hn
  have hco := ite_attr_coords (m := m) (n := n) hg
  simp only [Function.comp]
  rw [hco.1, hco.2.1, hco.2.2.1, hco.2.2.2]
  rfl

mutual

/-- On well-formed trees, `active_nodes` is exactly the preorder node list
filtered by activity. -/
theorem activeNodes_filter {t : Ocnode} (hwf : wfB t = true) :
    activeNodes t = (nodes t).filter (fun n => n.active) := by
  have hparts := wfB_parts hwf
  rw [activeNodes, nodes_def, List.filter_cons]
  by_cases hhc : t.hasChildren = true
  · rw [activeNodesList_filter (fun c hc => hparts.2.2.2.2 c hc)]
    by_cases hact : t.active = true <;> simp [hact, hhc]
  · have hnil : t.children = [] := by
      by_contra hne
      have h1 := hparts.2.1.mpr hne
      exact hhc h1
    rw [hnil]
    by_cases hact : t.active = true <;> simp [hact, hhc, nodesList_nil]
termination_by sizeOf t
decreasing_by
  exact sizeOf_children_lt t

theorem activeNodesList_filter {cs : List Ocnode} (hwf : ∀ c ∈ cs, wfB c = true) :
    activeNodesList cs = (nodesList cs).filter (fun n => n.active) := by
  match cs with
  | [] => rw [activeNodesList, nodesList_nil]; rfl
  | c :: rest =>
    rw [activeNodesList, nodesList_cons, List.filter_append]
    congr 1
    · exact activeNodes_filter (hwf c (List.mem_cons_self c rest))
    · exact activeNodesList_filter (fun d hd => hwf d (List.mem_cons_of_mem c hd))
termination_by sizeOf cs
decreasing_by all_goals (simp <;> omega)

end

/-- A cleared tree reports no active node anywhere. -/
theorem lookupActive_clear (f : Ocnode) (x y z : Int) (l : Nat) :
    lookupActive (clear f) x y z l = none := by
  rw [lookupActive]
  rcases hf : findByIndex (clear f) x y z l with _ | m
  · rfl
  · have hm := (findByIndex_sound hf).1
    have hia := clear_active m hm
    show activeRecord m = none
    rw [activeRecord, if_neg (by simp [hia])]

/-- The replay loop of `load_from_serial`: applying a list of active stored
records onto a tree that carries the original's coordinates and already
agrees with the original everywhere off the remaining records makes every
lookup agree with the original. -/
theorem foldl_apply_lookup {t : Ocnode} (hwt : wfB t = true) :
    ∀ (todo : List Ocnode) (acc : Ocnode), wfB acc = true
    → (nodes acc).map coordsOf = (nodes t).map coordsOf
    → (∀ r ∈ todo, r ∈ nodes t ∧ r.active = true)
    → (∀ x y z : Int, ∀ l : Nat,
        (∀ s ∈ todo, ¬(x = s.xIndex ∧ y = s.yIndex ∧ z = s.zIndex
          ∧ l = s.subDivisionLevel))
        → lookupActive acc x y z l = lookupActive t x y z l)
    → ∀ x y z : Int, ∀ l : Nat,
        lookupActive (todo.foldl (fun a node => apply a node) acc) x y z l
          = lookupActive t x y z l := by
  intro todo
  induction todo with
  | nil =>
    intro acc _ _ _ hagree x y z l
    rw [List.foldl_nil]
    exact hagree x y z l (fun s hs => absurd hs (List.not_mem_nil s))
  | cons r rest ih =>
    intro acc hwacc hco hmem hagree x y z l
    rw [List.foldl_cons]
    obtain ⟨hrt, hract⟩ := hmem r (List.mem_cons_self r rest)
    have hin : coordsOf r ∈ (nodes acc).map coordsOf := by
      rw [hco]
      exact List.mem_map_of_mem coordsOf hrt
    obtain ⟨m, hmacc, hmeq⟩ := List.mem_map.mp hin
    have hmx : m.xIndex = r.xIndex := by
      have h1 := congrArg (fun p : Int × Int × Int × Nat => p.1) hmeq
      simpa [coordsOf] using h1
    have hmy : m.yIndex = r.yIndex := by
      have h1 := congrArg (fun p : Int × Int × Int × Nat => p.2.1) hmeq
      simpa [coordsOf] using h1
    have hmz : m.zIndex = r.zIndex := by
      have h1 := congrArg (fun p : Int × Int × Int × Nat => p.2.2.1) hmeq
      simpa [coordsOf] using h1
    have hml : m.subDivisionLevel = r.subDivisionLevel := by
      have h1 := congrArg (fun p : Int × Int × Int × Nat => p.2.2.2) hmeq
      simpa [coordsOf] using h1
    have hg : attrOnly (copyNodeAttributes r) := attrOnly_copyNodeAttributes r
    have happ : apply acc r
        = updateByIndex acc m.xIndex m.yIndex m.zIndex m.subDivisionLevel
            (copyNodeAttributes r) := by
      rw [apply, hmx, hmy, hmz, hml]
    have hwacc2 : wfB (apply acc r) = true := by
      rw [happ]
      exact wfB_updateByIndex hg hwacc
    have hco2 : (nodes (apply acc r)).map coordsOf = (nodes t).map coordsOf := by
      rw [happ, nodesCoords_updateByIndex hwacc hg hmacc, hco]
    have hmem2 : ∀ s ∈ rest, s ∈ nodes t ∧ s.active = true :=
      fun s hs => hmem s (List.mem_cons_of_mem r hs)
    have hagree2 : ∀ x2 y2 z2 : Int, ∀ l2 : Nat,
        (∀ s ∈ rest, ¬(x2 = s.xIndex ∧ y2 = s.yIndex ∧ z2 = s.zIndex
          ∧ l2 = s.subDivisionLevel))
        → lookupActive (apply acc r) x2 y2 z2 l2 = lookupActive t x2 y2 z2 l2 := by
      intro x2 y2 z2 l2 hnot
      by_cases hq : x2 = r.xIndex ∧ y2 = r.yIndex ∧ z2 = r.zIndex
          ∧ l2 = r.subDivisionLevel
      · obtain ⟨rfl, rfl, rfl, rfl⟩ := hq
        have htar := findByIndex_update_target hwacc hg hmacc
        obtain ⟨n2, hn2, hattr⟩ := Option.map_eq_some'.mp htar
        have h1 : lookupActive (apply acc r) r.xIndex r.yIndex r.zIndex
            r.subDivisionLevel = activeRecord n2 := by
          rw [lookupActive, happ, ← hmx, ← hmy, ← hmz, ← hml, hn2]
          rfl
        have h2 : lookupActive t r.xIndex r.yIndex r.zIndex r.subDivisionLevel
            = activeRecord r := by
          rw [lookupActive, findByIndex_complete hwt hrt]
          rfl
        rw [h1, h2, activeRecord_eq n2, hattr, ← activeRecord_eq, activeRecord_copy]
      · have hne : ¬(x2 = m.xIndex ∧ y2 = m.yIndex ∧ z2 = m.zIndex
            ∧ l2 = m.subDivisionLevel) := by
          rw [hmx, hmy, hmz, hml]
          exact hq
        have hoth := findByIndex_update_other hwacc hg hmacc hne
        have hstep : lookupActive (apply acc r) x2 y2 z2 l2
            = lookupActive acc x2 y2 z2 l2 := by
          rw [lookupActive, lookupActive, happ]
          exact bind_activeRecord_congr hoth
        rw [hstep]
        refine hagree x2 y2 z2 l2 ?_
        intro s hs
        rcases List.mem_cons.mp hs with rfl | hs2
        · exact hq
        · exact hnot s hs2
    exact ih (apply acc r) hwacc2 hco2 hmem2 hagree2 x y z l

end Ocnode

open Ocnode

/-- C4: serialising a well-formed tree with `prepare` and replaying the
result with `load_from_serial` onto a freshly built well-formed tree of the
same shape reproduces the original's active-node set exactly: every lookup
reports the same activity, colour, fluid, noise and six occlusion flags as
in the original tree. -/
theorem C4_serialize_round_trip (t f : Ocnode) (cameraEye : ℚ × ℚ × ℚ)
    (x y z : Int) (l : Nat) (hwt : wfB t = true) (hwff : wfB f = true)
    (hshape : sameShapeB t f = true) :
    lookupActive (Octree.loadFromSerial f (Octree.prepare t) cameraEye) x y z l
      = lookupActive t x y z l := by
  rw [Octree.loadFromSerial, Octree.prepare, Octree.optimize, Ocnode.optimize]
  refine foldl_apply_lookup hwt (activeNodes t) (clear f) (wfB_clear hwff) ?_ ?_ ?_
    x y z l
  · rw [nodesCoords_clear f]
    exact (nodesCoords_sameShape hshape).symm
  · intro r hr
    rw [activeNodes_filter hwt] at hr
    have h1 := List.mem_filter.mp hr
    exact ⟨h1.1, by simpa using h1.2⟩
  · intro x2 y2 z2 l2 hno
    rw [lookupActive_clear, lookupActive]
    rcases hf2 : findByIndex t x2 y2 z2 l2 with _ | m
    · rfl
    · have hs := findByIndex_sound hf2
      by_cases hact : m.active = true
      · exfalso
        have hmem2 : m ∈ activeNodes t := by
          rw [activeNodes_filter hwt]
          exact List.mem_filter.mpr ⟨hs.1, by simpa using hact⟩
        exact hno m hmem2 ⟨hs.2.1.symm, hs.2.2.1.symm, hs.2.2.2.1.symm,
          hs.2.2.2.2.symm⟩
      · show none = activeRecord m
        rw [activeRecord, if_neg hact]

end Crafter

namespace Crafter

open Ocnode

set_option maxRecDepth 10000 in
unseal Ocnode.wfB Ocnode.wfListB Ocnode.sameShapeB Ocnode.sameShapeListB in
/-- Witness for C4: serialise a one-leaf tree with an active coloured root
and replay it onto a fresh inactive leaf of the same shape; the finest-level
lookup agrees with the original. -/
theorem C4_witness :
    wfB (mkLeaf 0 0 0 true ⟨1, 0, 0, 1⟩) = true
    ∧ wfB (mkLeaf 0 0 0 false ⟨0, 0, 0, 0⟩) = true
    ∧ sameShapeB (mkLeaf 0 0 0 true ⟨1, 0, 0, 1⟩) (mkLeaf 0 0 0 false ⟨0, 0, 0, 0⟩)
        = true
    ∧ lookupActive (Octree.loadFromSerial (mkLeaf 0 0 0 false ⟨0, 0, 0, 0⟩)
          (Octree.prepare (mkLeaf 0 0 0 true ⟨1, 0, 0, 1⟩)) (0, 0, 0)) 0 0 0 LEVELS
      = lookupActive (mkLeaf 0 0 0 true ⟨1, 0, 0, 1⟩) 0 0 0 LEVELS :=
  ⟨by decide, by decide, by decide,
   C4_serialize_round_trip (mkLeaf 0 0 0 true ⟨1, 0, 0, 1⟩)
     (mkLeaf 0 0 0 false ⟨0, 0, 0, 0⟩) (0, 0, 0) 0 0 0 LEVELS
     (by decide) (by decide) (by decide)⟩

end Crafter

namespace Crafter

open Ocnode

/-- The parameterised box-membership test shared by every plane probe of
`intersects_line`: the line point at parameter `t` lies (inclusively) inside
the node's bounding box `index × resolution .. (index + 1) × resolution`. -/
def hitB (self : Ocnode) (near far : P3) (t : ℚ) : Bool :=
  let res : ℚ := (Ocnode.resolution self.subDivisionLevel : ℚ)
  decide (near.x + t * (far.x - near.x) ≥ (self.xIndex : ℚ) * res)
    && decide (near.x + t * (far.x - near.x) ≤ ((self.xIndex : ℚ) + 1) * res)
    && decide (near.y + t * (far.y - near.y) ≥ (self.yIndex : ℚ) * res)
    && decide (near.y + t * (far.y - near.y) ≤ ((self.yIndex : ℚ) + 1) * res)
    && decide (near.z + t * (far.z - near.z) ≥ (self.zIndex : ℚ) * res)
    && decide (near.z + t * (far.z - near.z) ≤ ((self.zIndex : ℚ) + 1) * res)

/-- The specification's classification, written from the spec's words: some
one of the node's six axis-aligned bounding planes (`x`, `y`, `z` at the
box minimum and maximum) yields a line-intersection point lying inside the
node's bounding box. This is the comparison target for `intersects_line`,
which instead probes planes at the raw indices and never probes the `z`
maximum. -/
def specPlaneHit (self : Ocnode) (near far : P3) : Bool :=
  let res : ℚ := (Ocnode.resolution self.subDivisionLevel : ℚ)
  let minV : P3 :=
    ⟨(self.xIndex : ℚ) * res, (self.yIndex : ℚ) * res, (self.zIndex : ℚ) * res⟩
  let maxV : P3 :=
    ⟨((self.xIndex : ℚ) + 1) * res, ((self.yIndex : ℚ) + 1) * res,
      ((self.zIndex : ℚ) + 1) * res⟩
  let pointAt : ℚ → P3 := fun t =>
    ⟨near.x + t * (far.x - near.x), near.y + t * (far.y - near.y),
      near.z + t * (far.z - near.z)⟩
  let inBox : P3 → Bool := fun p =>
    decide (p.x ≥ minV.x) && decide (p.x ≤ maxV.x)
      && decide (p.y ≥ minV.y) && decide (p.y ≤ maxV.y)
      && decide (p.z ≥ minV.z) && decide (p.z ≤ maxV.z)
  if inBox (pointAt ((minV.x - near.x) / (far.x - near.x))) then true else
  if inBox (pointAt ((maxV.x - near.x) / (far.x - near.x))) then true else
  if inBox (pointAt ((minV.y - near.y) / (far.y - near.y))) then true else
  if inBox (pointAt ((maxV.y - near.y) / (far.y - near.y))) then true else
  if inBox (pointAt ((minV.z - near.z) / (far.z - near.z))) then true else
  if inBox (pointAt ((maxV.z - near.z) / (far.z - near.z))) then true else
  false

/-- The box-membership of a line point, as a proposition over the raw
endpoint data. -/
def segHit (nx dx ny dy nz dz x0 x1 y0 y1 z0 z1 t : ℚ) : Prop :=
  (x0 ≤ nx + t * dx ∧ nx + t * dx ≤ x1)
  ∧ (y0 ≤ ny + t * dy ∧ ny + t * dy ≤ y1)
  ∧ (z0 ≤ nz + t * dz ∧ nz + t * dz ≤ z1)

open Ocnode

theorem intersectsLine_eq_hitB (self : Ocnode) (near far : P3) :
    intersectsLine self near far
      = (hitB self near far (((self.zIndex : ℚ) - near.z) / (far.z - near.z))
        || (hitB self near far (((self.xIndex : ℚ) - near.x) / (far.x - near.x))
        || (hitB self near far ((((self.xIndex : ℚ) + 1) - near.x) / (far.x - near.x))
        || (hitB self near far (((self.yIndex : ℚ) - near.y) / (far.y - near.y))
        || (hitB self near far ((((self.yIndex : ℚ) + 1) - near.y) / (far.y - near.y))
        || hitB self near far (((self.yIndex : ℚ) - near.y) / (far.y - near.y))))))) := by
  show (if hitB self near far (((self.zIndex : ℚ) - near.z) / (far.z - near.z)) = true
      then true
    else if hitB self near far (((self.xIndex : ℚ) - near.x) / (far.x - near.x)) = true
      then true
    else if hitB self near far ((((self.xIndex : ℚ) + 1) - near.x) / (far.x - near.x))
        = true then true
    else if hitB self near far (((self.yIndex : ℚ) - near.y) / (far.y - near.y)) = true
      then true
    else if hitB self near far ((((self.yIndex : ℚ) + 1) - near.y) / (far.y - near.y))
        = true then true
    else if hitB self near far (((self.yIndex : ℚ) - near.y) / (far.y - near.y)) = true
      then true
    else false) = _
  split_ifs <;> simp_all

theorem specPlaneHit_eq_hitB (self : Ocnode) (near far : P3) :
    specPlaneHit self near far
      = (hitB self near far (((self.xIndex : ℚ) * (resolution self.subDivisionLevel : ℚ)
            - near.x) / (far.x - near.x))
        || (hitB self near far ((((self.xIndex : ℚ) + 1)
            * (resolution self.subDivisionLevel : ℚ) - near.x) / (far.x - near.x))
        || (hitB self near far (((self.yIndex : ℚ)
            * (resolution self.subDivisionLevel : ℚ) - near.y) / (far.y - near.y))
        || (hitB self near far ((((self.yIndex : ℚ) + 1)
            * (resolution self.subDivisionLevel : ℚ) - near.y) / (far.y - near.y))
        || (hitB self near far (((self.zIndex : ℚ)
            * (resolution self.subDivisionLevel : ℚ) - near.z) / (far.z - near.z))
        || hitB self near far ((((self.zIndex : ℚ) + 1)
            * (resolution self.subDivisionLevel : ℚ) - near.z) / (far.z - near.z))))))) := by
  show (if hitB self near far (((self.xIndex : ℚ)
        * (resolution self.subDivisionLevel : ℚ) - near.x) / (far.x - near.x)) = true
      then true
    else if hitB self near far ((((self.xIndex : ℚ) + 1)
        * (resolution self.subDivisionLevel : ℚ) - near.x) / (far.x - near.x)) = true
      then true
    else if hitB self near far (((self.yIndex : ℚ)
        * (resolution self.subDivisionLevel : ℚ) - near.y) / (far.y - near.y)) = true
      then true
    else if hitB self near far ((((self.yIndex : ℚ) + 1)
        * (resolution self.subDivisionLevel : ℚ) - near.y) / (far.y - near.y)) = true
      then true
    else if hitB self near far (((self.zIndex : ℚ)
        * (resolution self.subDivisionLevel : ℚ) - near.z) / (far.z - near.z)) = true
      then true
    else if hitB self near far ((((self.zIndex : ℚ) + 1)
        * (resolution self.subDivisionLevel : ℚ) - near.z) / (far.z - near.z)) = true
      then true
    else false) = _
  split_ifs <;> simp_all

theorem hitB_true_iff {self : Ocnode} {near far : P3} {t : ℚ} :
    hitB self near far t = true
      ↔ segHit near.x (far.x - near.x) near.y (far.y - near.y) near.z (far.z - near.z)
          ((self.xIndex : ℚ) * (resolution self.subDivisionLevel : ℚ))
          (((self.xIndex : ℚ) + 1) * (resolution self.subDivisionLevel : ℚ))
          ((self.yIndex : ℚ) * (resolution self.subDivisionLevel : ℚ))
          (((self.yIndex : ℚ) + 1) * (resolution self.subDivisionLevel : ℚ))
          ((self.zIndex : ℚ) * (resolution self.subDivisionLevel : ℚ))
          (((self.zIndex : ℚ) + 1) * (resolution self.subDivisionLevel : ℚ)) t := by
  rw [hitB, segHit]
  simp only [Bool.and_eq_true, decide_eq_true_eq, ge_iff_le]
  tauto

/-- Inverting an affine coordinate through a slab `[lo, hi]`: membership of
the line point is an interval condition on the parameter. -/
theorem slab_mem {n d lo hi t : ℚ} (hd : d ≠ 0) (hlh : lo ≤ hi) :
    (lo ≤ n + t * d ∧ n + t * d ≤ hi)
      ↔ min ((lo - n) / d) ((hi - n) / d) ≤ t
        ∧ t ≤ max ((lo - n) / d) ((hi - n) / d) := by
  rcases hd.lt_or_lt with hneg | hpos
  · have h21 : (hi - n) / d ≤ (lo - n) / d := by
      rw [div_le_iff_of_neg hneg, div_mul_cancel₀ _ (ne_of_lt hneg)]
      linarith
    rw [min_eq_right h21, max_eq_left h21, le_div_iff_of_neg hneg,
      div_le_iff_of_neg hneg]
    constructor <;> rintro ⟨h1, h2⟩ <;> constructor <;> nlinarith
  · have h12 : (lo - n) / d ≤ (hi - n) / d := by
      rw [div_le_div_right hpos]
      linarith
    rw [min_eq_left h12, max_eq_right h12, div_le_iff hpos, le_div_iff hpos]
    constructor <;> rintro ⟨h1, h2⟩ <;> constructor <;> nlinarith

theorem segHit_slab {nx dx ny dy nz dz x0 x1 y0 y1 z0 z1 t : ℚ}
    (hdx : dx ≠ 0) (hdy : dy ≠ 0) (hdz : dz ≠ 0)
    (hx01 : x0 ≤ x1) (hy01 : y0 ≤ y1) (hz01 : z0 ≤ z1) :
    segHit nx dx ny dy nz dz x0 x1 y0 y1 z0 z1 t
      ↔ (min ((x0 - nx) / dx) ((x1 - nx) / dx) ≤ t
          ∧ t ≤ max ((x0 - nx) / dx) ((x1 - nx) / dx))
        ∧ (min ((y0 - ny) / dy) ((y1 - ny) / dy) ≤ t
          ∧ t ≤ max ((y0 - ny) / dy) ((y1 - ny) / dy))
        ∧ (min ((z0 - nz) / dz) ((z1 - nz) / dz) ≤ t
          ∧ t ≤ max ((z0 - nz) / dz) ((z1 - nz) / dz)) := by
  rw [segHit]
  exact and_congr (slab_mem hdx hx01) (and_congr (slab_mem hdy hy01) (slab_mem hdz hz01))

/-- The geometric core of the amended picking claim: a line (none of whose
direction components vanish) that meets the box on the untested `z`-maximum
plane also meets it on one of the five planes `intersects_line` does test. -/
theorem zmax_implies {nx dx ny dy nz dz x0 x1 y0 y1 z0 z1 : ℚ}
    (hdx : dx ≠ 0) (hdy : dy ≠ 0) (hdz : dz ≠ 0)
    (hx01 : x0 ≤ x1) (hy01 : y0 ≤ y1) (hz01 : z0 ≤ z1)
    (h : segHit nx dx ny dy nz dz x0 x1 y0 y1 z0 z1 ((z1 - nz) / dz)) :
    segHit nx dx ny dy nz dz x0 x1 y0 y1 z0 z1 ((z0 - nz) / dz)
    ∨ segHit nx dx ny dy nz dz x0 x1 y0 y1 z0 z1 ((x0 - nx) / dx)
    ∨ segHit nx dx ny dy nz dz x0 x1 y0 y1 z0 z1 ((x1 - nx) / dx)
    ∨ segHit nx dx ny dy nz dz x0 x1 y0 y1 z0 z1 ((y0 - ny) / dy)
    ∨ segHit nx dx ny dy nz dz x0 x1 y0 y1 z0 z1 ((y1 - ny) / dy) := by
  by_cases h0 : segHit nx dx ny dy nz dz x0 x1 y0 y1 z0 z1 ((z0 - nz) / dz)
  · exact Or.inl h0
  · rw [segHit_slab hdx hdy hdz hx01 hy01 hz01] at h h0
    set sx0 := (x0 - nx) / dx with hsx0
    set sx1 := (x1 - nx) / dx with hsx1
    set sy0 := (y0 - ny) / dy with hsy0
    set sy1 := (y1 - ny) / dy with hsy1
    set tzm := (z0 - nz) / dz with htzm
    set tzM := (z1 - nz) / dz with htzM
    obtain ⟨⟨hxa, hxb⟩, ⟨hya, hyb⟩, _, _⟩ := h
    have hbad : tzm < min sx0 sx1 ∨ max sx0 sx1 < tzm
        ∨ tzm < min sy0 sy1 ∨ max sy0 sy1 < tzm := by
      by_contra hc
      push_neg at hc
      exact h0 ⟨⟨hc.1, hc.2.1⟩, ⟨hc.2.2.1, hc.2.2.2⟩, min_le_left _ _, le_max_left _ _⟩
    have hlow : tzm < min sx0 sx1 ∨ tzm < min sy0 sy1
        → segHit nx dx ny dy nz dz x0 x1 y0 y1 z0 z1 sx0
          ∨ segHit nx dx ny dy nz dz x0 x1 y0 y1 z0 z1 sx1
          ∨ segHit nx dx ny dy nz dz x0 x1 y0 y1 z0 z1 sy0
          ∨ segHit nx dx ny dy nz dz x0 x1 y0 y1 z0 z1 sy1 := by
      intro hcase
      set s := max (min sx0 sx1) (min sy0 sy1) with hs
      have hsx : min sx0 sx1 ≤ s := le_max_left _ _
      have hsy : min sy0 sy1 ≤ s := le_max_right _ _
      have hsM : s ≤ tzM := max_le hxa hya
      have hstzm : tzm < s := by
        rcases hcase with hc | hc
        · exact lt_of_lt_of_le hc hsx
        · exact lt_of_lt_of_le hc hsy
      have hseg : segHit nx dx ny dy nz dz x0 x1 y0 y1 z0 z1 s := by
        rw [segHit_slab hdx hdy hdz hx01 hy01 hz01]
        exact ⟨⟨hsx, le_trans hsM hxb⟩, ⟨hsy, le_trans hsM hyb⟩,
          le_trans (min_le_left _ _) (le_of_lt hstzm),
          le_trans hsM (le_max_right _ _)⟩
      rcases max_cases (min sx0 sx1) (min sy0 sy1) with ⟨hseq, _⟩ | ⟨hseq, _⟩
      · rcases min_cases sx0 sx1 with ⟨hmeq, _⟩ | ⟨hmeq, _⟩
        · exact Or.inl ((hs.trans (hseq.trans hmeq)) ▸ hseg)
        · exact Or.inr (Or.inl ((hs.trans (hseq.trans hmeq)) ▸ hseg))
      · rcases min_cases sy0 sy1 with ⟨hmeq, _⟩ | ⟨hmeq, _⟩
        · exact Or.inr (Or.inr (Or.inl ((hs.trans (hseq.trans hmeq)) ▸ hseg)))
        · exact Or.inr (Or.inr (Or.inr ((hs.trans (hseq.trans hmeq)) ▸ hseg)))
    have hupp : max sx0 sx1 < tzm ∨ max sy0 sy1 < tzm
        → segHit nx dx ny dy nz dz x0 x1 y0 y1 z0 z1 sx0
          ∨ segHit nx dx ny dy nz dz x0 x1 y0 y1 z0 z1 sx1
          ∨ segHit nx dx ny dy nz dz x0 x1 y0 y1 z0 z1 sy0
          ∨ segHit nx dx ny dy nz dz x0 x1 y0 y1 z0 z1 sy1 := by
      intro hcase
      set s := min (max sx0 sx1) (max sy0 sy1) with hs
      have hsx : s ≤ max sx0 sx1 := min_le_left _ _
      have hsy : s ≤ max sy0 sy1 := min_le_right _ _
      have hsM : tzM ≤ s := le_min hxb hyb
      have hstzm : s < tzm := by
        rcases hcase with hc | hc
        · exact lt_of_le_of_lt hsx hc
        · exact lt_of_le_of_lt hsy hc
      have hseg : segHit nx dx ny dy nz dz x0 x1 y0 y1 z0 z1 s := by
        rw [segHit_slab hdx hdy hdz hx01 hy01 hz01]
        exact ⟨⟨le_trans hxa hsM, hsx⟩, ⟨le_trans hya hsM, hsy⟩,
          le_trans (min_le_right _ _) hsM,
          le_trans (le_of_lt hstzm) (le_max_left _ _)⟩
      rcases min_cases (max sx0 sx1) (max sy0 sy1) with ⟨hseq, _⟩ | ⟨hseq, _⟩
      · rcases max_cases sx0 sx1 with ⟨hmeq, _⟩ | ⟨hmeq, _⟩
        · exact Or.inl ((hs.trans (hseq.trans hmeq)) ▸ hseg)
        · exact Or.inr (Or.inl ((hs.trans (hseq.trans hmeq)) ▸ hseg))
      · rcases max_cases sy0 sy1 with ⟨hmeq, _⟩ | ⟨hmeq, _⟩
        · exact Or.inr (Or.inr (Or.inl ((hs.trans (hseq.trans hmeq)) ▸ hseg)))
        · exact Or.inr (Or.inr (Or.inr ((hs.trans (hseq.trans hmeq)) ▸ hseg)))
    rcases hbad with hb | hb | hb | hb
    · exact Or.inr (hlow (Or.inl hb))
    · exact Or.inr (hupp (Or.inl hb))
    · exact Or.inr (hlow (Or.inr hb))
    · exact Or.inr (hupp (Or.inr hb))

end Crafter

namespace Crafter

open Ocnode

/-- At the finest level the resolution is 1, so raw-index plane constants
coincide with the box planes, and the untested `z`-maximum plane is covered
by the geometric lemma: for finest-level nodes and lines parallel to no
coordinate plane, `intersects_line` agrees exactly with the six-plane
specification. -/
theorem intersectsLine_iff_spec {self : Ocnode} {near far : P3}
    (hl : self.subDivisionLevel = LEVELS)
    (hx : near.x ≠ far.x) (hy : near.y ≠ far.y) (hz : near.z ≠ far.z) :
    (intersectsLine self near far = true ↔ specPlaneHit self near far = true) := by
  have hdx : far.x - near.x ≠ 0 := sub_ne_zero.mpr (Ne.symm hx)
  have hdy : far.y - near.y ≠ 0 := sub_ne_zero.mpr (Ne.symm hy)
  have hdz : far.z - near.z ≠ 0 := sub_ne_zero.mpr (Ne.symm hz)
  have hres : ((resolution self.subDivisionLevel : ℕ) : ℚ) = 1 := by
    rw [hl, show resolution LEVELS = 1 from rfl, Nat.cast_one]
  have hx01 : (self.xIndex : ℚ) ≤ (self.xIndex : ℚ) + 1 := by linarith
  have hy01 : (self.yIndex : ℚ) ≤ (self.yIndex : ℚ) + 1 := by linarith
  have hz01 : (self.zIndex : ℚ) ≤ (self.zIndex : ℚ) + 1 := by linarith
  rw [intersectsLine_eq_hitB, specPlaneHit_eq_hitB]
  simp only [Bool.or_eq_true, hitB_true_iff, hres, mul_one]
  constructor
  · intro hcode
    rcases hcode with h | h | h | h | h | h <;> tauto
  · rintro (h | h | h | h | h | h)
    · tauto
    · tauto
    · tauto
    · tauto
    · tauto
    · have h5 := zmax_implies hdx hdy hdz hx01 hy01 hz01 h
      tauto

/-- C3 (amended): restricted to trees whose active nodes all live at the
finest level and to lines parallel to no coordinate plane,
`find_first_collision` returns `None` exactly when no active node passes
the six-bounding-plane test, and otherwise the coordinates of an active
node passing the test whose squared distance from `near` to the index
origin is minimal among all passing active nodes. -/
theorem C3_collision_amended (t : Ocnode) (near far : P3)
    (hx : near.x ≠ far.x) (hy : near.y ≠ far.y) (hz : near.z ≠ far.z)
    (hlev : ∀ n ∈ activeNodes t, n.subDivisionLevel = LEVELS) :
    (findFirstCollision t near far = none
      ↔ ∀ n ∈ activeNodes t, specPlaneHit n near far = false)
    ∧ ∀ cx cy cz : Int, ∀ cl : Nat,
        findFirstCollision t near far = some (cx, cy, cz, cl)
        → ∃ n ∈ activeNodes t, specPlaneHit n near far = true
            ∧ n.xIndex = cx ∧ n.yIndex = cy ∧ n.zIndex = cz
            ∧ n.subDivisionLevel = cl
            ∧ ∀ m ∈ activeNodes t, specPlaneHit m near far = true
                → distanceTo n near ≤ distanceTo m near := by
  have hequiv : ∀ n ∈ activeNodes t,
      (intersectsLine n near far = true ↔ specPlaneHit n near far = true) :=
    fun n hn => intersectsLine_iff_spec (hlev n hn) hx hy hz
  have hval : findFirstCollision t near far
      = match ((activeNodes t).filter fun node => intersectsLine node near far).mergeSort
          (fun a b => decide (distanceTo a near ≤ distanceTo b near)) with
        | [] => none
        | h :: _ => some (h.xIndex, h.yIndex, h.zIndex, h.subDivisionLevel) := rfl
  rcases hms : ((activeNodes t).filter fun node => intersectsLine node near far).mergeSort
      (fun a b => decide (distanceTo a near ≤ distanceTo b near)) with _ | ⟨h, rest⟩
  · have hnone : findFirstCollision t near far = none := by rw [hval, hms]
    have hperm := List.mergeSort_perm
      ((activeNodes t).filter fun node => intersectsLine node near far)
      (fun a b => decide (distanceTo a near ≤ distanceTo b near))
    rw [hms] at hperm
    have hnil : (activeNodes t).filter (fun node => intersectsLine node near far)
        = [] := List.perm_nil.mp hperm.symm
    constructor
    · rw [hnone]
      constructor
      · intro _ n hn
        have hno := List.filter_eq_nil_iff.mp hnil n hn
        cases hsp : specPlaneHit n near far with
        | false => rfl
        | true => exact absurd ((hequiv n hn).mpr hsp) hno
      · intro _
        rfl
    · intro cx cy cz cl hceq
      rw [hnone] at hceq
      exact Option.noConfusion hceq
  · have hsome : findFirstCollision t near far
        = some (h.xIndex, h.yIndex, h.zIndex, h.subDivisionLevel) := by rw [hval, hms]
    have hperm := List.mergeSort_perm
      ((activeNodes t).filter fun node => intersectsLine node near far)
      (fun a b => decide (distanceTo a near ≤ distanceTo b near))
    rw [hms] at hperm
    have htrans : ∀ a b c : Ocnode,
        decide (distanceTo a near ≤ distanceTo b near) = true
        → decide (distanceTo b near ≤ distanceTo c near) = true
        → decide (distanceTo a near ≤ distanceTo c near) = true := by
      intro a b c hab hbc
      simp only [decide_eq_true_eq] at hab hbc ⊢
      exact le_trans hab hbc
    have htotal : ∀ a b : Ocnode,
        (decide (distanceTo a near ≤ distanceTo b near)
          || decide (distanceTo b near ≤ distanceTo a near)) = true := by
      intro a b
      simp only [Bool.or_eq_true, decide_eq_true_eq]
      exact le_total _ _
    have hsorted := List.sorted_mergeSort htrans htotal
      ((activeNodes t).filter fun node => intersectsLine node near far)
    rw [hms] at hsorted
    have hhd := (List.pairwise_cons.mp hsorted).1
    have hmem_h : h ∈ (activeNodes t).filter fun node => intersectsLine node near far :=
      hperm.subset (List.mem_cons_self h rest)
    obtain ⟨hhact, hhint⟩ := List.mem_filter.mp hmem_h
    constructor
    · rw [hsome]
      constructor
      · intro hcontra
        exact Option.noConfusion hcontra
      · intro hall
        exfalso
        have hsp := (hequiv h hhact).mp hhint
        have hfl := hall h hhact
        rw [hsp] at hfl
        cases hfl
    · intro cx cy cz cl hceq
      rw [hsome] at hceq
      have heqt := Option.some.inj hceq
      rw [Prod.mk.injEq, Prod.mk.injEq, Prod.mk.injEq] at heqt
      obtain ⟨h1, h2, h3, h4⟩ := heqt
      refine ⟨h, hhact, (hequiv h hhact).mp hhint, h1, h2, h3, h4, ?_⟩
      intro m hm hmspec
      have hmint := (hequiv m hm).mpr hmspec
      have hmfil : m ∈ (activeNodes t).filter fun node => intersectsLine node near far :=
        List.mem_filter.mpr ⟨hm, hmint⟩
      have hmms : m ∈ h :: rest := hperm.mem_iff.mpr hmfil
      rcases List.mem_cons.mp hmms with rfl | hmrest
      · exact le_refl _
      · have hle := hhd m hmrest
        simp only [decide_eq_true_eq] at hle
        exact hle

/-- The coarse active node refuting the original classification claim: a
childless active node one level above the finest, whose bounding box is
`[4,6] × [0,2] × [4,6]` while the probed plane constants are the raw
indices 2, 3, 0, 1, 2. -/
def c3Node : Ocnode :=
  .mk 2 0 2 7 true [] false ⟨1, 0, 0, 1⟩ 0 0 false false false false false false

/-- The line endpoints of the counterexample (all components exactly
representable in `f32`). -/
def c3Near : P3 := ⟨0, 1, 5⟩

def c3Far : P3 := ⟨8, 2, 6⟩

unseal Ocnode.activeNodes Ocnode.activeNodesList in
theorem c3_activeNodes : activeNodes c3Node = [c3Node] := rfl

/-- C3 (counterexample): the spec's six-bounding-plane test classifies the
coarse active node as intersecting the line — the true `x`-minimum plane
`x = 4` meets the box — yet `find_first_collision` returns `None`, because
every probed plane uses the raw index as its constant. -/
theorem C3_counterexample :
    specPlaneHit c3Node c3Near c3Far = true
    ∧ c3Node.active = true
    ∧ activeNodes c3Node = [c3Node]
    ∧ c3Near.x ≠ c3Far.x ∧ c3Near.y ≠ c3Far.y ∧ c3Near.z ≠ c3Far.z
    ∧ findFirstCollision c3Node c3Near c3Far = none := by
  have hfalse : intersectsLine c3Node c3Near c3Far = false := by
    cases hI : intersectsLine c3Node c3Near c3Far with
    | false => rfl
    | true =>
      exfalso
      rw [intersectsLine_eq_hitB] at hI
      simp only [Bool.or_eq_true] at hI
      rcases hI with h | h | h | h | h | h <;>
        (rw [hitB_true_iff] at h
         norm_num [segHit, c3Node, c3Near, c3Far, resolution, LEVELS] at h)
  have hspec : specPlaneHit c3Node c3Near c3Far = true := by
    rw [specPlaneHit_eq_hitB]
    simp only [Bool.or_eq_true]
    left
    rw [hitB_true_iff]
    norm_num [segHit, c3Node, c3Near, c3Far, resolution, LEVELS]
  have hval : findFirstCollision c3Node c3Near c3Far
      = match ((activeNodes c3Node).filter
          fun node => intersectsLine node c3Near c3Far).mergeSort
          (fun a b => decide (distanceTo a c3Near ≤ distanceTo b c3Near)) with
        | [] => none
        | h :: _ => some (h.xIndex, h.yIndex, h.zIndex, h.subDivisionLevel) := rfl
  have hnone : findFirstCollision c3Node c3Near c3Far = none := by
    rw [hval, c3_activeNodes]
    simp [List.filter_cons, hfalse, List.mergeSort_nil]
  exact ⟨hspec, rfl, c3_activeNodes, by decide, by decide, by decide, hnone⟩

end Crafter

namespace Crafter

open Ocnode

set_option maxRecDepth 10000 in
unseal Ocnode.activeNodes Ocnode.activeNodesList in
/-- Witness for the amended C3 on a one-leaf tree and a diagonal line: the
hypotheses hold and the collision characterisation applies. -/
theorem C3_witness :
    ((⟨2, 2, 2⟩ : P3).x ≠ (⟨3, 3, 3⟩ : P3).x)
    ∧ ((⟨2, 2, 2⟩ : P3).y ≠ (⟨3, 3, 3⟩ : P3).y)
    ∧ ((⟨2, 2, 2⟩ : P3).z ≠ (⟨3, 3, 3⟩ : P3).z)
    ∧ (∀ n ∈ activeNodes (mkLeaf 0 0 0 true ⟨1, 0, 0, 1⟩),
        n.subDivisionLevel = LEVELS)
    ∧ ((findFirstCollision (mkLeaf 0 0 0 true ⟨1, 0, 0, 1⟩) ⟨2, 2, 2⟩ ⟨3, 3, 3⟩ = none
        ↔ ∀ n ∈ activeNodes (mkLeaf 0 0 0 true ⟨1, 0, 0, 1⟩),
            specPlaneHit n ⟨2, 2, 2⟩ ⟨3, 3, 3⟩ = false)
      ∧ ∀ cx cy cz : Int, ∀ cl : Nat,
          findFirstCollision (mkLeaf 0 0 0 true ⟨1, 0, 0, 1⟩) ⟨2, 2, 2⟩ ⟨3, 3, 3⟩
            = some (cx, cy, cz, cl)
          → ∃ n ∈ activeNodes (mkLeaf 0 0 0 true ⟨1, 0, 0, 1⟩),
              specPlaneHit n ⟨2, 2, 2⟩ ⟨3, 3, 3⟩ = true
              ∧ n.xIndex = cx ∧ n.yIndex = cy ∧ n.zIndex = cz
              ∧ n.subDivisionLevel = cl
              ∧ ∀ m ∈ activeNodes (mkLeaf 0 0 0 true ⟨1, 0, 0, 1⟩),
                  specPlaneHit m ⟨2, 2, 2⟩ ⟨3, 3, 3⟩ = true
                  → distanceTo n ⟨2, 2, 2⟩ ≤ distanceTo m ⟨2, 2, 2⟩) :=
  ⟨by decide, by decide, by decide, by decide,
   C3_collision_amended (mkLeaf 0 0 0 true ⟨1, 0, 0, 1⟩) ⟨2, 2, 2⟩ ⟨3, 3, 3⟩
     (by decide) (by decide) (by decide) (by decide)⟩

end Crafter
